import Mathlib

/-!
Symbol cache: dependency resolution, stage ordering and statistics persistence.

A shallow embedding of `src/libserver/symcache/symcache_impl.cxx`.

* Items live in an arena (`symcache.heap`); a `cache_item_ptr` is an address in it.
  Every container of the C++ class (`items_by_symbol`, `items_by_id`,
  `virtual_symbols`, the four stage vectors, `dep.item`, `parent`) stores such
  addresses, so that a write through one shared pointer is seen through all others.
* `double` values are exact rationals, `guint64` counters are naturals reduced
  modulo `2 ^ 64`, `int` values are integers.
* A null pointer that the C++ code dereferences and a `g_abort()` are the two
  ways an operation can fail to return; both are explicit results (`fault`).
-/

namespace rspamd

/-! ## Data model -/

/-- Address of a `cache_item` in the arena; the model of a non-null `cache_item_ptr`. -/
abbrev cache_item_ptr := Nat

/-- Modelled from the spec: the `type_flags` bitset of an item. The numeric values of the
`SYMBOL_TYPE_*` masks are declared outside this file, so each mask tested by the code
(`type & SYMBOL_TYPE_X`) is one boolean. -/
structure symbol_type where
  ghost : Bool
  prefilter : Bool
  postfilter : Bool
  idempotent : Bool
  deriving DecidableEq, Repr, Inhabited

/-- Modelled from the spec: the Dependency Edge record, declared outside this file. The
fields are `cache_dependency{item, sym, id, vid}` in the order the constructor is called at
`emplace_back`. `item` is the resolved target (null until resolved),
`sym` the target symbol, `id` the real source id and `vid` the virtual source id. -/
structure cache_dependency where
  item : Option cache_item_ptr
  sym : String
  id : Int
  vid : Int
  deriving DecidableEq, Repr, Inhabited

/-- Modelled from the spec: the mean and deviation of a running counter, declared outside
this file; these are the members `mean` and `stddev` of `time_counter` and
`frequency_counter` that `save_items` reads. -/
structure counter_data where
  mean : ℚ
  stddev : ℚ
  deriving DecidableEq, Repr, Inhabited

/-- Modelled from the spec: the Stats Record `item->st`, declared outside this file, with the
members this file reads or writes. -/
structure item_stat where
  time_counter : counter_data
  avg_time : ℚ
  weight : ℚ
  total_hits : Nat
  frequency_counter : counter_data
  avg_frequency : ℚ
  stddev_frequency : ℚ
  deriving DecidableEq, Repr, Inhabited

/-- Modelled from the spec: the `specific` variant of an item, declared outside this file: a
normal (real) item with its optional condition callback, or a virtual item with its direct
`parent` reference and the fallback `parent_id`. -/
inductive item_specific where
  | normal_item (condition : Option Int)
  | virtual_item (parent : Option cache_item_ptr) (parent_id : Int)
  deriving DecidableEq, Repr, Inhabited

/-- Modelled from the spec: the Item record `cache_item`, declared outside this file, with
the members this file reads or writes. The accessor `is_filter()` is declared outside this
file too; its value depends only on the registration data of the item, which nothing here
changes, and is taken as given for each item in the field `is_filter`. -/
structure cache_item where
  id : Int
  symbol : String
  type : symbol_type
  priority : Int
  st : item_stat
  last_count : Nat
  deps : List cache_dependency
  rdeps : List cache_dependency
  allowed_ids : List Nat
  forbidden_ids : List Nat
  specific : item_specific
  is_filter : Bool
  deriving DecidableEq, Repr, Inhabited

/-- Modelled from the spec: a queued dependency declaration (an element of `delayed_deps`),
declared outside this file. -/
structure delayed_cache_dependency where
  «from» : String
  «to» : String
  deriving DecidableEq, Repr, Inhabited

/-- Modelled from the spec: a queued condition registration (an element of
`delayed_conditions`), declared outside this file; the callback handle is a number and the
scripting state is left out. -/
structure delayed_cache_condition where
  sym : String
  cbref : Int
  deriving DecidableEq, Repr, Inhabited

/-- Modelled from the spec: the Registry `symcache`, declared outside this file, with the
members this file reads or writes. `delayed_deps` and `delayed_conditions` are owning
pointers to vectors and are null after `reset()`. -/
structure symcache where
  heap : List cache_item
  items_by_symbol : List (String × cache_item_ptr)
  items_by_id : List (Option cache_item_ptr)
  virtual_symbols : List (Option cache_item_ptr)
  connfilters : List cache_item_ptr
  prefilters : List cache_item_ptr
  postfilters : List cache_item_ptr
  idempotent : List cache_item_ptr
  delayed_deps : Option (List delayed_cache_dependency)
  delayed_conditions : Option (List delayed_cache_condition)
  total_weight : ℚ
  total_hits : Nat
  deriving DecidableEq, Repr, Inhabited

/-- The ways an operation fails to return. -/
inductive fault where
  | null_deref
  | aborted
  deriving DecidableEq, Repr, Inhabited

/-! ## Arena access -/

/-- The item stored at an address, if the address is inside the arena. -/
def symcache.item (cache : symcache) (p : cache_item_ptr) : Option cache_item :=
  cache.heap[p]?

/-- Write through a pointer: replace the item at address `p` by `f` of it. -/
def symcache.modify (cache : symcache) (p : cache_item_ptr) (f : cache_item → cache_item) :
    symcache :=
  { cache with heap := cache.heap.modify f p }

/-- The lookup `items_by_symbol.find(name)`: the pointer stored under the first equal key. -/
def symcache.find (cache : symcache) (name : String) : Option cache_item_ptr :=
  cache.items_by_symbol.lookup name

/-! ## Item lookup -/

/-- `is_virtual()`: the variant holds a `virtual_item`. -/
def cache_item.is_virtual (it : cache_item) : Bool :=
  match it.specific with
  | .virtual_item _ _ => true
  | .normal_item _ => false

/-- The first part of `symcache::get_item_by_id`: the bounds check and the null check on
`items_by_id[id]`. This is the whole function when `resolve_parent` is false. -/
def symcache.item_by_id_slot (cache : symcache) (id : Int) : Option cache_item_ptr :=
  if id < 0 ∨ id ≥ (cache.items_by_id.length : Int) then
    none
  else
    match cache.items_by_id[id.toNat]? with
    | some (some p) => some p
    | _ => none

/-- `virtual_item::get_parent`: the direct reference if set, else
`cache.get_item_by_id(parent_id, false)`. -/
def virtual_item_get_parent (cache : symcache) (parent : Option cache_item_ptr)
    (parent_id : Int) : Option cache_item_ptr :=
  match parent with
  | some p => some p
  | none => cache.item_by_id_slot parent_id

/-- `cache_item::get_parent`. -/
def cache_item.get_parent (it : cache_item) (cache : symcache) : Option cache_item_ptr :=
  match it.specific with
  | .virtual_item parent parent_id => virtual_item_get_parent cache parent parent_id
  | .normal_item _ => none

/-- `symcache::get_item_by_id`. -/
def symcache.get_item_by_id (cache : symcache) (id : Int) (resolve_parent : Bool) :
    Option cache_item_ptr :=
  match cache.item_by_id_slot id with
  | none => none
  | some ret =>
    if resolve_parent then
      match cache.item ret with
      | some it => if it.is_virtual then it.get_parent cache else some ret
      | none => none
    else some ret

/-- `symcache::get_item_by_name`. -/
def symcache.get_item_by_name (cache : symcache) (name : String) (resolve_parent : Bool) :
    Option cache_item_ptr :=
  match cache.find name with
  | none => none
  | some p =>
    if resolve_parent then
      match cache.item p with
      | some it => if it.is_virtual then it.get_parent cache else some p
      | none => none
    else some p

/-- `symcache::get_item_by_name_mut`: the same lookup, returning a mutable pointer. -/
def symcache.get_item_by_name_mut (cache : symcache) (name : String) (resolve_parent : Bool) :
    Option cache_item_ptr :=
  match cache.find name with
  | none => none
  | some p =>
    if resolve_parent then
      match cache.item p with
      | some it => if it.is_virtual then it.get_parent cache else some p
      | none => none
    else some p

/-! ## Dependency resolution -/

/-- `symcache::add_dependency`; a failed `g_assert` aborts. -/
def symcache.add_dependency (cache : symcache) (id_from : Int) (to_sym : String)
    (virtual_id_from : Int) : Except fault symcache :=
  if ¬ (id_from ≥ 0 ∧ id_from < (cache.items_by_id.length : Int)) then
    .error .aborted
  else
    match cache.items_by_id[id_from.toNat]? with
    | some (some source) =>
      let cache1 := cache.modify source fun it =>
        { it with deps := it.deps ++ [⟨none, to_sym, id_from, -1⟩] }
      if virtual_id_from ≥ 0 then
        if ¬ (virtual_id_from < (cache1.virtual_symbols.length : Int)) then
          .error .aborted
        else
          match cache1.virtual_symbols[virtual_id_from.toNat]? with
          | some (some vsource) =>
            .ok (cache1.modify vsource fun it =>
              { it with deps := it.deps ++ [⟨none, to_sym, -1, virtual_id_from⟩] })
          | _ => .error .aborted
      else
        .ok cache1
    | _ => .error .aborted

/-- Modelled from the spec: `id_list::get_ids(nids)`, declared outside this file. It gives the
stored identifiers; their number is the `nids` that the caller tests. -/
@[reducible] def get_ids (stored : List Nat) : List Nat := stored

/-- Modelled from the spec: `id_list::set_ids(ids, nids, pool)`, declared outside this file.
The stored identifiers are replaced by the given ones (replace, not union). -/
@[reducible] def set_ids (_stored : List Nat) (ids : List Nat) : List Nat := ids

/-- The identifier propagation block of `process_deps` (the `if (dep.vid >= 0)` branch).
`dit` is read without a null check once `vdit` is found. -/
def propagate_ids (cache : symcache) (self : cache_item_ptr) (dep : cache_dependency)
    (dit : Option cache_item_ptr) : Except fault symcache :=
  if dep.vid ≥ 0 then
    match cache.get_item_by_name dep.sym false with
    | none => .ok cache
    | some _vdit =>
      match dit.bind cache.item with
      | none => .error .null_deref
      | some d =>
        let cache1 :=
          if (get_ids d.allowed_ids).length > 0 then
            cache.modify self fun it =>
              { it with allowed_ids := set_ids it.allowed_ids (get_ids d.allowed_ids) }
          else cache
        let cache2 :=
          if (get_ids d.forbidden_ids).length > 0 then
            cache1.modify self fun it =>
              { it with forbidden_ids := set_ids it.forbidden_ids (get_ids d.forbidden_ids) }
          else cache1
        .ok cache2
  else
    .ok cache

/-- The stage sanity check computed when the target is not a filter: `ok_dep`. -/
def ok_dep (me dit : cache_item) : Bool :=
  if me.is_filter then
    if dit.is_filter then true
    else if dit.type.prefilter then true
    else false
  else if me.type.postfilter then
    if dit.type.prefilter then true else false
  else if me.type.idempotent then
    if dit.type.prefilter || dit.type.postfilter then true else false
  else if me.type.prefilter then
    if me.priority < dit.priority then true else false
  else false

/-- The `if (dit != nullptr) ... else if (dep.id >= 0)` block of `process_deps` for one
edge: returns the registry and the edge as they are after the block. Only the branch of a
filter target with another id writes anything. -/
def link_dep (cache : symcache) (self : cache_item_ptr) (me : cache_item)
    (dep : cache_dependency) (dit : Option cache_item_ptr) : symcache × cache_dependency :=
  match dit with
  | some t =>
    match cache.item t with
    | some d =>
      if !d.is_filter then
        if !ok_dep me d then (cache, dep) else (cache, dep)
      else if d.id = me.id then (cache, dep)
      else
        (cache.modify t fun it => { it with rdeps := it.rdeps ++ [⟨some self, dep.sym, me.id, -1⟩] },
          { dep with item := some t, id := d.id })
    | none => (cache, dep)
  | none => (cache, dep)

/-- The `for (auto &dep : deps)` loop of `process_deps`. The vector `deps` of the current
item is touched only through the loop reference `dep`, so the edges are threaded through the
loop and stored back by `process_deps`; every other write goes to the arena at once. -/
def process_deps_loop (self : cache_item_ptr) :
    symcache → List cache_dependency → Except fault (symcache × List cache_dependency)
  | cache, [] => .ok (cache, [])
  | cache, dep :: rest =>
    match cache.item self with
    | none => .error .null_deref
    | some me =>
      let dit := cache.get_item_by_name_mut dep.sym true
      match propagate_ids cache self dep dit with
      | .error e => .error e
      | .ok cache1 =>
        let r := link_dep cache1 self me dep dit
        match process_deps_loop self r.1 rest with
        | .error e => .error e
        | .ok (cache2, rest2) => .ok (cache2, r.2 :: rest2)

/-- `cache_item::process_deps` called on the item at address `self`: the loop, then the
erase of the edges whose `item` is still null. -/
def process_deps (cache : symcache) (self : cache_item_ptr) : Except fault symcache :=
  match cache.item self with
  | none => .error .null_deref
  | some me =>
    match process_deps_loop self cache me.deps with
    | .error e => .error e
    | .ok (cache1, deps1) =>
      .ok (cache1.modify self fun it => { it with deps := deps1.filter fun d => d.item.isSome })

/-! ## Stage ordering -/

/-- The lambda `postfilters_cmp` of `init`, with its `int` result. -/
def postfilters_cmp (it1 it2 : cache_item) : Int :=
  if it1.priority > it2.priority then 1
  else if it1.priority = it2.priority then 0
  else -1

/-- The lambda `prefilters_cmp` of `init`, with its `int` result. -/
def prefilters_cmp (it1 it2 : cache_item) : Int :=
  if it1.priority > it2.priority then -1
  else if it1.priority = it2.priority then 0
  else 1

/-- The scan of one insertion step (`__unguarded_linear_insert`), on the already placed
prefix held in reverse (nearest element first): `val` moves towards the front while
`comp(val, next)`. -/
def linear_insert {α : Type} (comp : α → α → Bool) (val : α) : List α → List α
  | [] => [val]
  | next :: before => if comp val next then next :: linear_insert comp val before
                      else val :: next :: before

/-- One insertion step: when `comp(val, *first)` the element goes to the very front,
otherwise it is placed by the scan. The prefix is held in reverse, so `*first` is its last
element. -/
def insert_step {α : Type} (comp : α → α → Bool) (val : α) (placed_rev : List α) : List α :=
  match placed_rev.getLast? with
  | some first => if comp val first then placed_rev ++ [val] else linear_insert comp val placed_rev
  | none => [val]

/-- The elements of a range inserted one by one (`__insertion_sort`), the placed prefix held
in reverse. -/
def insertion_sort {α : Type} (comp : α → α → Bool) : List α → List α → List α
  | placed_rev, [] => placed_rev.reverse
  | placed_rev, x :: rest => insertion_sort comp (insert_step comp x placed_rev) rest

/-- The loop of `__move_merge` while the first range starts with `a`: the elements of the
second range go out as long as `comp(*first2, a)`; then `a` goes out and the loop goes on
with the rest of the first range (`continue_with`). When the second range is used up, what
is left of the first range is moved. -/
def move_merge_head {α : Type} (comp : α → α → Bool) (a : α) (rest1 : List α)
    (continue_with : List α → List α) : List α → List α
  | [] => a :: rest1
  | b :: rest2 =>
    if comp b a then b :: move_merge_head comp a rest1 continue_with rest2
    else a :: continue_with (b :: rest2)

/-- The library routine `__move_merge(first1, last1, first2, last2, result, comp)`: while
both ranges hold an element, `*first2` goes out when `comp(*first2, *first1)` and `*first1`
otherwise; then what is left of either range is moved. `__move_merge_adaptive`, which merges
the buffered first half with the second half, runs the same loop. -/
def move_merge {α : Type} (comp : α → α → Bool) : List α → List α → List α
  | [], range2 => range2
  | a :: rest1, range2 => move_merge_head comp a rest1 (move_merge comp rest1) range2

/-- The loop of `__move_merge_adaptive_backward` while the first range ends with `a`, both
ranges held in reverse: `a` goes out (at the back) when `comp(*last2, a)`, and the loop goes
on with the rest of the first range (`continue_with`); otherwise `*last2` goes out. -/
def move_merge_backward_head {α : Type} (comp : α → α → Bool) (a : α) (rest1 : List α)
    (continue_with : List α → List α) : List α → List α
  | [] => a :: rest1
  | b :: rest2 =>
    if comp b a then a :: continue_with (b :: rest2)
    else b :: move_merge_backward_head comp a rest1 continue_with rest2

/-- The loop of `__move_merge_adaptive_backward` on the two ranges held in reverse; the
result is in reverse too. -/
def move_merge_backward_rev {α : Type} (comp : α → α → Bool) : List α → List α → List α
  | [], range2 => range2
  | a :: rest1, range2 =>
    move_merge_backward_head comp a rest1 (move_merge_backward_rev comp rest1) range2

/-- The library routine `__move_merge_adaptive_backward`: the first half and the buffered
second half are merged from their last elements towards the front. -/
def move_merge_adaptive_backward {α : Type} (comp : α → α → Bool) (range1 range2 : List α) :
    List α :=
  (move_merge_backward_rev comp range1.reverse range2.reverse).reverse

/-- The library routine `__merge_adaptive` with a buffer that holds either half: the forward
merge when `len1 <= len2`, else the backward merge. -/
def merge_adaptive {α : Type} (comp : α → α → Bool) (range1 range2 : List α) : List α :=
  if range1.length ≤ range2.length then move_merge comp range1 range2
  else move_merge_adaptive_backward comp range1 range2

/-- The loop `while (last - first >= chunk_size)` of `__chunk_insertion_sort`, which runs
`n` times, and the insertion sort of the last chunk. -/
def chunk_insertion_sort_loop {α : Type} (comp : α → α → Bool) (chunk_size : Nat) :
    Nat → List α → List α
  | 0, xs => insertion_sort comp [] xs
  | n + 1, xs =>
    insertion_sort comp [] (xs.take chunk_size) ++
      chunk_insertion_sort_loop comp chunk_size n (xs.drop chunk_size)

/-- The library routine `__chunk_insertion_sort`: every full chunk of `chunk_size` elements
and the remainder are sorted by insertion. The loop runs once per full chunk. -/
def chunk_insertion_sort {α : Type} (comp : α → α → Bool) (chunk_size : Nat) (xs : List α) :
    List α :=
  chunk_insertion_sort_loop comp chunk_size (xs.length / chunk_size) xs

/-- The loop `while (last - first >= two_step)` of `__merge_sort_loop`, which runs `n`
times, and the merge of what is left, cut at `min(last - first, step_size)`. -/
def merge_sort_loop_pairs {α : Type} (comp : α → α → Bool) (step_size : Nat) :
    Nat → List α → List α
  | 0, xs =>
    let step := min xs.length step_size
    move_merge comp (xs.take step) (xs.drop step)
  | n + 1, xs =>
    move_merge comp (xs.take step_size) ((xs.drop step_size).take step_size) ++
      merge_sort_loop_pairs comp step_size n (xs.drop (2 * step_size))

/-- The library routine `__merge_sort_loop`: neighbouring runs of `step_size` elements are
merged pairwise. The loop runs once per full pair of runs. -/
def merge_sort_loop {α : Type} (comp : α → α → Bool) (step_size : Nat) (xs : List α) :
    List α :=
  merge_sort_loop_pairs comp step_size (xs.length / (2 * step_size)) xs

/-- The loop `while (step_size < len)` of `__merge_sort_with_buffer`: each round merges into
the buffer with `step_size` and back with twice that, and goes on with four times the step.
The first argument bounds the number of rounds. -/
def merge_sort_rounds {α : Type} (comp : α → α → Bool) (len : Nat) :
    Nat → Nat → List α → List α
  | 0, _, xs => xs
  | rounds + 1, step_size, xs =>
    if step_size < len then
      merge_sort_rounds comp len rounds (4 * step_size)
        (merge_sort_loop comp (2 * step_size) (merge_sort_loop comp step_size xs))
    else xs

/-- The library routine `__merge_sort_with_buffer`: chunks of `_S_chunk_size = 7` elements
are sorted by insertion, then merged with doubling step. The step starts at 7 and is
multiplied by four in each round, so `len` rounds are more than the loop runs. -/
def merge_sort_with_buffer {α : Type} (comp : α → α → Bool) (xs : List α) : List α :=
  merge_sort_rounds comp xs.length xs.length 7 (chunk_insertion_sort comp 7 xs)

/-- The library routine `std::stable_sort(first, last, comp)`, with `comp` the predicate
"goes before", as the GNU C++ library runs it when it obtains its temporary buffer
(`__stable_sort_adaptive`): the range is cut at `(len + 1) / 2`, each half is sorted by
`__merge_sort_with_buffer`, and the two halves are merged by `__merge_adaptive`. -/
def stable_sort {α : Type} (comp : α → α → Bool) (xs : List α) : List α :=
  let len := (xs.length + 1) / 2
  merge_adaptive comp (merge_sort_with_buffer comp (xs.take len))
    (merge_sort_with_buffer comp (xs.drop len))

/-- A comparison lambda applied to two stored pointers and used where a `bool` is expected:
the `int` result converts to `true` exactly when it is not zero. -/
def symcache.as_predicate (cache : symcache) (cmp : cache_item → cache_item → Int)
    (p1 p2 : cache_item_ptr) : Bool :=
  match cache.item p1, cache.item p2 with
  | some it1, some it2 => cmp it1 it2 != 0
  | _, _ => false

/-- The "Sorting stuff" block of `init`: the four `std::stable_sort` calls. -/
def symcache.sort_stages (cache : symcache) : symcache :=
  { cache with
    connfilters := stable_sort (cache.as_predicate prefilters_cmp) cache.connfilters
    prefilters := stable_sort (cache.as_predicate prefilters_cmp) cache.prefilters
    postfilters := stable_sort (cache.as_predicate postfilters_cmp) cache.postfilters
    idempotent := stable_sort (cache.as_predicate postfilters_cmp) cache.idempotent }

/-! ## Statistics persistence -/

/-- Modelled from the spec: the structured document of the persisted payload, handled by the
external parser and emitter. An object keeps its entries in iteration order. -/
inductive ucl_object where
  | ucl_null
  | ucl_int (iv : Int)
  | ucl_float (dv : ℚ)
  | ucl_string (sv : String)
  | ucl_boolean (bv : Bool)
  | ucl_obj (entries : List (String × ucl_object))
  | ucl_array (elems : List ucl_object)
  deriving Repr, Inhabited

/-- `ucl_object_type(o) == UCL_OBJECT`. -/
def ucl_object.is_object : ucl_object → Bool
  | .ucl_obj _ => true
  | _ => false

/-- `ucl_object_lookup(o, key)`: the value under `key` of an object, null otherwise. -/
def ucl_object_lookup : ucl_object → String → Option ucl_object
  | .ucl_obj entries, key => entries.lookup key
  | _, _ => none

/-- `ucl_object_todouble`: the numeric value of a number, `0` for anything else. -/
def ucl_object_todouble : ucl_object → ℚ
  | .ucl_int iv => (iv : ℚ)
  | .ucl_float dv => dv
  | _ => 0

/-- `ucl_object_toint`: the value of an integer, a float truncated towards zero, `0` for
anything else. -/
def ucl_object_toint : ucl_object → Int
  | .ucl_int iv => iv
  | .ucl_float dv => if 0 ≤ dv then ⌊dv⌋ else ⌈dv⌉
  | _ => 0

/-- Conversion of an `int64_t` to `guint64`. -/
def to_uint64 (v : Int) : Nat := (v % (2 ^ 64 : Int)).toNat

/-- Conversion of a `guint64` to `int64_t`. -/
def to_int64 (n : Nat) : Int :=
  if n % 2 ^ 64 < 2 ^ 63 then ((n % 2 ^ 64 : Nat) : Int) else ((n % 2 ^ 64 : Nat) : Int) - 2 ^ 64

/-- The parts of the environment of `load_items` that are declared elsewhere:
`sizeof(struct symcache_header)`, the bytes of `symcache_magic`, and the external parser
(`ucl_parser_add_chunk` followed by `ucl_parser_get_object`): `none` when the chunk is
rejected, `some none` when no object comes back. -/
structure externals where
  header_size : Nat
  symcache_magic : List Nat
  ucl_parse : List Nat → Option (Option ucl_object)

/-- The block `elt = ucl_object_lookup(cur, "time")` of the loop of `load_items`, as the
write it makes to the item. -/
def load_time (cur : ucl_object) (it : cache_item) : cache_item :=
  match ucl_object_lookup cur "time" with
  | some elt => { it with st := { it.st with avg_time := ucl_object_todouble elt } }
  | none => it

/-- The block `elt = ucl_object_lookup(cur, "count")`: `total_hits` and its copy
`last_count`. -/
def load_count (cur : ucl_object) (it : cache_item) : cache_item :=
  match ucl_object_lookup cur "count" with
  | some elt =>
    { it with st := { it.st with total_hits := to_uint64 (ucl_object_toint elt) },
              last_count := to_uint64 (ucl_object_toint elt) }
  | none => it

/-- The block `elt = ucl_object_lookup(cur, "frequency")`: `avg` and `stddev` of a nested
object. -/
def load_frequency (cur : ucl_object) (it : cache_item) : cache_item :=
  match ucl_object_lookup cur "frequency" with
  | some elt =>
    if elt.is_object then
      let it1 :=
        match ucl_object_lookup elt "avg" with
        | some freq_elt =>
          { it with st := { it.st with avg_frequency := ucl_object_todouble freq_elt } }
        | none => it
      match ucl_object_lookup elt "stddev" with
      | some freq_elt =>
        { it1 with st := { it1.st with stddev_frequency := ucl_object_todouble freq_elt } }
      | none => it1
    else it
  | none => it

/-- The statement `if (parent) { if (parent->st->weight < item->st->weight)
parent->st->weight = item->st->weight; }` for the item `it`. -/
def raise_parent_weight (cache : symcache) (parent : Option cache_item_ptr)
    (it : cache_item) : symcache :=
  match parent with
  | some pp =>
    match cache.item pp with
    | some par =>
      if par.st.weight < it.st.weight then
        cache.modify pp fun x => { x with st := { x.st with weight := it.st.weight } }
      else cache
    | none => cache
  | none => cache

/-- The block of the loop of `load_items` for a virtual item `it` (stored at `item`) that is
not a ghost: the weight of the parent is raised to the weight of the item, then the item takes
the `avg_time` of the parent, which is read without a null check. -/
def load_virtual (cache : symcache) (item : cache_item_ptr) (it : cache_item) :
    Except fault symcache :=
  let parent := it.get_parent cache
  let cache1 := raise_parent_weight cache parent it
  match parent.bind cache1.item with
  | none => .error .null_deref
  | some par =>
    .ok (cache1.modify item fun x => { x with st := { x.st with avg_time := par.st.avg_time } })

/-- The end of the loop body of `load_items`: `total_weight += fabs(item->st->weight)` and
`total_hits += item->st->total_hits`. -/
def add_totals (cache : symcache) (item : cache_item_ptr) : Except fault symcache :=
  match cache.item item with
  | none => .error .null_deref
  | some it =>
    .ok { cache with
          total_weight := cache.total_weight + |it.st.weight|
          total_hits := (cache.total_hits + it.st.total_hits) % 2 ^ 64 }

/-- The body of the `while` loop of `load_items` for one entry `cur` with key `key`. -/
def load_entry (cache : symcache) (key : String) (cur : ucl_object) : Except fault symcache :=
  match cache.find key with
  | none => .ok cache
  | some item =>
    let cache1 := cache.modify item (load_time cur)
    let cache2 := cache1.modify item (load_count cur)
    let cache3 := cache2.modify item (load_frequency cur)
    match cache3.item item with
    | none => .error .null_deref
    | some it =>
      match (if it.is_virtual && !it.type.ghost then load_virtual cache3 item it
             else .ok cache3) with
      | .error e => .error e
      | .ok cache4 => add_totals cache4 item

/-- The `while` loop of `load_items` over the entries of the top object. -/
def load_entries : symcache → List (String × ucl_object) → Except fault symcache
  | cache, [] => .ok cache
  | cache, (key, cur) :: rest =>
    match load_entry cache key cur with
    | .error e => .error e
    | .ok cache1 => load_entries cache1 rest

/-- The part of `load_items` after the parser has run: the check of the top object and the
loop over its entries. -/
def load_top (cache : symcache) (top : Option ucl_object) : Except fault (Bool × symcache) :=
  match top with
  | some (.ucl_obj entries) =>
    match load_entries cache entries with
    | .error e => .error e
    | .ok cache1 => .ok (true, cache1)
  | _ => .ok (false, cache)

/-- `symcache::load_items`. `cached_map` is the result of mapping the file: `none` when the
mapping fails, else its bytes. -/
def symcache.load_items (ext : externals) (cache : symcache) (cached_map : Option (List Nat)) :
    Except fault (Bool × symcache) :=
  match cached_map with
  | none => .ok (false, cache)
  | some bytes =>
    if bytes.length < ext.header_size then .ok (false, cache)
    else if bytes.take ext.symcache_magic.length ≠ ext.symcache_magic then .ok (false, cache)
    else
      match ext.ucl_parse (bytes.drop ext.header_size) with
      | none => .ok (false, cache)
      | some top => load_top cache top

/-- `round_to_hundreds`. -/
def round_to_hundreds (x : ℚ) : ℚ := ((⌊x⌋ : ℚ) * 100) / 100

/-- The object built by `save_items` for one item. -/
def save_elt (it : cache_item) : ucl_object :=
  .ucl_obj [
    ("weight", .ucl_float (round_to_hundreds it.st.weight)),
    ("time", .ucl_float (round_to_hundreds it.st.time_counter.mean)),
    ("count", .ucl_int (to_int64 it.st.total_hits)),
    ("frequency", .ucl_obj [
      ("avg", .ucl_float (round_to_hundreds it.st.frequency_counter.mean)),
      ("stddev", .ucl_float (round_to_hundreds it.st.frequency_counter.stddev))])]

/-- The object `top` built by the `for` loop of `save_items` over `items_by_symbol` and
handed to the emitter; a null item pointer cannot be read. -/
def save_top (cache : symcache) : List (String × cache_item_ptr) →
    Except fault (List (String × ucl_object))
  | [] => .ok []
  | (name, item) :: rest =>
    match cache.item item with
    | none => .error .null_deref
    | some it =>
      match save_top cache rest with
      | .error e => .error e
      | .ok entries => .ok ((name, save_elt it) :: entries)

/-- The document written by `symcache::save_items` after the header. -/
def symcache.save_items (cache : symcache) : Except fault ucl_object :=
  match save_top cache cache.items_by_symbol with
  | .error e => .error e
  | .ok entries => .ok (.ucl_obj entries)

/-! ## Initialisation -/

/-- Modelled from the spec: `add_condition(callback)`, declared outside this file. It fails
on a virtual item and attaches the callback to a real item. -/
def cache_item.add_condition (it : cache_item) (cbref : Int) : Option cache_item :=
  match it.specific with
  | .virtual_item _ _ => none
  | .normal_item _ => some { it with specific := .normal_item (some cbref) }

/-- The loop of `init` over the delayed dependencies. -/
def delayed_deps_loop : symcache → List delayed_cache_dependency → Except fault symcache
  | cache, [] => .ok cache
  | cache, delayed_dep :: rest =>
    let virt_item := cache.get_item_by_name delayed_dep.«from» false
    let real_item := cache.get_item_by_name delayed_dep.«from» true
    match virt_item, real_item with
    | some v, some r =>
      match cache.item v, cache.item r with
      | some vit, some rit =>
        match cache.add_dependency rit.id delayed_dep.«to» (if v ≠ r then vit.id else -1) with
        | .error e => .error e
        | .ok cache1 => delayed_deps_loop cache1 rest
      | _, _ => .error .null_deref
    | _, _ => delayed_deps_loop cache rest

/-- The loop of `init` over the delayed conditions; a failing `add_condition` aborts. -/
def delayed_conditions_loop : symcache → List delayed_cache_condition → Except fault symcache
  | cache, [] => .ok cache
  | cache, delayed_cond :: rest =>
    match cache.get_item_by_name_mut delayed_cond.sym true with
    | none => delayed_conditions_loop cache rest
    | some p =>
      match cache.item p with
      | none => .error .null_deref
      | some it =>
        match it.add_condition delayed_cond.cbref with
        | none => .error .aborted
        | some it1 => delayed_conditions_loop (cache.modify p fun _ => it1) rest

/-- A loop `for (auto &it : v) it->process_deps(*this)` over a vector of item pointers. -/
def process_deps_all : symcache → List (Option cache_item_ptr) → Except fault symcache
  | cache, [] => .ok cache
  | _, none :: _ => .error .null_deref
  | cache, some p :: rest =>
    match process_deps cache p with
    | .error e => .error e
    | .ok cache1 => process_deps_all cache1 rest

/-- `symcache::init` up to the sort of the stage lists. `cached_map` is `none` when
`cfg->cache_filename` is null, else the result of mapping that file. The calls that follow
(`rspamd_symcache_resort` and the metric callback) belong to other files. -/
def symcache.init (ext : externals) (cache : symcache)
    (cached_map : Option (Option (List Nat))) : Except fault (Bool × symcache) :=
  let loaded : Except fault (Bool × symcache) :=
    match cached_map with
    | none => .ok (true, cache)
    | some m => cache.load_items ext m
  match loaded with
  | .error e => .error e
  | .ok (res, cache1) =>
    match cache1.delayed_deps with
    | none => .error .null_deref
    | some dd =>
      match delayed_deps_loop cache1 dd with
      | .error e => .error e
      | .ok cache2 =>
        let cache3 := { cache2 with delayed_deps := none }
        match cache3.delayed_conditions with
        | none => .error .null_deref
        | some dc =>
          match delayed_conditions_loop cache3 dc with
          | .error e => .error e
          | .ok cache4 =>
            let cache5 := { cache4 with delayed_conditions := none }
            match process_deps_all cache5 cache5.items_by_id with
            | .error e => .error e
            | .ok cache6 =>
              match process_deps_all cache6 cache6.virtual_symbols with
              | .error e => .error e
              | .ok cache7 => .ok (res, cache7.sort_stages)

/-! ## Vocabulary of the statements -/

/-- The registration data of an item: what neither the resolution pass nor the statistics
load writes. -/
def cache_item.core (it : cache_item) : cache_item :=
  { it with st := default, last_count := 0, deps := [], rdeps := [], allowed_ids := [],
            forbidden_ids := [] }

/-- The registry reduced to the registration data of its items and its containers. -/
def symcache.skeleton (cache : symcache) : symcache :=
  { cache with heap := cache.heap.map cache_item.core, total_weight := 0, total_hits := 0 }

/-- An item without the data written by the edge block and the identifier propagation. -/
def cache_item.unlinked (it : cache_item) : cache_item :=
  { it with rdeps := [], allowed_ids := [], forbidden_ids := [] }

/-- The reverse edges stored at an address. -/
def symcache.rdeps_at (cache : symcache) (q : cache_item_ptr) : List cache_dependency :=
  match cache.item q with
  | some it => it.rdeps
  | none => []

/-- The reverse edge that `process_deps` on the item at `self` (with id `self_id`) appends to
the target of `dep`. -/
def reverse_edge (self : cache_item_ptr) (self_id : Int) (dep : cache_dependency) :
    cache_dependency :=
  ⟨some self, dep.sym, self_id, -1⟩

/-- The target of an edge that the edge block links: the parent-resolved item registered
under the edge symbol, when it is a filter with an id other than `self_id`; with its id. -/
def accepted (cache : symcache) (self_id : Int) (dep : cache_dependency) :
    Option (cache_item_ptr × Int) :=
  match cache.get_item_by_name_mut dep.sym true with
  | some t =>
    match cache.item t with
    | some d => if d.is_filter = true ∧ d.id ≠ self_id then some (t, d.id) else none
    | none => none
  | none => none

/-- The edge as the edge block leaves it. -/
def resolved_edge (cache : symcache) (self_id : Int) (dep : cache_dependency) :
    cache_dependency :=
  match accepted cache self_id dep with
  | some (t, tid) => { dep with item := some t, id := tid }
  | none => dep

/-- The reverse edges that `process_deps` on the item at `self` appends at address `q`: one
for each edge of `deps`, in order, that is linked to `q`. -/
def added_rdeps (cache : symcache) (self : cache_item_ptr) (self_id : Int)
    (q : cache_item_ptr) (deps : List cache_dependency) : List cache_dependency :=
  (deps.filter fun dep => (accepted cache self_id dep).map Prod.fst = some q).map
    (reverse_edge self self_id)

/-- The relation between the registry before and after a part of `process_deps` on the item
at `p`: containers and all item data except `rdeps`, `allowed_ids` and `forbidden_ids` are
the same, the reverse edges `add q` are appended at each address `q`, and the identifier
lists change at `p` only. -/
structure linked (p : cache_item_ptr) (add : cache_item_ptr → List cache_dependency)
    (c c' : symcache) : Prop where
  containers : { c' with heap := [] } = { c with heap := [] }
  unl : ∀ q, (c'.item q).map cache_item.unlinked = (c.item q).map cache_item.unlinked
  rd : ∀ q, c'.rdeps_at q = c.rdeps_at q ++ add q
  ids : ∀ q, q ≠ p →
    (c'.item q).map (fun it => (it.allowed_ids, it.forbidden_ids)) =
      (c.item q).map (fun it => (it.allowed_ids, it.forbidden_ids))

/-- An edge whose identifier propagation reads a present target: either it carries no virtual
source id, or its symbol is not registered, or the parent-resolved lookup finds an item. -/
def safe_edge (cache : symcache) (dep : cache_dependency) : Prop :=
  dep.vid ≥ 0 → cache.get_item_by_name dep.sym false ≠ none →
    ∃ t d, cache.get_item_by_name_mut dep.sym true = some t ∧ cache.item t = some d

/-! ## Example registries -/

/-- A statistics block with all values zero. -/
def zero_stat : item_stat := ⟨⟨0, 0⟩, 0, 0, 0, ⟨0, 0⟩, 0, 0⟩

/-- No type flag set. -/
def no_flags : symbol_type := ⟨false, false, false, false⟩

/-- A real item with zero statistics, no reverse edges and no identifier lists. -/
def real_item (id : Int) (symbol : String) (type : symbol_type) (priority : Int)
    (is_filter : Bool) (deps : List cache_dependency) : cache_item :=
  ⟨id, symbol, type, priority, zero_stat, 0, deps, [], [], [], .normal_item none, is_filter⟩

/-- A virtual item with zero statistics and no edges. -/
def alias_item (id : Int) (symbol : String) (type : symbol_type)
    (parent : Option cache_item_ptr) (parent_id : Int) : cache_item :=
  ⟨id, symbol, type, 0, zero_stat, 0, [], [], [], [], .virtual_item parent parent_id, false⟩

/-- A registry with the given arena and index containers, empty stage lists, empty delayed
queues and zero totals. -/
def registry (heap : List cache_item) (items_by_symbol : List (String × cache_item_ptr))
    (items_by_id virtual_symbols : List (Option cache_item_ptr)) : symcache :=
  ⟨heap, items_by_symbol, items_by_id, virtual_symbols, [], [], [], [], some [], some [], 0, 0⟩

/-- Filter `A` (id 0, priority 5) with one unresolved edge on `B`; `B` (id 1, priority 1) is
a pre-filter. -/
def filter_on_prefilter : symcache :=
  registry
    [real_item 0 "A" no_flags 5 true [⟨none, "B", 0, -1⟩],
     real_item 1 "B" { no_flags with prefilter := true } 1 false []]
    [("A", 0), ("B", 1)] [some 0, some 1] []

/-- Filter `A` (id 0, priority 5) with one unresolved edge on filter `B` (id 1, priority 1). -/
def filter_on_filter : symcache :=
  registry
    [real_item 0 "A" no_flags 5 true [⟨none, "B", 0, -1⟩],
     real_item 1 "B" no_flags 1 true []]
    [("A", 0), ("B", 1)] [some 0, some 1] []

/-- Post-filter `A` (id 0) with one unresolved edge on filter `B` (id 1). -/
def postfilter_on_filter : symcache :=
  registry
    [real_item 0 "A" { no_flags with postfilter := true } 0 false [⟨none, "B", 0, -1⟩],
     real_item 1 "B" no_flags 0 true []]
    [("A", 0), ("B", 1)] [some 0, some 1] []

/-- Filter `A` (id 0) with an edge on its own symbol and an edge on `V`, a virtual alias
whose parent is `A`. -/
def self_dependent : symcache :=
  registry
    [real_item 0 "A" no_flags 0 true [⟨none, "A", 0, -1⟩, ⟨none, "V", 0, -1⟩],
     alias_item 0 "V" no_flags (some 0) 0]
    [("A", 0), ("V", 1)] [some 0] [some 1]

/-- Two items `H` (id 0, priority 2) and `L` (id 1, priority 1). The connection and
pre-filter lists hold them in descending priority, the post-filter and idempotent lists in
ascending priority: every list is in the order the stage rule asks for. -/
def ordered_stages : symcache :=
  { registry
      [real_item 0 "H" no_flags 2 false [], real_item 1 "L" no_flags 1 false []]
      [("H", 0), ("L", 1)] [some 0, some 1] [] with
    connfilters := [0, 1]
    prefilters := [0, 1]
    postfilters := [1, 0]
    idempotent := [1, 0] }

/-- The priorities of the items of a stage list, in list order. -/
def symcache.priorities (cache : symcache) (stage : List cache_item_ptr) : List (Option Int) :=
  stage.map fun p => (cache.item p).map cache_item.priority

/-- The statistics of the round-trip scenario: weight 3.456, time 0.1234, count 42, frequency
average 0.5 and deviation 0.02, in the running counters and in the averages alike. -/
def scenario_stat : item_stat :=
  { time_counter := ⟨1234 / 10000, 0⟩
    avg_time := 1234 / 10000
    weight := 3456 / 1000
    total_hits := 42
    frequency_counter := ⟨1 / 2, 2 / 100⟩
    avg_frequency := 1 / 2
    stddev_frequency := 2 / 100 }

/-- The registry that is saved: one real symbol `S` with the scenario statistics. -/
def saved_registry : symcache :=
  registry [{ real_item 0 "S" no_flags 0 true [] with st := scenario_stat, last_count := 42 }]
    [("S", 0)] [some 0] []

/-- The freshly constructed registry with the same symbol set: zero statistics and the
configured weight. -/
def fresh_registry : symcache :=
  registry
    [{ real_item 0 "S" no_flags 0 true [] with st := { zero_stat with weight := 3456 / 1000 } }]
    [("S", 0)] [some 0] []

/-- Real item `P` (id 0) and its virtual alias `V` (direct parent reference to `P`), with one
delayed condition, callback 7, naming `V`. -/
def condition_on_alias : symcache :=
  { registry
      [real_item 0 "P" no_flags 0 true [], alias_item 0 "V" no_flags (some 0) 0]
      [("P", 0), ("V", 1)] [some 0] [some 1] with
    delayed_conditions := some [⟨"V", 7⟩] }

/-- An environment without a statistics file: empty header and magic, a parser that rejects
everything. -/
def no_file : externals := ⟨0, [], fun _ => none⟩

/-- The fields of two per-symbol records are the same except for the value under `weight`. -/
def fields_same_but_weight (f1 f2 : List (String × ucl_object)) : Prop :=
  List.Forall₂ (fun x y => x.1 = y.1 ∧ (x.1 = "weight" ∨ x.2 = y.2)) f1 f2

/-- Two values of a payload are equal, or are records equal except for the value of their
`weight` field. -/
def record_same_but_weight (v1 v2 : ucl_object) : Prop :=
  v1 = v2 ∨ ∃ f1 f2, v1 = .ucl_obj f1 ∧ v2 = .ucl_obj f2 ∧ fields_same_but_weight f1 f2

/-- Two payloads have the same keys in the same order and, under each key, records that are
equal except for the value of their `weight` field. -/
def payload_same_but_weight (e1 e2 : List (String × ucl_object)) : Prop :=
  List.Forall₂ (fun x y => x.1 = y.1 ∧ record_same_but_weight x.2 y.2) e1 e2

/-- The document that `save_items` builds for `saved_registry`. -/
def scenario_payload : ucl_object :=
  .ucl_obj [("S", .ucl_obj [
    ("weight", .ucl_float 3), ("time", .ucl_float 0), ("count", .ucl_int 42),
    ("frequency", .ucl_obj [("avg", .ucl_float 0), ("stddev", .ucl_float 0)])])]

/-- The statistics copied from one payload record onto an item: the `time`, `count` and
`frequency` blocks in source order. -/
def loaded_stats (cur : ucl_object) (it : cache_item) : cache_item :=
  load_frequency cur (load_count cur (load_time cur it))

/-- The entry with key `key` writes at address `q`: the key is registered for the item at
`q`, or for a virtual item that is not a ghost and whose parent is at `q`. -/
def entry_touches (cache : symcache) (key : String) (q : cache_item_ptr) : Prop :=
  ∃ item, cache.find key = some item ∧
    (q = item ∨ ∃ it, cache.item item = some it ∧ it.is_virtual = true ∧
      it.type.ghost = false ∧ it.get_parent cache = some q)

/-- Real item `P` with configured weight 1 and its virtual alias `V` (not a ghost, direct
parent reference to `P`) with configured weight 5; all other statistics zero. -/
def weighted_alias : symcache :=
  registry
    [{ real_item 0 "P" no_flags 0 true [] with st := { zero_stat with weight := 1 } },
     { alias_item 0 "V" no_flags (some 0) 0 with st := { zero_stat with weight := 5 } }]
    [("P", 0), ("V", 1)] [some 0] [some 1]

/-- A payload record with the single field `time`, of value 5/2. -/
def time_record : ucl_object := .ucl_obj [("time", .ucl_float (5 / 2))]

/-- An environment with an empty header whose parser maps the one-byte body `[1]` to
`first` and every other body to `second`. -/
def two_documents (first second : ucl_object) : externals :=
  ⟨0, [], fun body => if body = [1] then some (some first) else some (some second)⟩

/-- A record with weight `w` and time 5/2. -/
def weight_time_record (w : ℚ) : ucl_object :=
  .ucl_obj [("weight", .ucl_float w), ("time", .ucl_float (5 / 2))]

/-! ## Further vocabulary and example registries -/

/-- Four post-filter items `a` (priority 1), `b` (priority 2), `c` (priority 1) and `d`
(priority 1), listed in that order in every stage list. -/
def tied_stages : symcache :=
  { registry
      [real_item 0 "a" no_flags 1 false [], real_item 1 "b" no_flags 2 false [],
       real_item 2 "c" no_flags 1 false [], real_item 3 "d" no_flags 1 false []]
      [("a", 0), ("b", 1), ("c", 2), ("d", 3)] [some 0, some 1, some 2, some 3] [] with
    connfilters := [0, 1, 2, 3]
    prefilters := [0, 1, 2, 3]
    postfilters := [0, 1, 2, 3]
    idempotent := [0, 1, 2, 3] }

/-- Real item `P` (id 0, filter), its virtual alias `V` (id 0 among the virtual symbols) and a
ghost virtual item `G` without parent (no direct reference, parent id -1), with one delayed
dependency declared from `V` on `G`. -/
def ghost_dependency : symcache :=
  { registry
      [real_item 0 "P" no_flags 0 true [], alias_item 0 "V" no_flags (some 0) 0,
       alias_item 1 "G" { no_flags with ghost := true } none (-1)]
      [("P", 0), ("V", 1), ("G", 2)] [some 0] [some 1, some 2] with
    delayed_deps := some [⟨"V", "G"⟩] }

/-- The registry `ghost_dependency` after the delayed dependency has been turned into edges by
`add_dependency(0, "G", 0)`: a real edge on `P` and an edge with virtual source id 0 on `V`. -/
def edge_on_ghost : symcache :=
  { registry
      [real_item 0 "P" no_flags 0 true [⟨none, "G", 0, -1⟩],
       { alias_item 0 "V" no_flags (some 0) 0 with deps := [⟨none, "G", -1, 0⟩] },
       alias_item 1 "G" { no_flags with ghost := true } none (-1)]
      [("P", 0), ("V", 1), ("G", 2)] [some 0] [some 1, some 2] with
    delayed_deps := some [⟨"V", "G"⟩] }

/-- Real filter `P` (id 0) and its virtual alias `V` (id 0 among the virtual symbols), without
edges. -/
def parent_and_alias : symcache :=
  registry
    [real_item 0 "P" no_flags 0 true [], alias_item 0 "V" no_flags (some 0) 0]
    [("P", 0), ("V", 1)] [some 0] [some 1]

/-- The registry invariant on the parent of one item (data model of the registry): the direct
parent reference of a virtual item, when set, names a stored real item; when it is not set,
the slot `parent_id` of `items_by_id` holds a stored real item, unless the item is a ghost,
which may lack a parent (`parent_id` then names no filled slot). -/
def parent_registered (cache : symcache) (it : cache_item) : Prop :=
  match it.specific with
  | .normal_item _ => True
  | .virtual_item (some p) _ => ∃ P, cache.item p = some P ∧ P.is_virtual = false
  | .virtual_item none parent_id =>
    (∃ p P, 0 ≤ parent_id ∧ cache.items_by_id[parent_id.toNat]? = some (some p) ∧
      cache.item p = some P ∧ P.is_virtual = false) ∨
    (it.type.ghost = true ∧
      (parent_id < 0 ∨ cache.items_by_id[parent_id.toNat]? = none ∨
        cache.items_by_id[parent_id.toNat]? = some none))

/-- The registry invariant on parents holds for every stored item. -/
def parents_registered (cache : symcache) : Prop :=
  ∀ it ∈ cache.heap, parent_registered cache it

/-- Real item `P` (id 0), its virtual alias `V` with a direct parent reference, the virtual
alias `W` without direct reference and with parent id 0, and the ghost `G` without parent. -/
def aliases_and_ghost : symcache :=
  registry
    [real_item 0 "P" no_flags 0 true [], alias_item 0 "V" no_flags (some 0) 0,
     alias_item 1 "W" no_flags none 0,
     alias_item 2 "G" { no_flags with ghost := true } none (-1)]
    [("P", 0), ("V", 1), ("W", 2), ("G", 3)] [some 0] [some 1, some 2, some 3]

/-- Filter `A` (id 0) with three unresolved edges, in this order: on the unregistered symbol
`U`, on the filter `B` (id 1) and on the pre-filter `C` (id 2). -/
def mixed_edges : symcache :=
  registry
    [real_item 0 "A" no_flags 0 true [⟨none, "U", 0, -1⟩, ⟨none, "B", 0, -1⟩, ⟨none, "C", 0, -1⟩],
     real_item 1 "B" no_flags 0 true [],
     real_item 2 "C" { no_flags with prefilter := true } 0 false []]
    [("A", 0), ("B", 1), ("C", 2)] [some 0, some 1, some 2] []

/-- An item without its stage flags and its priority. -/
def cache_item.unstaged (it : cache_item) : cache_item :=
  { it with type := default, priority := 0 }

/-- Two registries that differ at most in the stage flags and the priorities of their
items. -/
def same_but_stage (c c2 : symcache) : Prop :=
  { c2 with heap := [] } = { c with heap := [] } ∧
    c2.heap.map cache_item.unstaged = c.heap.map cache_item.unstaged

/-- The identifiers that the propagation block leaves in one list of the item processed at
`self`, for one edge: `stored` is the list before the edge and `sel` picks the list (allowed
or forbidden) of the target. Only an edge with a virtual source id, a registered symbol and a
parent-resolved target with a non-empty list changes it. -/
def propagated_ids (cache : symcache) (self : cache_item_ptr) (sel : cache_item → List Nat)
    (stored : List Nat) (dep : cache_dependency) : List Nat :=
  if dep.vid ≥ 0 then
    match cache.get_item_by_name dep.sym false, cache.get_item_by_name_mut dep.sym true with
    | some _, some t =>
      if t = self then stored
      else
        match cache.item t with
        | some T => if (sel T).length > 0 then sel T else stored
        | none => stored
    | _, _ => stored
  else stored

/-- The virtual item `V` (parent `T`) with allowed ids 5 and three edges: on `T` and on `U`
with the virtual source id 0, then on `T` without one. -/
def propagating_alias : cache_item :=
  { alias_item 0 "V" no_flags (some 0) 0 with
    allowed_ids := [5]
    deps := [⟨none, "T", -1, 0⟩, ⟨none, "U", -1, 0⟩, ⟨none, "T", 0, -1⟩] }

/-- Filter `T` (id 0) with allowed ids 1, 2 and forbidden ids 9, filter `U` (id 1) with allowed
ids 7 and no forbidden id, and the virtual item `propagating_alias`. -/
def propagating_edges : symcache :=
  registry
    [{ real_item 0 "T" no_flags 0 true [] with allowed_ids := [1, 2], forbidden_ids := [9] },
     { real_item 1 "U" no_flags 0 true [] with allowed_ids := [7] },
     propagating_alias]
    [("T", 0), ("U", 1), ("V", 2)] [some 0, some 1] [some 2]

/-- The edges stored at an address, if an item is stored there. -/
def symcache.deps_at (cache : symcache) (q : cache_item_ptr) : Option (List cache_dependency) :=
  (cache.item q).map cache_item.deps

/-- The reverse edges that the resolution pass over the items at `work`, run from `cache`,
appends at address `t`: for each processed item in turn, those of its own call. -/
def collected_rdeps (cache : symcache) (t : cache_item_ptr) :
    List cache_item_ptr → List cache_dependency
  | [] => []
  | x :: rest =>
    (match cache.item x with
      | some X => added_rdeps cache x X.id t X.deps
      | none => []) ++ collected_rdeps cache t rest

/-- The reverse images at `t` of the edges found in `cache`: for each item of `work` in
turn, one reverse edge naming that item (its address and its id) for each of its edges whose
target is `t`, in the order of the edges. -/
def reverse_images (cache : symcache) (t : cache_item_ptr) :
    List cache_item_ptr → List cache_dependency
  | [] => []
  | x :: rest =>
    (match cache.item x with
      | some X => (X.deps.filter fun e => e.item = some t).map fun e => ⟨some x, e.sym, X.id, -1⟩
      | none => []) ++ reverse_images cache t rest

/-- Filters `A` (id 0), `B` (id 1) and `C` (id 2) and the virtual alias `V` of `A`, all
edges unresolved and no reverse edge: `A` depends on `B` and on the unregistered `U`, `B`
depends on `C`, `C` depends on `B`, and `V` depends on `C` and carries a virtual source id. -/
def unresolved_graph : symcache :=
  registry
    [real_item 0 "A" no_flags 0 true [⟨none, "B", 0, -1⟩, ⟨none, "U", 0, -1⟩],
     real_item 1 "B" no_flags 0 true [⟨none, "C", 1, -1⟩],
     real_item 2 "C" no_flags 0 true [⟨none, "B", 2, -1⟩],
     { alias_item 3 "V" no_flags (some 0) 0 with deps := [⟨none, "C", -1, 0⟩] }]
    [("A", 0), ("B", 1), ("C", 2), ("V", 3)] [some 0, some 1, some 2] [some 3]

/-! ## Lemmas on the arena and the lookups -/

theorem item_modify (c : symcache) (p : cache_item_ptr) (f : cache_item → cache_item)
    (q : cache_item_ptr) :
    (c.modify p f).item q = if p = q then (c.item q).map f else c.item q := by
  simp only [symcache.modify, symcache.item, List.getElem?_modify]
  cases h : c.heap[q]? <;> by_cases hq : p = q <;> simp [hq]

theorem item_skeleton (c : symcache) (q : cache_item_ptr) :
    c.skeleton.item q = (c.item q).map cache_item.core := by
  simp [symcache.skeleton, symcache.item]

theorem skeleton_modify (c : symcache) (p : cache_item_ptr) (f : cache_item → cache_item)
    (hf : ∀ it, (f it).core = it.core) : (c.modify p f).skeleton = c.skeleton := by
  have : (c.heap.modify f p).map cache_item.core = c.heap.map cache_item.core := by
    apply List.ext_getElem?
    intro m
    simp only [List.getElem?_map, List.getElem?_modify]
    cases h : c.heap[m]? <;> by_cases hq : p = m <;> simp [hq, hf]
  simp [symcache.skeleton, symcache.modify, this]

theorem get_parent_core (it : cache_item) (c : symcache) :
    it.core.get_parent c.skeleton = it.get_parent c := by
  simp [cache_item.get_parent, cache_item.core, virtual_item_get_parent,
    symcache.item_by_id_slot, symcache.skeleton]

theorem get_item_by_name_skeleton (c : symcache) (name : String) (r : Bool) :
    c.skeleton.get_item_by_name name r = c.get_item_by_name name r := by
  unfold symcache.get_item_by_name
  have hf : c.skeleton.find name = c.find name := rfl
  rw [hf]
  cases c.find name with
  | none => rfl
  | some p =>
    simp only [item_skeleton]
    cases c.item p with
    | none => rfl
    | some it =>
      simp only [Option.map_some', get_parent_core]
      rfl

theorem get_item_by_name_mut_eq (c : symcache) (name : String) (r : Bool) :
    c.get_item_by_name_mut name r = c.get_item_by_name name r := rfl

theorem get_item_by_name_congr {c c' : symcache} (h : c'.skeleton = c.skeleton)
    (name : String) (r : Bool) : c'.get_item_by_name name r = c.get_item_by_name name r := by
  rw [← get_item_by_name_skeleton c', h, get_item_by_name_skeleton]

theorem item_core_congr {c c' : symcache} (h : c'.skeleton = c.skeleton) (q : cache_item_ptr) :
    (c'.item q).map cache_item.core = (c.item q).map cache_item.core := by
  rw [← item_skeleton, ← item_skeleton, h]

theorem accepted_congr {c c' : symcache} (h : c'.skeleton = c.skeleton) (sid : Int)
    (dep : cache_dependency) : accepted c' sid dep = accepted c sid dep := by
  unfold accepted
  rw [get_item_by_name_mut_eq, get_item_by_name_mut_eq, get_item_by_name_congr h]
  cases c.get_item_by_name dep.sym true with
  | none => rfl
  | some t =>
    have hc := item_core_congr h t
    cases h1 : c'.item t <;> cases h2 : c.item t <;> simp [h1, h2] at hc ⊢
    have hid : (cache_item.core _).id = (cache_item.core _).id := congrArg cache_item.id hc
    have hfl : (cache_item.core _).is_filter = (cache_item.core _).is_filter :=
      congrArg cache_item.is_filter hc
    simp only [cache_item.core] at hid hfl
    simp [hid, hfl]

/-! ## Lemmas on `process_deps` -/

theorem linked.refl (self : cache_item_ptr) (c : symcache) : linked self (fun _ => []) c c :=
  ⟨rfl, fun _ => rfl, fun _ => by simp, fun _ _ => rfl⟩

theorem linked.trans {self : cache_item_ptr} {a1 a2 : cache_item_ptr → List cache_dependency}
    {c c1 c2 : symcache} (h1 : linked self a1 c c1) (h2 : linked self a2 c1 c2) :
    linked self (fun q => a1 q ++ a2 q) c c2 :=
  ⟨h2.containers.trans h1.containers, fun q => (h2.unl q).trans (h1.unl q),
    fun q => by rw [h2.rd q, h1.rd q, List.append_assoc],
    fun q hq => (h2.ids q hq).trans (h1.ids q hq)⟩

theorem linked.skeleton {self : cache_item_ptr} {a : cache_item_ptr → List cache_dependency}
    {c c' : symcache} (h : linked self a c c') : c'.skeleton = c.skeleton := by
  have hc := h.containers
  have hh : c'.heap.map cache_item.core = c.heap.map cache_item.core := by
    apply List.ext_getElem?
    intro m
    have := congrArg (Option.map cache_item.core) (h.unl m)
    simpa [symcache.item, Function.comp_def, cache_item.core, cache_item.unlinked] using this
  cases c; cases c'
  simp only [symcache.skeleton, symcache.mk.injEq] at hc ⊢
  simp only [hh, hc, and_self, true_and]

theorem linked.item_some {self : cache_item_ptr} {a : cache_item_ptr → List cache_dependency}
    {c c' : symcache} (h : linked self a c c') {q : cache_item_ptr} {it : cache_item}
    (hq : c.item q = some it) :
    ∃ it', c'.item q = some it' ∧ it'.unlinked = it.unlinked ∧ it'.rdeps = it.rdeps ++ a q := by
  have h1 := h.unl q
  have h2 := h.rd q
  rw [hq] at h1
  cases h' : c'.item q with
  | none => simp [h'] at h1
  | some it' =>
    refine ⟨it', rfl, ?_, ?_⟩
    · simpa [h'] using h1
    · simpa [symcache.rdeps_at, h', hq] using h2

theorem linked_modify_ids (c : symcache) (self : cache_item_ptr) (f : cache_item → cache_item)
    (hf : ∀ it, (f it).unlinked = it.unlinked) (hr : ∀ it, (f it).rdeps = it.rdeps) :
    linked self (fun _ => []) c (c.modify self f) := by
  refine ⟨rfl, fun q => ?_, fun q => ?_, fun q hq => ?_⟩
  · rw [item_modify]
    split
    · cases c.item q <;> simp [hf]
    · rfl
  · simp only [symcache.rdeps_at, item_modify, List.append_nil]
    by_cases hq : self = q
    · rw [if_pos hq]; cases c.item q <;> simp [hr]
    · rw [if_neg hq]
  · rw [item_modify, if_neg (Ne.symm hq)]

theorem propagate_ids_linked {c c1 : symcache} {self : cache_item_ptr} {dep : cache_dependency}
    {dit : Option cache_item_ptr} (h : propagate_ids c self dep dit = .ok c1) :
    linked self (fun _ => []) c c1 := by
  unfold propagate_ids at h
  split at h
  · split at h
    · cases h; exact linked.refl _ _
    · split at h
      · cases h
      · cases h
        have e1 : ∀ (c : symcache) (l : List Nat), linked self (fun _ => []) c
            (c.modify self fun it => { it with allowed_ids := l }) :=
          fun c l => linked_modify_ids c self _ (fun _ => rfl) (fun _ => rfl)
        have e2 : ∀ (c : symcache) (l : List Nat), linked self (fun _ => []) c
            (c.modify self fun it => { it with forbidden_ids := l }) :=
          fun c l => linked_modify_ids c self _ (fun _ => rfl) (fun _ => rfl)
        have t : ∀ {a b d : symcache}, linked self (fun _ => []) a b →
            linked self (fun _ => []) b d → linked self (fun _ => []) a d := by
          intro a b d h1 h2
          simpa using h1.trans h2
        split <;> split
        · exact t (e1 _ _) (e2 _ _)
        · exact e2 _ _
        · exact e1 _ _
        · exact linked.refl _ _
  · cases h; exact linked.refl _ _

theorem linked_modify_rdeps (c : symcache) (self t : cache_item_ptr) (e : cache_dependency)
    (ht : c.item t ≠ none) :
    linked self (fun q => if t = q then [e] else []) c
      (c.modify t fun it => { it with rdeps := it.rdeps ++ [e] }) := by
  refine ⟨rfl, fun q => ?_, fun q => ?_, fun q _ => ?_⟩
  · rw [item_modify]
    by_cases hq : t = q
    · rw [if_pos hq]; cases c.item q <;> simp [cache_item.unlinked]
    · rw [if_neg hq]
  · simp only [symcache.rdeps_at, item_modify]
    by_cases hq : t = q
    · subst hq
      cases h : c.item t with
      | none => exact absurd h ht
      | some it => simp
    · simp [hq]
  · rw [item_modify]
    by_cases hq : t = q
    · rw [if_pos hq]; cases c.item q <;> simp
    · rw [if_neg hq]

theorem added_rdeps_cons (c : symcache) (self : cache_item_ptr) (sid : Int) (q : cache_item_ptr)
    (dep : cache_dependency) (rest : List cache_dependency) :
    added_rdeps c self sid q (dep :: rest) =
      added_rdeps c self sid q [dep] ++ added_rdeps c self sid q rest := by
  simp only [added_rdeps, List.filter_cons, List.filter_nil]
  split <;> simp

theorem added_rdeps_congr {c c' : symcache} (h : c'.skeleton = c.skeleton)
    (self : cache_item_ptr) (sid : Int) (q : cache_item_ptr) (deps : List cache_dependency) :
    added_rdeps c' self sid q deps = added_rdeps c self sid q deps := by
  simp only [added_rdeps, accepted_congr h]

theorem resolved_edge_congr {c c' : symcache} (h : c'.skeleton = c.skeleton) (sid : Int)
    (dep : cache_dependency) : resolved_edge c' sid dep = resolved_edge c sid dep := by
  simp only [resolved_edge, accepted_congr h]

theorem link_dep_spec (c : symcache) (self : cache_item_ptr) (me : cache_item)
    (dep : cache_dependency) :
    linked self (fun q => added_rdeps c self me.id q [dep]) c
        (link_dep c self me dep (c.get_item_by_name_mut dep.sym true)).1 ∧
      (link_dep c self me dep (c.get_item_by_name_mut dep.sym true)).2 =
        resolved_edge c me.id dep := by
  have hnil : ∀ q, accepted c me.id dep = none → added_rdeps c self me.id q [dep] = [] := by
    intro q h; simp [added_rdeps, h]
  cases hl : c.get_item_by_name_mut dep.sym true with
  | none =>
    have ha : accepted c me.id dep = none := by simp [accepted, hl]
    simp only [link_dep, resolved_edge, ha, and_true]
    simpa [hnil _ ha] using linked.refl self c
  | some t =>
    cases hd : c.item t with
    | none =>
      have ha : accepted c me.id dep = none := by simp [accepted, hl, hd]
      simp only [link_dep, hd, resolved_edge, ha, and_true]
      simpa [hnil _ ha] using linked.refl self c
    | some d =>
      by_cases hf : d.is_filter = true
      · by_cases hi : d.id = me.id
        · have ha : accepted c me.id dep = none := by simp [accepted, hl, hd, hi]
          simp only [link_dep, hd, hf, hi, resolved_edge, ha]
          simpa [hnil _ ha] using linked.refl self c
        · have ha : accepted c me.id dep = some (t, d.id) := by
            simp [accepted, hl, hd, hf, hi]
          simp only [link_dep, hd, hf, hi, resolved_edge, ha]
          refine ⟨?_, by simp⟩
          have hadd : (fun q => added_rdeps c self me.id q [dep]) =
              fun q => if t = q then [reverse_edge self me.id dep] else [] := by
            funext q
            by_cases hq : t = q <;> simp [added_rdeps, ha, hq]
          rw [hadd]
          exact linked_modify_rdeps c self t (reverse_edge self me.id dep) (by simp [hd])
      · have ha : accepted c me.id dep = none := by simp [accepted, hl, hd, hf]
        simp only [link_dep, hd, hf, resolved_edge, ha]
        simpa [hnil _ ha] using linked.refl self c

theorem process_deps_loop_spec (self : cache_item_ptr) (sid : Int) :
    ∀ (deps : List cache_dependency) (c c' : symcache) (out : List cache_dependency),
      (∃ me, c.item self = some me ∧ me.id = sid) →
      process_deps_loop self c deps = .ok (c', out) →
      linked self (fun q => added_rdeps c self sid q deps) c c' ∧
        out = deps.map (resolved_edge c sid) := by
  intro deps
  induction deps with
  | nil =>
    intro c c' out _ h
    simp only [process_deps_loop, Except.ok.injEq, Prod.mk.injEq] at h
    obtain ⟨rfl, rfl⟩ := h
    exact ⟨by simpa [added_rdeps] using linked.refl self c, rfl⟩
  | cons dep rest ih =>
    intro c c' out ⟨me, hme, hid⟩ h
    simp only [process_deps_loop, hme] at h
    cases hp : propagate_ids c self dep (c.get_item_by_name_mut dep.sym true) with
    | error e => simp [hp] at h
    | ok c1 =>
      simp only [hp] at h
      have l1 := propagate_ids_linked hp
      have s1 := l1.skeleton
      have hlk : c.get_item_by_name_mut dep.sym true = c1.get_item_by_name_mut dep.sym true := by
        rw [get_item_by_name_mut_eq, get_item_by_name_mut_eq, get_item_by_name_congr s1]
      rw [hlk] at h
      obtain ⟨l2, e2⟩ := link_dep_spec c1 self me dep
      generalize link_dep c1 self me dep (c1.get_item_by_name_mut dep.sym true) = r at h l2 e2
      cases hr : process_deps_loop self r.1 rest with
      | error e => simp [hr] at h
      | ok res =>
        obtain ⟨c2, rest2⟩ := res
        simp only [hr, Except.ok.injEq, Prod.mk.injEq] at h
        obtain ⟨rfl, rfl⟩ := h
        have l12 := l1.trans l2
        have s2 := l12.skeleton
        obtain ⟨me2, hme2, hu2, -⟩ := l12.item_some hme
        have hid2 : me2.id = sid := by
          have := congrArg cache_item.id hu2
          simpa [cache_item.unlinked, hid] using this
        obtain ⟨l3, e3⟩ := ih r.1 c2 rest2 ⟨me2, hme2, hid2⟩ hr
        constructor
        · have := l12.trans l3
          simp only [List.nil_append] at this
          rw [hid] at this
          simpa [added_rdeps_cons c self sid _ dep rest, added_rdeps_congr s1,
            added_rdeps_congr s2] using this
        · rw [e3, e2, hid, List.map_cons, resolved_edge_congr s1]
          congr 1
          exact List.map_congr_left fun d _ => resolved_edge_congr s2 sid d

theorem safe_edge_congr {self : cache_item_ptr} {a : cache_item_ptr → List cache_dependency}
    {c c' : symcache} (h : linked self a c c') {dep : cache_dependency}
    (hs : safe_edge c dep) : safe_edge c' dep := by
  intro hv hn
  have s := h.skeleton
  rw [get_item_by_name_congr s] at hn
  obtain ⟨t, d, ht, hd⟩ := hs hv hn
  obtain ⟨d', hd', -, -⟩ := h.item_some hd
  refine ⟨t, d', ?_, hd'⟩
  rw [get_item_by_name_mut_eq, get_item_by_name_congr s, ← get_item_by_name_mut_eq, ht]

theorem propagate_ids_total (c : symcache) (self : cache_item_ptr) (dep : cache_dependency)
    (hs : safe_edge c dep) :
    ∃ c1, propagate_ids c self dep (c.get_item_by_name_mut dep.sym true) = .ok c1 := by
  unfold propagate_ids
  by_cases hv : dep.vid ≥ 0
  · rw [if_pos hv]
    cases hn : c.get_item_by_name dep.sym false with
    | none => exact ⟨_, rfl⟩
    | some v =>
      obtain ⟨t, d, ht, hd⟩ := hs hv (by simp [hn])
      have hb : ((some t).bind c.item) = some d := by simpa using hd
      rw [ht]
      simp only [hb]
      exact ⟨_, rfl⟩
  · rw [if_neg hv]
    exact ⟨_, rfl⟩

theorem process_deps_loop_total (self : cache_item_ptr) :
    ∀ (deps : List cache_dependency) (c : symcache), c.item self ≠ none →
      (∀ d ∈ deps, safe_edge c d) → ∃ r, process_deps_loop self c deps = .ok r := by
  intro deps
  induction deps with
  | nil => intro c _ _; exact ⟨_, rfl⟩
  | cons dep rest ih =>
    intro c hne hs
    cases hme : c.item self with
    | none => exact absurd hme hne
    | some me =>
      obtain ⟨c1, hp⟩ := propagate_ids_total c self dep (hs dep (List.mem_cons_self _ _))
      have l1 := propagate_ids_linked hp
      have hlk : c.get_item_by_name_mut dep.sym true = c1.get_item_by_name_mut dep.sym true := by
        rw [get_item_by_name_mut_eq, get_item_by_name_mut_eq, get_item_by_name_congr l1.skeleton]
      simp only [process_deps_loop, hme, hp]
      rw [hlk]
      obtain ⟨l2, -⟩ := link_dep_spec c1 self me dep
      have l12 := l1.trans l2
      obtain ⟨me2, hme2, -, -⟩ := l12.item_some hme
      obtain ⟨r, hr⟩ := ih _ (by simp [hme2])
        (fun d hd => safe_edge_congr l12 (hs d (List.mem_cons_of_mem _ hd)))
      rw [hr]
      exact ⟨_, rfl⟩

/-- What `process_deps` does, for a registry in which it returns: the registry after the
loop, and the edges stored back. -/
theorem process_deps_spec {c c' : symcache} {self : cache_item_ptr} {me : cache_item}
    (hme : c.item self = some me) (h : process_deps c self = .ok c') :
    ∃ c1, linked self (fun q => added_rdeps c self me.id q me.deps) c c1 ∧
      c' = c1.modify self fun it =>
        { it with deps := (me.deps.map (resolved_edge c me.id)).filter fun d => d.item.isSome } := by
  simp only [process_deps, hme] at h
  cases hl : process_deps_loop self c me.deps with
  | error e => simp [hl] at h
  | ok r =>
    obtain ⟨c1, out⟩ := r
    simp only [hl, Except.ok.injEq] at h
    obtain ⟨l, e⟩ := process_deps_loop_spec self me.id me.deps c c1 out ⟨me, hme, rfl⟩ hl
    exact ⟨c1, l, by rw [← h, e]⟩

theorem process_deps_total {c : symcache} {self : cache_item_ptr} {me : cache_item}
    (hme : c.item self = some me) (hs : ∀ d ∈ me.deps, safe_edge c d) :
    ∃ c', process_deps c self = .ok c' := by
  obtain ⟨r, hr⟩ := process_deps_loop_total self me.deps c (by simp [hme]) hs
  simp only [process_deps, hme, hr]
  exact ⟨_, rfl⟩

/-- No reverse edge is appended at the address of the item being processed. -/
theorem added_rdeps_self {c : symcache} {self : cache_item_ptr} {me : cache_item}
    (hme : c.item self = some me) (deps : List cache_dependency) :
    added_rdeps c self me.id self deps = [] := by
  simp only [added_rdeps, List.map_eq_nil_iff, List.filter_eq_nil_iff, decide_eq_true_eq]
  intro dep _ ha
  unfold accepted at ha
  split at ha
  · rename_i t ht
    split at ha
    · rename_i d hd
      split at ha
      · rename_i hcond
        simp only [Option.map_some', Option.some.injEq] at ha
        subst ha
        rw [hme] at hd
        cases hd
        exact hcond.2 rfl
      · simp at ha
    · simp at ha
  · simp at ha

/-- The state of the processed item and of every other item after `process_deps`. -/
theorem process_deps_items {c c' : symcache} {self : cache_item_ptr} {me : cache_item}
    (hme : c.item self = some me) (h : process_deps c self = .ok c') :
    (∃ me', c'.item self = some me' ∧ me'.id = me.id ∧ me'.rdeps = me.rdeps ∧
      me'.deps = (me.deps.map (resolved_edge c me.id)).filter fun d => d.item.isSome) ∧
    (∀ q it, c.item q = some it → ∃ it', c'.item q = some it' ∧ it'.id = it.id ∧
      it'.is_filter = it.is_filter ∧
      it'.rdeps = it.rdeps ++ added_rdeps c self me.id q me.deps) := by
  obtain ⟨c1, l, rfl⟩ := process_deps_spec hme h
  constructor
  · obtain ⟨me1, hme1, hu, hr⟩ := l.item_some hme
    refine ⟨_, by rw [item_modify, if_pos rfl, hme1]; rfl, ?_, ?_, rfl⟩
    · simpa [cache_item.unlinked] using congrArg cache_item.id hu
    · simpa [added_rdeps_self hme] using hr
  · intro q it hq
    obtain ⟨it1, hit1, hu, hr⟩ := l.item_some hq
    have hid : it1.id = it.id := by simpa [cache_item.unlinked] using congrArg cache_item.id hu
    have hfl : it1.is_filter = it.is_filter := by
      simpa [cache_item.unlinked] using congrArg cache_item.is_filter hu
    rw [item_modify]
    by_cases hqs : self = q
    · rw [if_pos hqs, hit1]
      exact ⟨_, rfl, hid, hfl, hr⟩
    · rw [if_neg hqs]
      exact ⟨it1, hit1, hid, hfl, hr⟩

theorem accepted_eq_some {c : symcache} {sid : Int} {dep : cache_dependency}
    {t : cache_item_ptr} {d : cache_item}
    (hl : c.get_item_by_name_mut dep.sym true = some t) (hd : c.item t = some d)
    (hf : d.is_filter = true) (hi : d.id ≠ sid) : accepted c sid dep = some (t, d.id) := by
  simp [accepted, hl, hd, hf, hi]

theorem accepted_some_inv {c : symcache} {sid : Int} {dep : cache_dependency}
    {t : cache_item_ptr} {tid : Int} (h : accepted c sid dep = some (t, tid)) :
    c.get_item_by_name_mut dep.sym true = some t ∧
      ∃ d, c.item t = some d ∧ d.is_filter = true ∧ d.id ≠ sid ∧ d.id = tid := by
  unfold accepted at h
  split at h
  · rename_i t' ht
    split at h
    · rename_i d hd
      split at h
      · rename_i hcond
        simp only [Option.some.injEq, Prod.mk.injEq] at h
        obtain ⟨rfl, rfl⟩ := h
        exact ⟨ht, d, hd, hcond.1, hcond.2, rfl⟩
      · cases h
    · cases h
  · cases h

/-- An edge that stays after the erase either was linked by this call or was resolved
before it. -/
theorem mem_kept_edges {c : symcache} {sid : Int} {deps : List cache_dependency}
    {e : cache_dependency}
    (he : e ∈ (deps.map (resolved_edge c sid)).filter fun d => d.item.isSome) :
    ∃ e0 ∈ deps, (∃ t tid, accepted c sid e0 = some (t, tid) ∧
        e = { e0 with item := some t, id := tid }) ∨
      (accepted c sid e0 = none ∧ e = e0 ∧ e0.item.isSome = true) := by
  simp only [List.mem_filter, List.mem_map] at he
  obtain ⟨⟨e0, he0, rfl⟩, hs⟩ := he
  refine ⟨e0, he0, ?_⟩
  unfold resolved_edge at hs ⊢
  cases ha : accepted c sid e0 with
  | none => right; simp only [ha] at hs; exact ⟨rfl, rfl, hs⟩
  | some r => obtain ⟨t, tid⟩ := r; left; exact ⟨t, tid, rfl, rfl⟩

theorem mem_added_rdeps {c : symcache} {self : cache_item_ptr} {sid : Int}
    {t : cache_item_ptr} {tid : Int} {deps : List cache_dependency} {dep : cache_dependency}
    (hd : dep ∈ deps) (ha : accepted c sid dep = some (t, tid)) :
    reverse_edge self sid dep ∈ added_rdeps c self sid t deps := by
  simp only [added_rdeps, List.mem_map, List.mem_filter, decide_eq_true_eq]
  exact ⟨dep, ⟨hd, by simp [ha]⟩, rfl⟩

theorem added_rdeps_not_filter {c : symcache} {self : cache_item_ptr} {sid : Int}
    {t : cache_item_ptr} {T : cache_item} (hT : c.item t = some T) (hf : T.is_filter = false)
    (deps : List cache_dependency) : added_rdeps c self sid t deps = [] := by
  simp only [added_rdeps, List.map_eq_nil_iff, List.filter_eq_nil_iff, decide_eq_true_eq]
  intro dep _ ha
  cases hacc : accepted c sid dep with
  | none => simp [hacc] at ha
  | some r =>
    obtain ⟨t', tid⟩ := r
    simp only [hacc, Option.map_some', Option.some.injEq] at ha
    subst ha
    obtain ⟨-, d, hd, hdf, -, -⟩ := accepted_some_inv hacc
    rw [hT] at hd
    cases hd
    simp [hf] at hdf

theorem safe_edge_of_real (c : symcache) {dep : cache_dependency} (h : dep.vid < 0) :
    safe_edge c dep :=
  fun hv => absurd hv (not_le.mpr h)

/-- `process_deps` on an item whose only edge names a filter with another id. -/
theorem process_deps_single {c : symcache} {a b : cache_item_ptr} {A B : cache_item}
    {dep : cache_dependency} (hA : c.item a = some A) (hB : c.item b = some B)
    (hl : c.get_item_by_name_mut dep.sym true = some b) (hf : B.is_filter = true)
    (hi : B.id ≠ A.id) (hdeps : A.deps = [dep]) :
    ∃ c' A' B', process_deps c a = .ok c' ∧ c'.item a = some A' ∧ c'.item b = some B' ∧
      A'.deps = [{ dep with item := some b, id := B.id }] ∧
      B'.rdeps = B.rdeps ++ [⟨some a, dep.sym, A.id, -1⟩] := by
  have hs : ∀ d ∈ A.deps, safe_edge c d := by
    intro d hd
    rw [hdeps, List.mem_singleton] at hd
    subst hd
    intro _ _
    exact ⟨b, B, hl, hB⟩
  obtain ⟨c', hc'⟩ := process_deps_total hA hs
  obtain ⟨⟨A', hA', -, -, hAd⟩, hall⟩ := process_deps_items hA hc'
  obtain ⟨B', hB', -, -, hBr⟩ := hall b B hB
  have hacc := accepted_eq_some hl hB hf hi
  refine ⟨c', A', B', hc', hA', hB', ?_, ?_⟩
  · rw [hAd, hdeps]
    simp [resolved_edge, hacc]
  · rw [hBr, hdeps]
    simp [added_rdeps, hacc, reverse_edge]

/-- A symbol registered for a real item resolves to that item. -/
theorem lookup_real {c : symcache} {name : String} {b : cache_item_ptr} {B : cache_item}
    (hfind : c.find name = some b) (hB : c.item b = some B) (hreal : B.is_virtual = false) :
    c.get_item_by_name_mut name true = some b := by
  simp [symcache.get_item_by_name_mut, hfind, hB, hreal]

/-- Two items stored at different addresses and registered under their ids have different
ids. -/
theorem ids_differ {c : symcache} {a b : cache_item_ptr} {A B : cache_item}
    (hA : c.item_by_id_slot A.id = some a) (hB : c.item_by_id_slot B.id = some b)
    (hab : a ≠ b) : B.id ≠ A.id := by
  intro h
  rw [h, hA] at hB
  exact hab (Option.some.inj hB)

/-! ## Lemmas on the statistics load -/

theorem round_to_hundreds_time : round_to_hundreds (1234 / 10000) = 0 := by
  norm_num [round_to_hundreds]

theorem round_to_hundreds_weight : round_to_hundreds (3456 / 1000) = 3 := by
  have h : ⌊(3456 / 1000 : ℚ)⌋ = 3 := by rw [Int.floor_eq_iff]; norm_num
  simp [round_to_hundreds, h]

theorem round_to_hundreds_avg : round_to_hundreds (1 / 2) = 0 := by
  norm_num [round_to_hundreds]

theorem round_to_hundreds_stddev : round_to_hundreds (2 / 100) = 0 := by
  have h : ⌊(2 / 100 : ℚ)⌋ = 0 := by rw [Int.floor_eq_iff]; norm_num
  simp [round_to_hundreds, h]

/-- Away from the key `weight`, two records equal except for their `weight` value give the
same lookups. -/
theorem lookup_same_but_weight {v1 v2 : ucl_object} (h : record_same_but_weight v1 v2)
    (key : String) (hk : key ≠ "weight") :
    ucl_object_lookup v1 key = ucl_object_lookup v2 key := by
  rcases h with rfl | ⟨f1, f2, rfl, rfl, hf⟩
  · rfl
  · simp only [ucl_object_lookup]
    unfold fields_same_but_weight at hf
    induction hf with
    | nil => rfl
    | @cons x y l1 l2 hxy _ ih =>
      obtain ⟨k1, w1⟩ := x
      obtain ⟨k2, w2⟩ := y
      obtain ⟨hkeq, hv⟩ := hxy
      simp only at hkeq hv
      subst hkeq
      simp only [List.lookup_cons]
      by_cases hkk : key = k1
      · subst hkk
        rcases hv with hv | hv
        · exact absurd hv hk
        · simp [hv]
      · have : (key == k1) = false := by simpa using hkk
        simp only [this]
        exact ih

theorem load_entry_same_but_weight (c : symcache) (key : String) {v1 v2 : ucl_object}
    (h : record_same_but_weight v1 v2) : load_entry c key v1 = load_entry c key v2 := by
  have h1 : load_time v1 = load_time v2 := by
    funext it; simp only [load_time, lookup_same_but_weight h "time" (by decide)]
  have h2 : load_count v1 = load_count v2 := by
    funext it; simp only [load_count, lookup_same_but_weight h "count" (by decide)]
  have h3 : load_frequency v1 = load_frequency v2 := by
    funext it
    simp only [load_frequency, lookup_same_but_weight h "frequency" (by decide)]
  simp only [load_entry, h1, h2, h3]

theorem load_entries_same_but_weight {e1 e2 : List (String × ucl_object)}
    (h : payload_same_but_weight e1 e2) :
    ∀ c : symcache, load_entries c e1 = load_entries c e2 := by
  unfold payload_same_but_weight at h
  induction h with
  | nil => intro c; rfl
  | @cons x y l1 l2 hxy _ ih =>
    intro c
    obtain ⟨k1, w1⟩ := x
    obtain ⟨k2, w2⟩ := y
    obtain ⟨hk, hv⟩ := hxy
    simp only at hk hv
    subst hk
    simp only [load_entries, load_entry_same_but_weight c k1 hv]
    cases load_entry c k1 w2 with
    | error e => rfl
    | ok c1 => exact ih c1

theorem load_time_core (cur : ucl_object) (it : cache_item) :
    (load_time cur it).core = it.core := by
  unfold load_time; split <;> rfl

theorem load_count_core (cur : ucl_object) (it : cache_item) :
    (load_count cur it).core = it.core := by
  unfold load_count; split <;> rfl

theorem load_frequency_core (cur : ucl_object) (it : cache_item) :
    (load_frequency cur it).core = it.core := by
  unfold load_frequency
  split
  · split
    · dsimp only; split <;> split <;> rfl
    · rfl
  · rfl

theorem loaded_stats_core (cur : ucl_object) (it : cache_item) :
    (loaded_stats cur it).core = it.core := by
  rw [loaded_stats, load_frequency_core, load_count_core, load_time_core]

theorem load_time_weight (cur : ucl_object) (it : cache_item) :
    (load_time cur it).st.weight = it.st.weight := by
  unfold load_time; split <;> rfl

theorem load_count_weight (cur : ucl_object) (it : cache_item) :
    (load_count cur it).st.weight = it.st.weight := by
  unfold load_count; split <;> rfl

theorem load_frequency_weight (cur : ucl_object) (it : cache_item) :
    (load_frequency cur it).st.weight = it.st.weight := by
  unfold load_frequency
  split
  · split
    · dsimp only; split <;> split <;> rfl
    · rfl
  · rfl

theorem loaded_stats_weight (cur : ucl_object) (it : cache_item) :
    (loaded_stats cur it).st.weight = it.st.weight := by
  rw [loaded_stats, load_frequency_weight, load_count_weight, load_time_weight]

theorem modify_modify (c : symcache) (p : cache_item_ptr) (f g : cache_item → cache_item) :
    (c.modify p f).modify p g = c.modify p (fun it => g (f it)) := by
  have : (c.heap.modify f p).modify g p = c.heap.modify (fun it => g (f it)) p := by
    apply List.ext_getElem?
    intro m
    simp only [List.getElem?_modify]
    cases c.heap[m]? <;> by_cases hq : p = m <;> simp [hq]
  simp [symcache.modify, this]

theorem core_eq_fields {it it' : cache_item} (h : it'.core = it.core) :
    it'.is_virtual = it.is_virtual ∧ it'.type = it.type ∧
      (∀ c, it'.get_parent c = it.get_parent c) := by
  have h1 : it'.specific = it.specific := by
    simpa [cache_item.core] using congrArg cache_item.specific h
  have h2 : it'.type = it.type := by
    simpa [cache_item.core] using congrArg cache_item.type h
  refine ⟨?_, h2, fun c => ?_⟩
  · simp [cache_item.is_virtual, h1]
  · simp [cache_item.get_parent, h1]

theorem get_parent_congr {c c' : symcache} (h : c'.skeleton = c.skeleton) (it : cache_item) :
    it.get_parent c' = it.get_parent c := by
  rw [← get_parent_core it c', h, get_parent_core]

theorem find_congr {c c' : symcache} (h : c'.skeleton = c.skeleton) (name : String) :
    c'.find name = c.find name := by
  have := congrArg symcache.items_by_symbol h
  simp only [symcache.skeleton] at this
  simp [symcache.find, this]

theorem raise_parent_weight_frame (c : symcache) (parent : Option cache_item_ptr)
    (it : cache_item) :
    (raise_parent_weight c parent it).skeleton = c.skeleton ∧
      (raise_parent_weight c parent it).total_weight = c.total_weight ∧
      (raise_parent_weight c parent it).total_hits = c.total_hits ∧
      ∀ q, parent ≠ some q → (raise_parent_weight c parent it).item q = c.item q := by
  cases parent with
  | none => exact ⟨rfl, rfl, rfl, fun _ _ => rfl⟩
  | some pp =>
    cases hpp : c.item pp with
    | none =>
      simp [raise_parent_weight, hpp]
    | some par =>
      by_cases hw : par.st.weight < it.st.weight
      · simp only [raise_parent_weight, hpp, if_pos hw]
        refine ⟨skeleton_modify c pp _ (fun _ => rfl), rfl, rfl, fun q hq => ?_⟩
        rw [item_modify, if_neg]
        intro h; exact hq (by rw [h])
      · simp [raise_parent_weight, hpp, if_neg hw]

/-- The block for a virtual item keeps the registration data and writes at the item and at
its parent only. -/
theorem load_virtual_frame {c c' : symcache} {item : cache_item_ptr} {it : cache_item}
    (h : load_virtual c item it = .ok c') :
    c'.skeleton = c.skeleton ∧ c'.total_weight = c.total_weight ∧
      c'.total_hits = c.total_hits ∧
      ∀ q, q ≠ item → it.get_parent c ≠ some q → c'.item q = c.item q := by
  unfold load_virtual at h
  dsimp only at h
  obtain ⟨f1, f2, f3, f4⟩ := raise_parent_weight_frame c (it.get_parent c) it
  split at h
  · cases h
  · simp only [Except.ok.injEq] at h
    subst h
    refine ⟨?_, f2, f3, fun q hq hp => ?_⟩
    · refine Eq.trans ?_ f1
      apply skeleton_modify
      intro _
      rfl
    · rw [item_modify, if_neg (Ne.symm hq), f4 q hp]

theorem load_stats_cache (c : symcache) (item : cache_item_ptr) (cur : ucl_object) :
    ((c.modify item (load_time cur)).modify item (load_count cur)).modify item
        (load_frequency cur) = c.modify item (loaded_stats cur) := by
  rw [modify_modify, modify_modify]
  rfl

theorem add_totals_frame {c c' : symcache} {item : cache_item_ptr}
    (h : add_totals c item = .ok c') :
    c'.skeleton = c.skeleton ∧ ∀ q, c'.item q = c.item q := by
  unfold add_totals at h
  split at h
  · cases h
  · simp only [Except.ok.injEq] at h
    subst h
    exact ⟨rfl, fun _ => rfl⟩

theorem load_entry_eq {c : symcache} {key : String} {cur : ucl_object}
    {item : cache_item_ptr} {it0 : cache_item}
    (hf : c.find key = some item) (hit : c.item item = some it0) :
    load_entry c key cur =
      match (if (loaded_stats cur it0).is_virtual && !(loaded_stats cur it0).type.ghost then
          load_virtual (c.modify item (loaded_stats cur)) item (loaded_stats cur it0)
        else .ok (c.modify item (loaded_stats cur))) with
      | .error e => .error e
      | .ok c4 => add_totals c4 item := by
  simp only [load_entry, hf, load_stats_cache, item_modify, if_pos, hit, Option.map_some']

theorem load_entry_unknown {c : symcache} {key : String} (cur : ucl_object)
    (hf : c.find key = none) : load_entry c key cur = .ok c := by
  simp only [load_entry, hf]

theorem load_entry_dangling {c : symcache} {key : String} {cur : ucl_object}
    {item : cache_item_ptr} (hf : c.find key = some item) (hit : c.item item = none) :
    load_entry c key cur = .error .null_deref := by
  simp only [load_entry, hf, load_stats_cache, item_modify, if_pos, hit, Option.map_none']

/-- One entry keeps the registration data and writes only where `entry_touches` says. -/
theorem load_entry_frame {c c' : symcache} {key : String} {cur : ucl_object}
    (h : load_entry c key cur = .ok c') :
    c'.skeleton = c.skeleton ∧ ∀ q, ¬ entry_touches c key q → c'.item q = c.item q := by
  cases hf : c.find key with
  | none =>
    rw [load_entry_unknown cur hf] at h
    cases h
    exact ⟨rfl, fun _ _ => rfl⟩
  | some item =>
    cases hit : c.item item with
    | none => rw [load_entry_dangling hf hit] at h; cases h
    | some it0 =>
      rw [load_entry_eq hf hit] at h
      have hs3 : (c.modify item (loaded_stats cur)).skeleton = c.skeleton :=
        skeleton_modify c item _ (loaded_stats_core cur)
      obtain ⟨hv0, ht0, hp0⟩ := core_eq_fields (loaded_stats_core cur it0)
      by_cases hcond : ((loaded_stats cur it0).is_virtual &&
          !(loaded_stats cur it0).type.ghost) = true
      · rw [if_pos hcond] at h
        cases hlv : load_virtual (c.modify item (loaded_stats cur)) item (loaded_stats cur it0) with
        | error e => rw [hlv] at h; cases h
        | ok c4 =>
          rw [hlv] at h
          obtain ⟨s4, -, -, f4⟩ := load_virtual_frame hlv
          obtain ⟨s5, f5⟩ := add_totals_frame h
          refine ⟨s5.trans (s4.trans hs3), fun q hq => ?_⟩
          have hqi : q ≠ item := fun e => hq ⟨item, hf, Or.inl e⟩
          have hqp : (loaded_stats cur it0).get_parent (c.modify item (loaded_stats cur)) ≠
              some q := by
            rw [get_parent_congr hs3, hp0]
            intro e
            simp only [Bool.and_eq_true, Bool.not_eq_true', hv0, ht0] at hcond
            exact hq ⟨item, hf, Or.inr ⟨it0, hit, hcond.1, hcond.2, e⟩⟩
          rw [f5, f4 q hqi hqp, item_modify, if_neg (Ne.symm hqi)]
      · rw [if_neg hcond] at h
        obtain ⟨s5, f5⟩ := add_totals_frame h
        refine ⟨s5.trans hs3, fun q hq => ?_⟩
        have hqi : q ≠ item := fun e => hq ⟨item, hf, Or.inl e⟩
        rw [f5, item_modify, if_neg (Ne.symm hqi)]

/-- An entry for a real item writes the loaded statistics on it and nothing else; its weight
stays. -/
theorem load_entry_real {c : symcache} {key : String} (cur : ucl_object)
    {p : cache_item_ptr} {P : cache_item}
    (hf : c.find key = some p) (hP : c.item p = some P) (hr : P.is_virtual = false) :
    ∃ c', load_entry c key cur = .ok c' ∧ c'.skeleton = c.skeleton ∧
      c'.item p = some (loaded_stats cur P) ∧ ∀ q, q ≠ p → c'.item q = c.item q := by
  obtain ⟨hv0, -, -⟩ := core_eq_fields (loaded_stats_core cur P)
  have hcond : ¬ (((loaded_stats cur P).is_virtual && !(loaded_stats cur P).type.ghost) = true) := by
    simp [hv0, hr]
  have hi3 : (c.modify p (loaded_stats cur)).item p = some (loaded_stats cur P) := by
    rw [item_modify, if_pos rfl, hP]; rfl
  rw [load_entry_eq hf hP, if_neg hcond]
  simp only [add_totals, hi3]
  refine ⟨_, rfl, skeleton_modify c p _ (loaded_stats_core cur), hi3, fun q hq => ?_⟩
  show (c.modify p (loaded_stats cur)).item q = c.item q
  rw [item_modify, if_neg (Ne.symm hq)]

/-! ## Dependency resolution: the claims -/

/-- C1, as stated, fails: filter `A` depends on pre-filter `B`, a pair that the legality
matrix accepts (`ok_dep` holds) with different ids; `process_deps` returns with the edge
removed from `A.deps` and nothing appended to `B.rdeps`. -/
theorem C1_counterexample :
    (∃ X T, filter_on_prefilter.item 0 = some X ∧ filter_on_prefilter.item 1 = some T ∧
      filter_on_prefilter.get_item_by_name_mut "B" true = some 1 ∧
      X.is_filter = true ∧ T.type.prefilter = true ∧ ok_dep X T = true ∧ T.id ≠ X.id ∧
      X.deps = [⟨none, "B", 0, -1⟩]) ∧
    ∃ c' X' T', process_deps filter_on_prefilter 0 = .ok c' ∧ c'.item 0 = some X' ∧
      c'.item 1 = some T' ∧ X'.deps = [] ∧ T'.rdeps = [] :=
  ⟨⟨_, _, rfl, rfl, rfl, rfl, rfl, rfl, by decide, rfl⟩, ⟨_, _, _, rfl, rfl, rfl, rfl, rfl⟩⟩

/-- C1 (amended). In `process_deps`, for every item `X` (at address `self`) and every edge
`dep` of `X` whose target symbol resolves, through virtual parents, to an item `T` (at
address `t`) with `T.id` different from `X.id`, when the call returns: if `T` is a filter
item (`is_filter`), the edge is accepted whatever the stage of `X`: it is in `X.deps` with its
target set to `T` and its id set to `T.id`, and `T.rdeps` is its former content followed by
one reverse edge pointing back at `X` for each edge of `X` linked to `T`, the one of `dep`
among them; if `T` is not a filter item, nothing is appended to `T.rdeps` and, the edges of
`X` being unresolved before the call, no edge of `X.deps` has `T` as target. -/
theorem C1_filter_target_linked (c : symcache) (self t : cache_item_ptr) (X T : cache_item)
    (dep : cache_dependency) (hX : c.item self = some X) (hdep : dep ∈ X.deps)
    (hl : c.get_item_by_name_mut dep.sym true = some t) (hT : c.item t = some T)
    (hid : T.id ≠ X.id) (hsafe : ∀ e ∈ X.deps, safe_edge c e) :
    ∃ c' X' T', process_deps c self = .ok c' ∧ c'.item self = some X' ∧
      c'.item t = some T' ∧
      (T.is_filter = true →
        { dep with item := some t, id := T.id } ∈ X'.deps ∧
        T'.rdeps = T.rdeps ++ added_rdeps c self X.id t X.deps ∧
        reverse_edge self X.id dep ∈ added_rdeps c self X.id t X.deps) ∧
      (T.is_filter = false →
        T'.rdeps = T.rdeps ∧
        ((∀ e ∈ X.deps, e.item = none) → ∀ e ∈ X'.deps, e.item ≠ some t)) := by
  obtain ⟨c', hc'⟩ := process_deps_total hX hsafe
  obtain ⟨⟨X', hX', -, -, hXd⟩, hall⟩ := process_deps_items hX hc'
  obtain ⟨T', hT', -, -, hTr⟩ := hall t T hT
  refine ⟨c', X', T', hc', hX', hT', ?_, ?_⟩
  · intro hf
    have hacc := accepted_eq_some hl hT hf hid
    refine ⟨?_, hTr, mem_added_rdeps hdep hacc⟩
    rw [hXd]
    simp only [List.mem_filter, List.mem_map]
    exact ⟨⟨dep, hdep, by simp [resolved_edge, hacc]⟩, rfl⟩
  · intro hf
    refine ⟨by rw [hTr, added_rdeps_not_filter hT hf, List.append_nil], ?_⟩
    intro hun e he het
    rw [hXd] at he
    obtain ⟨e0, he0, h | h⟩ := mem_kept_edges he
    · obtain ⟨t', tid, hacc, rfl⟩ := h
      simp only [Option.some.injEq] at het
      subst het
      obtain ⟨-, d, hd, hdf, -, -⟩ := accepted_some_inv hacc
      rw [hT] at hd
      cases hd
      simp [hf] at hdf
    · obtain ⟨-, rfl, hs⟩ := h
      simp [hun e he0] at hs

/-- C1 (amended), witness: filter `A` with one edge on filter `B`. -/
theorem C1_filter_target_linked_witness :
    ∃ c' X' T', process_deps filter_on_filter 0 = .ok c' ∧ c'.item 0 = some X' ∧
      c'.item 1 = some T' ∧
      ((real_item 1 "B" no_flags 1 true []).is_filter = true →
        { (⟨none, "B", 0, -1⟩ : cache_dependency) with item := some 1, id := 1 } ∈ X'.deps ∧
        T'.rdeps = [] ++ added_rdeps filter_on_filter 0 0 1 [⟨none, "B", 0, -1⟩] ∧
        reverse_edge 0 0 ⟨none, "B", 0, -1⟩ ∈
          added_rdeps filter_on_filter 0 0 1 [⟨none, "B", 0, -1⟩]) ∧
      ((real_item 1 "B" no_flags 1 true []).is_filter = false →
        T'.rdeps = [] ∧
        ((∀ e ∈ [(⟨none, "B", 0, -1⟩ : cache_dependency)], e.item = none) →
          ∀ e ∈ X'.deps, e.item ≠ some 1)) :=
  C1_filter_target_linked filter_on_filter 0 1
    (real_item 0 "A" no_flags 5 true [⟨none, "B", 0, -1⟩]) (real_item 1 "B" no_flags 1 true [])
    ⟨none, "B", 0, -1⟩ rfl (by simp [real_item]) rfl rfl (by decide)
    (fun e he => safe_edge_of_real _ (by
      simp only [real_item, List.mem_singleton] at he
      subst he
      decide))

/-- C2, as stated, fails: post-filter `A` depends on filter `B` (not a pre-filter);
`process_deps` returns with the edge kept in `A.deps`, resolved to `B`, and with a reverse
edge to `A` in `B.rdeps`. -/
theorem C2_counterexample :
    (∃ A B, postfilter_on_filter.item 0 = some A ∧ postfilter_on_filter.item 1 = some B ∧
      A.type.postfilter = true ∧ A.is_filter = false ∧ B.is_filter = true ∧
      B.type.prefilter = false ∧ A.deps = [⟨none, "B", 0, -1⟩] ∧ B.rdeps = []) ∧
    ∃ c' A' B', process_deps postfilter_on_filter 0 = .ok c' ∧ c'.item 0 = some A' ∧
      c'.item 1 = some B' ∧ A'.deps = [⟨some 1, "B", 1, -1⟩] ∧
      B'.rdeps = [⟨some 0, "B", 0, -1⟩] :=
  ⟨⟨_, _, rfl, rfl, rfl, rfl, rfl, rfl, rfl, rfl⟩, ⟨_, _, _, rfl, rfl, rfl, rfl, rfl⟩⟩

/-- C2 (amended). For every post-filter item `A` and every real filter item `B` (not a
pre-filter), stored at different addresses and both registered, when `A` has an edge `dep` on
the symbol of `B`, `process_deps(A)` accepts the edge: it returns, `A.deps` holds the edge with
target `B` and id `B.id` (and is exactly that edge if it was the only one), and `B.rdeps` is
its former content followed by the reverse edges of the edges of `A` linked to `B`, the one
of `dep` among them. -/
theorem C2_postfilter_on_filter_linked (c : symcache) (a b : cache_item_ptr)
    (A B : cache_item) (dep : cache_dependency)
    (hA : c.item a = some A) (hB : c.item b = some B)
    (_hApost : A.type.postfilter = true) (hBf : B.is_filter = true)
    (_hBpre : B.type.prefilter = false) (hBreal : B.is_virtual = false)
    (hAid : c.item_by_id_slot A.id = some a) (hBid : c.item_by_id_slot B.id = some b)
    (hBname : c.find B.symbol = some b) (hab : a ≠ b)
    (hdep : dep ∈ A.deps) (hsym : dep.sym = B.symbol) (hsafe : ∀ e ∈ A.deps, safe_edge c e) :
    ∃ c' A' B', process_deps c a = .ok c' ∧ c'.item a = some A' ∧ c'.item b = some B' ∧
      { dep with item := some b, id := B.id } ∈ A'.deps ∧
      (A.deps = [dep] → A'.deps = [{ dep with item := some b, id := B.id }]) ∧
      B'.rdeps = B.rdeps ++ added_rdeps c a A.id b A.deps ∧
      reverse_edge a A.id dep ∈ added_rdeps c a A.id b A.deps := by
  have hl : c.get_item_by_name_mut dep.sym true = some b := by
    rw [hsym]; exact lookup_real hBname hB hBreal
  have hi := ids_differ hAid hBid hab
  have hacc := accepted_eq_some hl hB hBf hi
  obtain ⟨c', hc'⟩ := process_deps_total hA hsafe
  obtain ⟨⟨A', hA', -, -, hAd⟩, hall⟩ := process_deps_items hA hc'
  obtain ⟨B', hB', -, -, hBr⟩ := hall b B hB
  refine ⟨c', A', B', hc', hA', hB', ?_, ?_, hBr, mem_added_rdeps hdep hacc⟩
  · rw [hAd]
    simp only [List.mem_filter, List.mem_map]
    exact ⟨⟨dep, hdep, by simp [resolved_edge, hacc]⟩, rfl⟩
  · intro h1
    rw [hAd, h1]
    simp [resolved_edge, hacc]

/-- C2 (amended), witness: post-filter `A` with one edge on filter `B`. -/
theorem C2_postfilter_on_filter_linked_witness :
    ∃ c' A' B', process_deps postfilter_on_filter 0 = .ok c' ∧ c'.item 0 = some A' ∧
      c'.item 1 = some B' ∧
      { (⟨none, "B", 0, -1⟩ : cache_dependency) with item := some 1, id := 1 } ∈ A'.deps ∧
      ([(⟨none, "B", 0, -1⟩ : cache_dependency)] = [⟨none, "B", 0, -1⟩] →
        A'.deps = [{ (⟨none, "B", 0, -1⟩ : cache_dependency) with item := some 1, id := 1 }]) ∧
      B'.rdeps = [] ++ added_rdeps postfilter_on_filter 0 0 1 [⟨none, "B", 0, -1⟩] ∧
      reverse_edge 0 0 ⟨none, "B", 0, -1⟩ ∈
        added_rdeps postfilter_on_filter 0 0 1 [⟨none, "B", 0, -1⟩] :=
  C2_postfilter_on_filter_linked postfilter_on_filter 0 1
    (real_item 0 "A" { no_flags with postfilter := true } 0 false [⟨none, "B", 0, -1⟩])
    (real_item 1 "B" no_flags 0 true []) ⟨none, "B", 0, -1⟩
    rfl rfl rfl rfl rfl rfl rfl rfl rfl (by decide) (by simp [real_item]) rfl
    (fun e he => safe_edge_of_real _ (by
      simp only [real_item, List.mem_singleton] at he
      subst he
      decide))

/-- C6. For every pair of real filter items `A` and `B` stored at different addresses and
registered (under their ids, `B` also under its symbol), whatever their priorities, where
`A` has one unresolved edge `dep` on the symbol of `B`: `process_deps(A)` returns, `A.deps` is
exactly one edge whose target is `B` and whose id is `B.id`, and `B.rdeps` is its former
content followed by one edge whose item is `A` and whose id is `A.id`. -/
theorem C6_filter_on_filter_accepted (c : symcache) (a b : cache_item_ptr)
    (A B : cache_item) (dep : cache_dependency)
    (hA : c.item a = some A) (hB : c.item b = some B)
    (_hAf : A.is_filter = true) (hBf : B.is_filter = true)
    (_hAreal : A.is_virtual = false) (hBreal : B.is_virtual = false)
    (hAid : c.item_by_id_slot A.id = some a) (hBid : c.item_by_id_slot B.id = some b)
    (hBname : c.find B.symbol = some b) (hab : a ≠ b)
    (hdeps : A.deps = [dep]) (hsym : dep.sym = B.symbol) (_hun : dep.item = none) :
    ∃ c' A' B', process_deps c a = .ok c' ∧ c'.item a = some A' ∧ c'.item b = some B' ∧
      A'.deps = [⟨some b, dep.sym, B.id, dep.vid⟩] ∧
      B'.rdeps = B.rdeps ++ [⟨some a, dep.sym, A.id, -1⟩] := by
  have hl : c.get_item_by_name_mut dep.sym true = some b := by
    rw [hsym]; exact lookup_real hBname hB hBreal
  exact process_deps_single hA hB hl hBf (ids_differ hAid hBid hab) hdeps

/-- C6, witness: filter `A` (priority 5) with one edge on filter `B` (priority 1). -/
theorem C6_filter_on_filter_accepted_witness :
    ∃ c' A' B', process_deps filter_on_filter 0 = .ok c' ∧ c'.item 0 = some A' ∧
      c'.item 1 = some B' ∧ A'.deps = [⟨some 1, "B", 1, -1⟩] ∧
      B'.rdeps = [] ++ [⟨some 0, "B", 0, -1⟩] :=
  C6_filter_on_filter_accepted filter_on_filter 0 1
    (real_item 0 "A" no_flags 5 true [⟨none, "B", 0, -1⟩]) (real_item 1 "B" no_flags 1 true [])
    ⟨none, "B", 0, -1⟩ rfl rfl rfl rfl rfl rfl rfl rfl rfl (by decide) rfl rfl rfl

/-- C7. For every registry and every item `X` whose edges are all unresolved before the
call, `process_deps(X)` returns (the targets read by the identifier propagation being
present) and afterwards every edge of `X.deps` has a resolved target whose id differs from
`X.id`; no edge has `X` itself as target, so an edge on the symbol of `X` or on a virtual
alias whose parent is `X` is not kept, and `X.rdeps` is unchanged. -/
theorem C7_no_self_edge (c : symcache) (self : cache_item_ptr) (X : cache_item)
    (hX : c.item self = some X) (hun : ∀ e ∈ X.deps, e.item = none)
    (hsafe : ∀ e ∈ X.deps, safe_edge c e) :
    ∃ c' X', process_deps c self = .ok c' ∧ c'.item self = some X' ∧ X'.id = X.id ∧
      (∀ e ∈ X'.deps, ∃ t T', e.item = some t ∧ c'.item t = some T' ∧ T'.id ≠ X'.id) ∧
      (∀ e ∈ X'.deps, e.item ≠ some self) ∧
      (∀ e ∈ X.deps, c.get_item_by_name_mut e.sym true = some self →
        ∀ e' ∈ X'.deps, e'.sym ≠ e.sym) ∧
      X'.rdeps = X.rdeps := by
  obtain ⟨c', hc'⟩ := process_deps_total hX hsafe
  obtain ⟨⟨X', hX', hXid, hXr, hXd⟩, hall⟩ := process_deps_items hX hc'
  have key : ∀ e ∈ X'.deps, ∃ e0 ∈ X.deps, ∃ t d, e.sym = e0.sym ∧ e.item = some t ∧
      c.get_item_by_name_mut e0.sym true = some t ∧ c.item t = some d ∧ d.id ≠ X.id := by
    intro e he
    rw [hXd] at he
    obtain ⟨e0, he0, h | h⟩ := mem_kept_edges he
    · obtain ⟨t, tid, hacc, rfl⟩ := h
      obtain ⟨hl, d, hd, -, hne, -⟩ := accepted_some_inv hacc
      exact ⟨e0, he0, t, d, rfl, rfl, hl, hd, hne⟩
    · obtain ⟨-, rfl, hs⟩ := h
      simp [hun e he0] at hs
  refine ⟨c', X', hc', hX', hXid, ?_, ?_, ?_, hXr⟩
  · intro e he
    obtain ⟨e0, -, t, d, -, het, -, hd, hne⟩ := key e he
    obtain ⟨d', hd', hdid, -, -⟩ := hall t d hd
    exact ⟨t, d', het, hd', by rw [hdid, hXid]; exact hne⟩
  · intro e he het
    obtain ⟨e0, -, t, d, -, het', -, hd, hne⟩ := key e he
    rw [het'] at het
    cases het
    rw [hX] at hd
    cases hd
    exact hne rfl
  · intro e _ hself e' he' hsym
    obtain ⟨e0, -, t, d, hs0, -, hl, hd, hne⟩ := key e' he'
    rw [← hs0, hsym, hself] at hl
    cases hl
    rw [hX] at hd
    cases hd
    exact hne rfl

/-- C7, witness: filter `A` with an edge on its own symbol and an edge on a virtual alias of
`A`; both are dropped. -/
theorem C7_no_self_edge_witness :
    ∃ c' X', process_deps self_dependent 0 = .ok c' ∧ c'.item 0 = some X' ∧ X'.id = 0 ∧
      (∀ e ∈ X'.deps, ∃ t T', e.item = some t ∧ c'.item t = some T' ∧ T'.id ≠ X'.id) ∧
      (∀ e ∈ X'.deps, e.item ≠ some 0) ∧
      (∀ e ∈ [(⟨none, "A", 0, -1⟩ : cache_dependency), ⟨none, "V", 0, -1⟩],
        self_dependent.get_item_by_name_mut e.sym true = some 0 →
        ∀ e' ∈ X'.deps, e'.sym ≠ e.sym) ∧
      X'.rdeps = [] :=
  C7_no_self_edge self_dependent 0
    (real_item 0 "A" no_flags 0 true [⟨none, "A", 0, -1⟩, ⟨none, "V", 0, -1⟩]) rfl
    (by simp [real_item])
    (fun e he => safe_edge_of_real _ (by
      simp only [real_item, List.mem_cons, List.mem_singleton, List.mem_nil_iff,
        or_false] at he
      rcases he with rfl | rfl <;> decide))

/-! ## Stage ordering, statistics and delayed conditions: the claims -/

/-- C3 (code bug). The lambdas return an `int` that is `-1` or `1` whenever the priorities
differ, and `std::stable_sort` reads it as "goes before". On `ordered_stages`, whose four
lists are already in the order the stage rule asks for, the sort exchanges the two items of
every list: the connection and pre-filter lists end in ascending priority (1 before 2), the
post-filter and idempotent lists in descending priority (2 before 1). -/
theorem C3_stage_sort_misorders :
    ordered_stages.priorities ordered_stages.prefilters = [some 2, some 1] ∧
    ordered_stages.priorities ordered_stages.postfilters = [some 1, some 2] ∧
    ordered_stages.sort_stages =
      { ordered_stages with
        connfilters := [1, 0], prefilters := [1, 0], postfilters := [0, 1],
        idempotent := [0, 1] } ∧
    ordered_stages.sort_stages.priorities ordered_stages.sort_stages.connfilters =
      [some 1, some 2] ∧
    ordered_stages.sort_stages.priorities ordered_stages.sort_stages.prefilters =
      [some 1, some 2] ∧
    ordered_stages.sort_stages.priorities ordered_stages.sort_stages.postfilters =
      [some 2, some 1] ∧
    ordered_stages.sort_stages.priorities ordered_stages.sort_stages.idempotent =
      [some 2, some 1] :=
  ⟨rfl, rfl, rfl, rfl, rfl, rfl, rfl⟩

/-- C4 (code bug). `round_to_hundreds` computes `floor(x) * 100 / 100`, the integer part of
`x`. For the single symbol of the scenario (weight 3.456, time 0.1234, count 42, frequency
average 0.5, deviation 0.02) `save_items` writes time 0, average 0 and deviation 0, and the
reload into the fresh registry gives `avg_time` 0, `avg_frequency` 0 and
`stddev_frequency` 0 where the saved values are 0.1234, 0.5 and 0.02; only the count 42 and
the configured weight are as the claim says. -/
theorem C4_round_trip_keeps_integer_part :
    saved_registry.save_items = .ok scenario_payload ∧
    (∃ it, saved_registry.item 0 = some it ∧ it.st.avg_time = 1234 / 10000 ∧
      it.st.time_counter.mean = 1234 / 10000 ∧ it.st.avg_frequency = 1 / 2 ∧
      it.st.stddev_frequency = 2 / 100 ∧ it.st.total_hits = 42) ∧
    ∃ c' it', load_top fresh_registry (some scenario_payload) = .ok (true, c') ∧
      c'.item 0 = some it' ∧ it'.st.avg_time = 0 ∧ it'.st.total_hits = 42 ∧
      it'.st.avg_frequency = 0 ∧ it'.st.stddev_frequency = 0 ∧
      it'.st.weight = 3456 / 1000 := by
  refine ⟨?_, ⟨_, rfl, rfl, rfl, rfl, rfl, rfl⟩, ⟨_, _, rfl, rfl, rfl, rfl, rfl, rfl, rfl⟩⟩
  have h : saved_registry.save_items = .ok (.ucl_obj [("S", .ucl_obj [
      ("weight", .ucl_float (round_to_hundreds (3456 / 1000))),
      ("time", .ucl_float (round_to_hundreds (1234 / 10000))),
      ("count", .ucl_int 42),
      ("frequency", .ucl_obj [("avg", .ucl_float (round_to_hundreds (1 / 2))),
        ("stddev", .ucl_float (round_to_hundreds (2 / 100)))])])]) := rfl
  rw [h, round_to_hundreds_time, round_to_hundreds_weight, round_to_hundreds_avg,
    round_to_hundreds_stddev]
  rfl

/-- C5, as stated, fails: in `condition_on_alias` the delayed condition names the virtual
item `V` whose parent is the real item `P`; the delayed-condition pass returns without
aborting and the callback 7 is attached to `P`, and so does `init`. -/
theorem C5_counterexample :
    (∃ V P, condition_on_alias.item 1 = some V ∧ condition_on_alias.item 0 = some P ∧
      condition_on_alias.find "V" = some 1 ∧ V.is_virtual = true ∧
      V.get_parent condition_on_alias = some 0 ∧ P.is_virtual = false ∧
      condition_on_alias.delayed_conditions = some [⟨"V", 7⟩]) ∧
    (∃ c' P', delayed_conditions_loop condition_on_alias [⟨"V", 7⟩] = .ok c' ∧
      c'.item 0 = some P' ∧ P'.specific = .normal_item (some 7)) ∧
    ∃ c' P', condition_on_alias.init no_file none = .ok (true, c') ∧
      c'.item 0 = some P' ∧ P'.specific = .normal_item (some 7) :=
  ⟨⟨_, _, rfl, rfl, rfl, rfl, rfl, rfl, rfl⟩, ⟨_, _, rfl, rfl, rfl⟩, ⟨_, _, rfl, rfl, rfl⟩⟩

/-- C5 (amended). For every registry in which a delayed condition names the symbol of a
virtual item `V` whose parent is a real item `P`, the delayed-condition pass of `init`
resolves the symbol to `P` and calls `add_condition` on `P`, which succeeds: the pass goes on
with the callback attached to `P` and does not abort there; for a queue holding that
condition alone it returns, `P` carries the callback and `V` is unchanged. -/
theorem C5_condition_attached_to_parent (c : symcache) (cond : delayed_cache_condition)
    (rest : List delayed_cache_condition) (v p : cache_item_ptr) (V P : cache_item)
    (hfind : c.find cond.sym = some v) (hV : c.item v = some V)
    (hvirt : V.is_virtual = true) (hpar : V.get_parent c = some p)
    (hP : c.item p = some P) (hreal : P.is_virtual = false) :
    c.get_item_by_name_mut cond.sym true = some p ∧
    P.add_condition cond.cbref = some { P with specific := .normal_item (some cond.cbref) } ∧
    delayed_conditions_loop c (cond :: rest) =
      delayed_conditions_loop
        (c.modify p fun _ => { P with specific := .normal_item (some cond.cbref) }) rest ∧
    ∃ c' P', delayed_conditions_loop c [cond] = .ok c' ∧ c'.item p = some P' ∧
      P'.specific = .normal_item (some cond.cbref) ∧ c'.item v = some V := by
  have hl : c.get_item_by_name_mut cond.sym true = some p := by
    simp [symcache.get_item_by_name_mut, hfind, hV, hvirt, hpar]
  have hadd : P.add_condition cond.cbref =
      some { P with specific := .normal_item (some cond.cbref) } := by
    unfold cache_item.add_condition
    unfold cache_item.is_virtual at hreal
    split
    · rename_i h; simp [h] at hreal
    · rfl
  have hpv : p ≠ v := by
    intro h
    rw [h, hV] at hP
    cases hP
    rw [hvirt] at hreal
    cases hreal
  have hstep : ∀ r, delayed_conditions_loop c (cond :: r) =
      delayed_conditions_loop
        (c.modify p fun _ => { P with specific := .normal_item (some cond.cbref) }) r := by
    intro r
    simp only [delayed_conditions_loop, hl, hP, hadd]
  refine ⟨hl, hadd, hstep rest,
    c.modify p fun _ => { P with specific := .normal_item (some cond.cbref) },
    { P with specific := .normal_item (some cond.cbref) }, ?_, ?_, rfl, ?_⟩
  · rw [hstep []]; rfl
  · rw [item_modify, if_pos rfl, hP]; rfl
  · rw [item_modify, if_neg hpv, hV]

/-- C5 (amended), witness: the registry `condition_on_alias`. -/
theorem C5_condition_attached_to_parent_witness :
    condition_on_alias.get_item_by_name_mut "V" true = some 0 ∧
    (real_item 0 "P" no_flags 0 true []).add_condition 7 =
      some { real_item 0 "P" no_flags 0 true [] with specific := .normal_item (some 7) } ∧
    delayed_conditions_loop condition_on_alias [⟨"V", 7⟩] =
      delayed_conditions_loop
        (condition_on_alias.modify 0 fun _ =>
          { real_item 0 "P" no_flags 0 true [] with specific := .normal_item (some 7) }) [] ∧
    ∃ c' P', delayed_conditions_loop condition_on_alias [⟨"V", 7⟩] = .ok c' ∧
      c'.item 0 = some P' ∧ P'.specific = .normal_item (some 7) ∧
      c'.item 1 = some (alias_item 0 "V" no_flags (some 0) 0) :=
  C5_condition_attached_to_parent condition_on_alias ⟨"V", 7⟩ [] 1 0
    (alias_item 0 "V" no_flags (some 0) 0) (real_item 0 "P" no_flags 0 true [])
    rfl rfl rfl rfl rfl rfl

/-- C8. `load_items` returns failure and leaves the registry as it was (every item and both
totals) whenever the mapped file is smaller than the header, or its first bytes differ from
`symcache_magic`, or the parser rejects the body after the header, or what the parser returns
is not an object. -/
theorem C8_load_failure_leaves_registry (ext : externals) (c : symcache) (bytes : List Nat)
    (h : bytes.length < ext.header_size ∨
      bytes.take ext.symcache_magic.length ≠ ext.symcache_magic ∨
      ext.ucl_parse (bytes.drop ext.header_size) = none ∨
      ∃ top, ext.ucl_parse (bytes.drop ext.header_size) = some top ∧
        ∀ entries, top ≠ some (.ucl_obj entries)) :
    c.load_items ext (some bytes) = .ok (false, c) := by
  unfold symcache.load_items
  dsimp only
  split
  · rfl
  · split
    · rfl
    · rename_i hlen hmagic
      rcases h with h | h | h | ⟨top, h, hno⟩
      · exact absurd h hlen
      · exact absurd h hmagic
      · rw [h]
      · rw [h]
        dsimp only
        unfold load_top
        split
        · rename_i entries; exact absurd rfl (hno entries)
        · rfl

/-- C8, witness: an empty file against a header of four bytes. -/
theorem C8_load_failure_leaves_registry_witness :
    fresh_registry.load_items ⟨4, [114, 115, 99, 2], fun _ => none⟩ (some []) =
      .ok (false, fresh_registry) :=
  C8_load_failure_leaves_registry ⟨4, [114, 115, 99, 2], fun _ => none⟩ fresh_registry []
    (Or.inl (by decide))

/-- C9. `load_items` never loads weight from disk: for every registry and every two files
with the same header whose parsed payloads have the same keys in the same order and records
equal except for the values of their `weight` fields, `load_items` gives the same result and
the same registry (all items and both totals); and loading a payload with a single entry for
a real symbol returns success and leaves the weight of that item at its value before the
call. -/
theorem C9_weight_not_loaded (ext : externals) (c : symcache) (bytes1 bytes2 : List Nat)
    (e1 e2 : List (String × ucl_object))
    (hm : ext.symcache_magic.length ≤ ext.header_size)
    (hhdr : bytes1.take ext.header_size = bytes2.take ext.header_size)
    (hp1 : ext.ucl_parse (bytes1.drop ext.header_size) = some (some (.ucl_obj e1)))
    (hp2 : ext.ucl_parse (bytes2.drop ext.header_size) = some (some (.ucl_obj e2)))
    (hrel : payload_same_but_weight e1 e2) :
    c.load_items ext (some bytes1) = c.load_items ext (some bytes2) ∧
    ∀ (key : String) (cur : ucl_object) (p : cache_item_ptr) (P : cache_item),
      c.find key = some p → c.item p = some P → P.is_virtual = false →
      ∃ c' P', load_top c (some (.ucl_obj [(key, cur)])) = .ok (true, c') ∧
        c'.item p = some P' ∧ P'.st.weight = P.st.weight := by
  constructor
  · have hlen : bytes1.length < ext.header_size ↔ bytes2.length < ext.header_size := by
      have := congrArg List.length hhdr
      simp only [List.length_take] at this
      omega
    have hmag : bytes1.take ext.symcache_magic.length = bytes2.take ext.symcache_magic.length := by
      have := congrArg (List.take ext.symcache_magic.length) hhdr
      simpa [List.take_take, Nat.min_eq_left hm] using this
    simp only [symcache.load_items, hp1, hp2, hmag, load_top,
      load_entries_same_but_weight hrel c]
    by_cases h1 : bytes1.length < ext.header_size
    · rw [if_pos h1, if_pos (hlen.mp h1)]
    · rw [if_neg h1, if_neg (fun h => h1 (hlen.mpr h))]
  · intro key cur p P hf hP hreal
    obtain ⟨c', hc', -, hp', -⟩ := load_entry_real cur hf hP hreal
    refine ⟨c', loaded_stats cur P, ?_, hp', loaded_stats_weight cur P⟩
    simp only [load_top, load_entries, hc']

/-- C9, witness: two files whose payloads give the symbol `S` the weights 1 and 9 and the
same time. -/
theorem C9_weight_not_loaded_witness :
    fresh_registry.load_items
        (two_documents (.ucl_obj [("S", weight_time_record 1)])
          (.ucl_obj [("S", weight_time_record 9)])) (some [1]) =
      fresh_registry.load_items
        (two_documents (.ucl_obj [("S", weight_time_record 1)])
          (.ucl_obj [("S", weight_time_record 9)])) (some [2]) ∧
    ∀ (key : String) (cur : ucl_object) (p : cache_item_ptr) (P : cache_item),
      fresh_registry.find key = some p → fresh_registry.item p = some P →
      P.is_virtual = false →
      ∃ c' P', load_top fresh_registry (some (.ucl_obj [(key, cur)])) = .ok (true, c') ∧
        c'.item p = some P' ∧ P'.st.weight = P.st.weight :=
  C9_weight_not_loaded
    (two_documents (.ucl_obj [("S", weight_time_record 1)])
      (.ucl_obj [("S", weight_time_record 9)]))
    fresh_registry [1] [2] [("S", weight_time_record 1)] [("S", weight_time_record 9)]
    (Nat.le_refl 0) rfl rfl rfl
    (List.Forall₂.cons
      ⟨rfl, Or.inr ⟨_, _, rfl, rfl,
        List.Forall₂.cons ⟨rfl, Or.inl rfl⟩
          (List.Forall₂.cons ⟨rfl, Or.inr rfl⟩ List.Forall₂.nil)⟩⟩
      List.Forall₂.nil)

/-- C10 (code bug). The weight and `avg_time` propagation between a virtual item and its
parent sits in the loop body of the entry of the virtual item, and copies the `avg_time` that
the parent has at that moment. In `weighted_alias` the virtual item `V` (weight 5, not a
ghost) has the real parent `P` (weight 1, `avg_time` 0). With a payload that holds the entry
for `V` and then the entry for `P` (time 5/2), `load_items` succeeds and leaves the
`avg_time` of `V` at 0 where that of `P` is 5/2. With the same entries in the other order they
are equal. With the entry for `P` alone the weight of `P` stays 1 and the `avg_time` of `V`
stays 0. -/
theorem C10_alias_time_not_maintained :
    (∃ P V, weighted_alias.item 0 = some P ∧ weighted_alias.item 1 = some V ∧
      weighted_alias.find "P" = some 0 ∧ weighted_alias.find "V" = some 1 ∧
      P.is_virtual = false ∧ V.is_virtual = true ∧ V.type.ghost = false ∧
      V.get_parent weighted_alias = some 0 ∧
      P.st.weight = 1 ∧ V.st.weight = 5 ∧ P.st.avg_time = 0) ∧
    (∃ c' P' V',
      weighted_alias.load_items
        (two_documents (.ucl_obj [("V", time_record), ("P", time_record)]) .ucl_null)
        (some [1]) = .ok (true, c') ∧
      c'.item 0 = some P' ∧ c'.item 1 = some V' ∧ P'.st.weight = 5 ∧
      P'.st.avg_time = 5 / 2 ∧ V'.st.avg_time = 0) ∧
    (∃ c' P' V',
      weighted_alias.load_items
        (two_documents (.ucl_obj [("P", time_record), ("V", time_record)]) .ucl_null)
        (some [1]) = .ok (true, c') ∧
      c'.item 0 = some P' ∧ c'.item 1 = some V' ∧ P'.st.weight = 5 ∧
      P'.st.avg_time = 5 / 2 ∧ V'.st.avg_time = 5 / 2) ∧
    (∃ c' P' V',
      weighted_alias.load_items
        (two_documents (.ucl_obj [("P", time_record)]) .ucl_null)
        (some [1]) = .ok (true, c') ∧
      c'.item 0 = some P' ∧ c'.item 1 = some V' ∧ P'.st.weight = 1 ∧
      P'.st.avg_time = 5 / 2 ∧ V'.st.avg_time = 0) :=
  ⟨⟨_, _, rfl, rfl, rfl, rfl, rfl, rfl, rfl, rfl, rfl, rfl, rfl⟩,
    ⟨_, _, _, rfl, rfl, rfl, rfl, rfl, rfl⟩, ⟨_, _, _, rfl, rfl, rfl, rfl, rfl, rfl⟩,
    ⟨_, _, _, rfl, rfl, rfl, rfl, rfl, rfl⟩⟩

/-! ## Further claims -/

/-- The bound on the rounds of `__merge_sort_with_buffer` is never reached: once it is at
least `len - step_size`, a larger bound gives the same result. -/
theorem merge_sort_rounds_enough {α : Type} (comp : α → α → Bool) (len : Nat) :
    ∀ (rounds extra step_size : Nat) (xs : List α), 0 < step_size →
      len ≤ step_size + rounds →
      merge_sort_rounds comp len (rounds + extra) step_size xs =
        merge_sort_rounds comp len rounds step_size xs := by
  intro rounds
  induction rounds with
  | zero =>
    intro extra step_size xs _ hlen
    cases extra with
    | zero => rfl
    | succ k =>
      have hno : ¬ step_size < len := by omega
      simp only [Nat.zero_add, merge_sort_rounds, if_neg hno]
  | succ n ih =>
    intro extra step_size xs hpos hlen
    have hshape : n + 1 + extra = (n + extra) + 1 := by omega
    rw [hshape]
    simp only [merge_sort_rounds]
    split
    · exact ih extra (4 * step_size) _ (by omega) (by omega)
    · rfl

/-- C12 (code bug). With the lambdas read as "goes before", an item passes every item of
another priority and may end in front of an earlier item of its own priority. In
`tied_stages` each list holds `a` (priority 1), `b` (2), `c` (1), `d` (1) in that order; after
the sort each list is `c`, `d`, `b`, `a`: `c` and `d` are now before `a`, which has the same
priority and was before them. -/
theorem C12_stage_sort_not_stable :
    tied_stages.priorities tied_stages.postfilters = [some 1, some 2, some 1, some 1] ∧
    tied_stages.sort_stages =
      { tied_stages with
        connfilters := [2, 3, 1, 0], prefilters := [2, 3, 1, 0], postfilters := [2, 3, 1, 0],
        idempotent := [2, 3, 1, 0] } ∧
    tied_stages.sort_stages.priorities tied_stages.sort_stages.postfilters =
      [some 1, some 1, some 2, some 1] :=
  ⟨rfl, rfl, rfl⟩

/-- C13 (code bug). `round_to_hundreds` gives the integer part of its argument: for every
`x` it is `floor(x)`. So `round_to_hundreds(0.1234)` is 0, at distance 0.1234 from its
argument and not 0.12, and `round_to_hundreds(3.456)` is 3, neither 3.45 nor 3.46. -/
theorem C13_round_to_hundreds_is_floor :
    (∀ x : ℚ, round_to_hundreds x = ⌊x⌋) ∧
    round_to_hundreds (1234 / 10000) = 0 ∧
    ¬ (|round_to_hundreds (1234 / 10000) - 1234 / 10000| < 1 / 100) ∧
    round_to_hundreds (1234 / 10000) ≠ 12 / 100 ∧
    round_to_hundreds (3456 / 1000) = 3 ∧
    round_to_hundreds (3456 / 1000) ≠ 345 / 100 ∧
    round_to_hundreds (3456 / 1000) ≠ 346 / 100 := by
  refine ⟨fun x => ?_, round_to_hundreds_time, ?_, ?_, round_to_hundreds_weight, ?_, ?_⟩
  · simp [round_to_hundreds]
  · rw [round_to_hundreds_time]; norm_num [abs_of_pos]
  · rw [round_to_hundreds_time]; norm_num
  · rw [round_to_hundreds_weight]; norm_num
  · rw [round_to_hundreds_weight]; norm_num

/-- C19 (code bug). In `ghost_dependency` a dependency is declared from the virtual item `V`
on the ghost `G`, which has no parent. `init` turns it into an edge of `V` that carries a
virtual source id (the registry `edge_on_ghost`). For that edge the lookup of `G` without
parent resolution finds `G`, the parent-resolved lookup is absent, and `process_deps(V)`
reads the absent target: neither `process_deps(V)` nor `init` returns. -/
theorem C19_absent_target_read :
    (∃ c1, delayed_deps_loop ghost_dependency [⟨"V", "G"⟩] = .ok c1 ∧
      c1 = edge_on_ghost) ∧
    (∃ V, edge_on_ghost.item 1 = some V ∧ V.deps = [⟨none, "G", -1, 0⟩]) ∧
    edge_on_ghost.get_item_by_name "G" false = some 2 ∧
    edge_on_ghost.get_item_by_name_mut "G" true = none ∧
    propagate_ids edge_on_ghost 1 ⟨none, "G", -1, 0⟩
      (edge_on_ghost.get_item_by_name_mut "G" true) = .error .null_deref ∧
    process_deps edge_on_ghost 1 = .error .null_deref ∧
    ghost_dependency.init no_file none = .error .null_deref :=
  ⟨⟨_, rfl, rfl⟩, ⟨_, rfl, rfl⟩, rfl, rfl, rfl, rfl, rfl⟩

/-- The loop of `load_items` skips the entries whose key is not registered. -/
theorem load_entries_registered (c0 : symcache) :
    ∀ (l : List (String × ucl_object)) (c : symcache),
      (∀ name, c.find name = c0.find name) →
      load_entries c (l.filter fun e => (c0.find e.1).isSome) = load_entries c l := by
  intro l
  induction l with
  | nil => intro c _; rfl
  | cons e rest ih =>
    intro c hc
    obtain ⟨k, cur⟩ := e
    cases hk : c0.find k with
    | none =>
      have hck : c.find k = none := by rw [hc, hk]
      simp only [List.filter_cons, hk, Option.isSome_none, Bool.false_eq_true, if_false,
        load_entries, load_entry_unknown cur hck]
      exact ih c hc
    | some p =>
      simp only [List.filter_cons, hk, Option.isSome_some, if_true, load_entries]
      cases h1 : load_entry c k cur with
      | error x => rfl
      | ok c1 =>
        have s1 := (load_entry_frame h1).1
        exact ih c1 (fun name => by rw [find_congr s1, hc])

/-- C11. Entries for unknown symbols are ignored: for every registry and every two files with
the same header, the payload of the second being the payload of the first without the
entries whose key is not a registered symbol, `load_items` gives the same result and the same
registry (distinct keys are not needed); and a file that passes the header checks and whose
payload has no registered key is loaded with success and leaves every item and both totals
as they were. -/
theorem C11_unknown_entries_ignored (ext : externals) (c : symcache)
    (bytes1 bytes2 : List Nat) (entries : List (String × ucl_object))
    (hm : ext.symcache_magic.length ≤ ext.header_size)
    (hhdr : bytes1.take ext.header_size = bytes2.take ext.header_size)
    (hp1 : ext.ucl_parse (bytes1.drop ext.header_size) = some (some (.ucl_obj entries)))
    (hp2 : ext.ucl_parse (bytes2.drop ext.header_size) =
      some (some (.ucl_obj (entries.filter fun e => (c.find e.1).isSome)))) :
    c.load_items ext (some bytes1) = c.load_items ext (some bytes2) ∧
    ((∀ e ∈ entries, c.find e.1 = none) → ¬ bytes1.length < ext.header_size →
      bytes1.take ext.symcache_magic.length = ext.symcache_magic →
      c.load_items ext (some bytes1) = .ok (true, c)) := by
  have hreg := load_entries_registered c entries c (fun _ => rfl)
  constructor
  · have hlen : bytes1.length < ext.header_size ↔ bytes2.length < ext.header_size := by
      have := congrArg List.length hhdr
      simp only [List.length_take] at this
      omega
    have hmag : bytes1.take ext.symcache_magic.length = bytes2.take ext.symcache_magic.length := by
      have := congrArg (List.take ext.symcache_magic.length) hhdr
      simpa [List.take_take, Nat.min_eq_left hm] using this
    simp only [symcache.load_items, hp1, hp2, hmag, load_top, hreg]
    by_cases h1 : bytes1.length < ext.header_size
    · rw [if_pos h1, if_pos (hlen.mp h1)]
    · rw [if_neg h1, if_neg (fun h => h1 (hlen.mpr h))]
  · intro hnone hlen hmagic
    have hempty : (entries.filter fun e => (c.find e.1).isSome) = [] := by
      rw [List.filter_eq_nil_iff]
      intro e he
      simp [hnone e he]
    rw [hempty] at hreg
    simp only [symcache.load_items, if_neg hlen, hmagic, ne_eq, not_true_eq_false, if_false,
      hp1, load_top, ← hreg, load_entries]

/-- C11, witness: in the first pair of files the payload of the first file has an entry for
the registered symbol `S` and one for the unknown symbol `U`, the payload of the second only
the entry for `S`; in the second pair the payload of the first file has entries for the
unknown symbols `U` and `W` only, and the load succeeds without any change. -/
theorem C11_unknown_entries_ignored_witness :
    fresh_registry.load_items
        (two_documents (.ucl_obj [("U", time_record), ("S", time_record)])
          (.ucl_obj [("S", time_record)])) (some [1]) =
      fresh_registry.load_items
        (two_documents (.ucl_obj [("U", time_record), ("S", time_record)])
          (.ucl_obj [("S", time_record)])) (some [2]) ∧
    fresh_registry.load_items
        (two_documents (.ucl_obj [("U", time_record), ("W", time_record)]) (.ucl_obj []))
        (some [1]) = .ok (true, fresh_registry) :=
  ⟨(C11_unknown_entries_ignored
      (two_documents (.ucl_obj [("U", time_record), ("S", time_record)])
        (.ucl_obj [("S", time_record)]))
      fresh_registry [1] [2] [("U", time_record), ("S", time_record)]
      (Nat.le_refl 0) rfl rfl rfl).1,
    (C11_unknown_entries_ignored
      (two_documents (.ucl_obj [("U", time_record), ("W", time_record)]) (.ucl_obj []))
      fresh_registry [1] [2] [("U", time_record), ("W", time_record)]
      (Nat.le_refl 0) rfl rfl rfl).2
      (by
        intro e he
        simp only [List.mem_cons, List.mem_singleton, List.mem_nil_iff, or_false] at he
        rcases he with rfl | rfl <;> rfl)
      (by decide) rfl⟩

theorem slot_lt {α : Type} {l : List α} {i : Int} {a : α} (hi : 0 ≤ i)
    (h : l[i.toNat]? = some a) : i < (l.length : Int) := by
  have h1 : i.toNat < l.length := by
    rcases List.getElem?_eq_some_iff.mp h with ⟨hlt, -⟩
    exact hlt
  omega

/-- C14. For every registry and every valid `id_from` whose slot of `items_by_id` holds an
item, `add_dependency(id_from, to, vid)` returns and appends exactly one unresolved edge
(no target, symbol `to`, real source id `id_from`, virtual source id -1) at the end of the
`deps` of that item. When `vid` is not negative and its slot of `virtual_symbols` holds
another item, it also appends exactly one unresolved edge (symbol `to`, real source id -1,
virtual source id `vid`) at the end of the `deps` of that virtual item; when `vid` is negative
no other item changes. The former edges, the `deps` of every other item, every `rdeps` list
and the containers are unchanged, and each appended edge has exactly one of its two source
ids non-negative. -/
theorem C14_add_dependency_appends (c : symcache) (id_from : Int) (to_sym : String)
    (vid : Int) (src vsrc : cache_item_ptr) (S V : cache_item)
    (hid : 0 ≤ id_from) (hsrc : c.items_by_id[id_from.toNat]? = some (some src))
    (hS : c.item src = some S)
    (hvirt : 0 ≤ vid → c.virtual_symbols[vid.toNat]? = some (some vsrc) ∧
      c.item vsrc = some V ∧ vsrc ≠ src) :
    ∃ c', c.add_dependency id_from to_sym vid = .ok c' ∧
      { c' with heap := [] } = { c with heap := [] } ∧
      c'.item src = some { S with deps := S.deps ++ [⟨none, to_sym, id_from, -1⟩] } ∧
      (vid < 0 → ∀ q, q ≠ src → c'.item q = c.item q) ∧
      (0 ≤ vid →
        c'.item vsrc = some { V with deps := V.deps ++ [⟨none, to_sym, -1, vid⟩] } ∧
        ∀ q, q ≠ src → q ≠ vsrc → c'.item q = c.item q) ∧
      (0 ≤ id_from ∧ (-1 : Int) < 0) ∧ (0 ≤ vid → (-1 : Int) < 0 ∧ 0 ≤ vid) := by
  have hlt := slot_lt hid hsrc
  have hguard : ¬ ¬ (id_from ≥ 0 ∧ id_from < (c.items_by_id.length : Int)) :=
    not_not.mpr ⟨hid, hlt⟩
  have hsrc' : (c.modify src fun it =>
      { it with deps := it.deps ++ [⟨none, to_sym, id_from, -1⟩] }).item src =
      some { S with deps := S.deps ++ [⟨none, to_sym, id_from, -1⟩] } := by
    rw [item_modify, if_pos rfl, hS]; rfl
  by_cases hv : 0 ≤ vid
  · obtain ⟨hvs, hV, hne⟩ := hvirt hv
    have hvlt := slot_lt hv hvs
    have hvs1 : (c.modify src fun it =>
        { it with deps := it.deps ++ [⟨none, to_sym, id_from, -1⟩] }).virtual_symbols[vid.toNat]? =
        some (some vsrc) := hvs
    have hvlen : ¬ ¬ (vid < ((c.modify src fun it =>
        { it with deps := it.deps ++ [⟨none, to_sym, id_from, -1⟩] }).virtual_symbols.length :
          Int)) := not_not.mpr hvlt
    refine ⟨(c.modify src fun it =>
        { it with deps := it.deps ++ [⟨none, to_sym, id_from, -1⟩] }).modify vsrc fun it =>
        { it with deps := it.deps ++ [⟨none, to_sym, -1, vid⟩] },
      ?_, rfl, ?_, fun h => absurd hv (not_le.mpr h), fun _ => ⟨?_, ?_⟩,
      ⟨hid, by decide⟩, fun h => ⟨by decide, h⟩⟩
    · simp only [symcache.add_dependency, if_neg hguard, hsrc, ge_iff_le, if_pos hv,
        if_neg hvlen, hvs1]
    · rw [item_modify, if_neg hne, hsrc']
    · rw [item_modify, if_pos rfl, item_modify, if_neg (Ne.symm hne), hV]; rfl
    · intro q hq1 hq2
      rw [item_modify, if_neg (Ne.symm hq2), item_modify, if_neg (Ne.symm hq1)]
  · refine ⟨c.modify src fun it =>
        { it with deps := it.deps ++ [⟨none, to_sym, id_from, -1⟩] },
      ?_, rfl, hsrc', fun _ q hq => ?_, fun h => absurd h hv,
      ⟨hid, by decide⟩, fun h => absurd h hv⟩
    · simp only [symcache.add_dependency, if_neg hguard, hsrc, ge_iff_le, if_neg hv]
    · rw [item_modify, if_neg (Ne.symm hq)]

/-- C14, witness: `add_dependency(0, "T", 0)` on the real item `P` and its alias `V`. -/
theorem C14_add_dependency_appends_witness :
    ∃ c', parent_and_alias.add_dependency 0 "T" 0 = .ok c' ∧
      { c' with heap := [] } = { parent_and_alias with heap := [] } ∧
      c'.item 0 = some { real_item 0 "P" no_flags 0 true [] with
        deps := (real_item 0 "P" no_flags 0 true []).deps ++ [⟨none, "T", 0, -1⟩] } ∧
      ((0 : Int) < 0 → ∀ q, q ≠ 0 → c'.item q = parent_and_alias.item q) ∧
      ((0 : Int) ≤ 0 →
        c'.item 1 = some { alias_item 0 "V" no_flags (some 0) 0 with
          deps := (alias_item 0 "V" no_flags (some 0) 0).deps ++ [⟨none, "T", -1, 0⟩] } ∧
        ∀ q, q ≠ 0 → q ≠ 1 → c'.item q = parent_and_alias.item q) ∧
      ((0 : Int) ≤ 0 ∧ (-1 : Int) < 0) ∧ ((0 : Int) ≤ 0 → (-1 : Int) < 0 ∧ (0 : Int) ≤ 0) :=
  C14_add_dependency_appends parent_and_alias 0 "T" 0 0 1
    (real_item 0 "P" no_flags 0 true []) (alias_item 0 "V" no_flags (some 0) 0)
    (by decide) rfl rfl (fun _ => ⟨rfl, rfl, by decide⟩)

/-- A filled slot of `items_by_id` is what the bounds and null checks of `get_item_by_id`
let through. -/
theorem slot_of_index {c : symcache} {id : Int} {p : cache_item_ptr} (h0 : 0 ≤ id)
    (h : c.items_by_id[id.toNat]? = some (some p)) : c.item_by_id_slot id = some p := by
  have hlt := slot_lt h0 h
  simp only [symcache.item_by_id_slot]
  rw [if_neg (by omega), h]

/-- An index that names no filled slot of `items_by_id` is refused. -/
theorem no_slot_of_index {c : symcache} {id : Int}
    (h : id < 0 ∨ c.items_by_id[id.toNat]? = none ∨ c.items_by_id[id.toNat]? = some none) :
    c.item_by_id_slot id = none := by
  simp only [symcache.item_by_id_slot]
  split
  · rfl
  · rename_i hin
    rcases h with h | h | h
    · exact absurd (Or.inl h) hin
    · rw [h]
    · rw [h]

/-- Under the registry invariant, a parent that `get_parent` gives for a stored item is a
stored real item. -/
theorem get_parent_registered {c : symcache} (hinv : parents_registered c) {it : cache_item}
    (hit : it ∈ c.heap) {p : cache_item_ptr} (h : it.get_parent c = some p) :
    ∃ P, c.item p = some P ∧ P.is_virtual = false := by
  have hreg := hinv it hit
  unfold parent_registered at hreg
  unfold cache_item.get_parent at h
  cases hs : it.specific with
  | normal_item cond => simp [hs] at h
  | virtual_item parent parent_id =>
    cases parent with
    | some q =>
      simp only [hs, virtual_item_get_parent, Option.some.injEq] at h hreg
      subst h
      exact hreg
    | none =>
      simp only [hs, virtual_item_get_parent] at h hreg
      rcases hreg with ⟨p1, P, h0, hslot, hP, hreal⟩ | ⟨-, hno⟩
      · rw [slot_of_index h0 hslot] at h
        cases h
        exact ⟨P, hP, hreal⟩
      · rw [no_slot_of_index hno] at h
        cases h

/-- C17. In a registry that satisfies the invariant on parents of the data model,
`get_parent` returns absent for every real item; for every stored virtual item that is not a
ghost it returns a present item that is stored and real, namely the direct parent reference
when that is set and otherwise the item held in the slot `parent_id` of `items_by_id`; and
`get_item_by_name(name, true)` and `get_item_by_id(id, true)` never return a virtual
item. -/
theorem C17_get_parent_real (c : symcache) (hinv : parents_registered c) :
    (∀ it : cache_item, it.is_virtual = false → it.get_parent c = none) ∧
    (∀ it ∈ c.heap, ∀ parent parent_id, it.specific = .virtual_item parent parent_id →
      it.type.ghost = false →
      ∃ p P, it.get_parent c = some p ∧ c.item p = some P ∧ P.is_virtual = false ∧
        (∀ q, parent = some q → p = q) ∧
        (parent = none → 0 ≤ parent_id ∧ c.items_by_id[parent_id.toNat]? = some (some p))) ∧
    (∀ name p, c.get_item_by_name name true = some p →
      ∃ P, c.item p = some P ∧ P.is_virtual = false) ∧
    (∀ id p, c.get_item_by_id id true = some p →
      ∃ P, c.item p = some P ∧ P.is_virtual = false) := by
  have hmem : ∀ q it, c.item q = some it → it ∈ c.heap := by
    intro q it hq
    simp only [symcache.item] at hq
    exact List.getElem?_mem hq
  refine ⟨?_, ?_, ?_, ?_⟩
  · intro it h
    unfold cache_item.is_virtual at h
    unfold cache_item.get_parent
    split
    · rename_i hs; simp [hs] at h
    · rfl
  · intro it hit parent parent_id hs hghost
    have hreg := hinv it hit
    unfold parent_registered at hreg
    cases parent with
    | some q =>
      simp only [hs] at hreg
      obtain ⟨P, hP, hreal⟩ := hreg
      refine ⟨q, P, ?_, hP, hreal, fun q1 hq1 => Option.some.inj hq1, fun hn => (by cases hn)⟩
      simp [cache_item.get_parent, hs, virtual_item_get_parent]
    | none =>
      simp only [hs] at hreg
      rcases hreg with ⟨p1, P, h0, hslot, hP, hreal⟩ | ⟨hg, -⟩
      · refine ⟨p1, P, ?_, hP, hreal, fun q1 hq1 => (by cases hq1), fun _ => ⟨h0, hslot⟩⟩
        simp [cache_item.get_parent, hs, virtual_item_get_parent, slot_of_index h0 hslot]
      · rw [hghost] at hg
        cases hg
  · intro name p h
    unfold symcache.get_item_by_name at h
    split at h
    · cases h
    · rename_i q hq
      simp only [if_true] at h
      split at h
      · rename_i it hit
        by_cases hv : it.is_virtual = true
        · rw [if_pos hv] at h
          exact get_parent_registered hinv (hmem q it hit) h
        · rw [if_neg hv] at h
          cases h
          exact ⟨it, hit, by simpa using hv⟩
      · cases h
  · intro id p h
    unfold symcache.get_item_by_id at h
    split at h
    · cases h
    · rename_i q hq
      simp only [if_true] at h
      split at h
      · rename_i it hit
        by_cases hv : it.is_virtual = true
        · rw [if_pos hv] at h
          exact get_parent_registered hinv (hmem q it hit) h
        · rw [if_neg hv] at h
          cases h
          exact ⟨it, hit, by simpa using hv⟩
      · cases h

theorem aliases_and_ghost_registered : parents_registered aliases_and_ghost := by
  intro it hit
  simp only [aliases_and_ghost, registry, List.mem_cons, List.mem_singleton,
    List.mem_nil_iff, or_false] at hit
  rcases hit with rfl | rfl | rfl | rfl
  · trivial
  · exact ⟨_, rfl, rfl⟩
  · exact Or.inl ⟨0, _, by decide, rfl, rfl, rfl⟩
  · exact Or.inr ⟨rfl, Or.inl (by decide)⟩

/-- C17, witness: the real item `P`, its aliases `V` (direct reference) and `W` (parent id)
and the ghost `G` without parent. -/
theorem C17_get_parent_real_witness :
    (∀ it : cache_item, it.is_virtual = false → it.get_parent aliases_and_ghost = none) ∧
    (∀ it ∈ aliases_and_ghost.heap, ∀ parent parent_id,
      it.specific = .virtual_item parent parent_id → it.type.ghost = false →
      ∃ p P, it.get_parent aliases_and_ghost = some p ∧
        aliases_and_ghost.item p = some P ∧ P.is_virtual = false ∧
        (∀ q, parent = some q → p = q) ∧
        (parent = none → 0 ≤ parent_id ∧
          aliases_and_ghost.items_by_id[parent_id.toNat]? = some (some p))) ∧
    (∀ name p, aliases_and_ghost.get_item_by_name name true = some p →
      ∃ P, aliases_and_ghost.item p = some P ∧ P.is_virtual = false) ∧
    (∀ id p, aliases_and_ghost.get_item_by_id id true = some p →
      ∃ P, aliases_and_ghost.item p = some P ∧ P.is_virtual = false) :=
  C17_get_parent_real aliases_and_ghost aliases_and_ghost_registered

theorem resolved_edge_fields (c : symcache) (sid : Int) (e : cache_dependency) :
    (resolved_edge c sid e).sym = e.sym ∧ (resolved_edge c sid e).vid = e.vid := by
  unfold resolved_edge
  split <;> exact ⟨rfl, rfl⟩

theorem resolved_edge_item (c : symcache) (sid : Int) (e : cache_dependency) :
    (resolved_edge c sid e).item =
      match accepted c sid e with
      | some r => some r.1
      | none => e.item := by
  unfold resolved_edge
  split
  · rename_i t tid h; simp [h]
  · rename_i h; simp [h]

/-- When every edge that is resolved before the call is accepted by it, the edges kept by
the erase are the accepted ones. -/
theorem kept_edges_eq (c : symcache) (sid : Int) :
    ∀ deps : List cache_dependency,
      (∀ e ∈ deps, e.item.isSome = true → (accepted c sid e).isSome = true) →
      ((deps.map (resolved_edge c sid)).filter fun d => d.item.isSome) =
        (deps.filter fun e => (accepted c sid e).isSome).map (resolved_edge c sid) := by
  intro deps
  induction deps with
  | nil => intro _; rfl
  | cons e rest ih =>
    intro h
    have ihr := ih (fun x hx => h x (List.mem_cons_of_mem _ hx))
    have he := h e (List.mem_cons_self _ _)
    simp only [List.map_cons, List.filter_cons, resolved_edge_item]
    cases ha : accepted c sid e with
    | none =>
      have : e.item.isSome = false := by
        cases hi : e.item.isSome
        · rfl
        · have := he hi; simp [ha] at this
      simp only [this, Option.isSome_none, Bool.false_eq_true, if_false]
      exact ihr
    | some r =>
      simp only [Option.isSome_some, if_true, List.map_cons, ihr]

/-- C15. For every item `X` whose edges resolved before the call, if any, are edges that the
call accepts (in particular when all edges are unresolved, as `add_dependency` makes them),
`process_deps(X)` returns and afterwards every edge of `X.deps` has a resolved target, and
`X.deps` is made of exactly the accepted edges of the former list, in their former order,
each with its symbol and virtual source id unchanged; an edge whose symbol is not registered
is not accepted, and no kept edge carries its symbol. -/
theorem C15_deps_pruned_in_order (c : symcache) (self : cache_item_ptr) (X : cache_item)
    (hX : c.item self = some X)
    (hpre : ∀ e ∈ X.deps, e.item.isSome = true → (accepted c X.id e).isSome = true)
    (hsafe : ∀ e ∈ X.deps, safe_edge c e) :
    ∃ c' X', process_deps c self = .ok c' ∧ c'.item self = some X' ∧
      (∀ e ∈ X'.deps, e.item.isSome = true) ∧
      X'.deps = (X.deps.filter fun e => (accepted c X.id e).isSome).map
        (resolved_edge c X.id) ∧
      (∀ e, (resolved_edge c X.id e).sym = e.sym ∧ (resolved_edge c X.id e).vid = e.vid) ∧
      (∀ e ∈ X.deps, c.find e.sym = none →
        accepted c X.id e = none ∧ ∀ e' ∈ X'.deps, e'.sym ≠ e.sym) := by
  obtain ⟨c', hc'⟩ := process_deps_total hX hsafe
  obtain ⟨⟨X', hX', -, -, hXd⟩, -⟩ := process_deps_items hX hc'
  have hunreg : ∀ e : cache_dependency, c.find e.sym = none → accepted c X.id e = none := by
    intro e he
    simp [accepted, symcache.get_item_by_name_mut, he]
  refine ⟨c', X', hc', hX', ?_, ?_, resolved_edge_fields c X.id, ?_⟩
  · intro e he
    rw [hXd] at he
    exact (List.mem_filter.mp he).2
  · rw [hXd, kept_edges_eq c X.id X.deps hpre]
  · intro e _ hnone
    refine ⟨hunreg e hnone, ?_⟩
    intro e' he' hsym
    rw [hXd, kept_edges_eq c X.id X.deps hpre] at he'
    simp only [List.mem_map, List.mem_filter] at he'
    obtain ⟨e0, ⟨-, hacc⟩, rfl⟩ := he'
    rw [(resolved_edge_fields c X.id e0).1] at hsym
    rw [hunreg e0 (by rw [hsym]; exact hnone)] at hacc
    cases hacc

/-- C15, witness: of the three edges of `A` in `mixed_edges` only the one on the filter `B`
is kept. -/
theorem C15_deps_pruned_in_order_witness :
    ∃ c' X', process_deps mixed_edges 0 = .ok c' ∧ c'.item 0 = some X' ∧
      (∀ e ∈ X'.deps, e.item.isSome = true) ∧
      X'.deps = ([(⟨none, "U", 0, -1⟩ : cache_dependency), ⟨none, "B", 0, -1⟩,
          ⟨none, "C", 0, -1⟩].filter fun e => (accepted mixed_edges 0 e).isSome).map
        (resolved_edge mixed_edges 0) ∧
      (∀ e, (resolved_edge mixed_edges 0 e).sym = e.sym ∧
        (resolved_edge mixed_edges 0 e).vid = e.vid) ∧
      (∀ e ∈ [(⟨none, "U", 0, -1⟩ : cache_dependency), ⟨none, "B", 0, -1⟩,
          ⟨none, "C", 0, -1⟩], mixed_edges.find e.sym = none →
        accepted mixed_edges 0 e = none ∧ ∀ e' ∈ X'.deps, e'.sym ≠ e.sym) :=
  C15_deps_pruned_in_order mixed_edges 0
    (real_item 0 "A" no_flags 0 true
      [⟨none, "U", 0, -1⟩, ⟨none, "B", 0, -1⟩, ⟨none, "C", 0, -1⟩]) rfl
    (by
      intro e he h
      simp only [real_item, List.mem_cons, List.mem_singleton, List.mem_nil_iff,
        or_false] at he
      rcases he with rfl | rfl | rfl <;> cases h)
    (fun e he => safe_edge_of_real _ (by
      simp only [real_item, List.mem_cons, List.mem_singleton, List.mem_nil_iff,
        or_false] at he
      rcases he with rfl | rfl | rfl <;> decide))

theorem same_but_stage_item {c c2 : symcache} (h : same_but_stage c c2) (q : cache_item_ptr) :
    (c2.item q).map cache_item.unstaged = (c.item q).map cache_item.unstaged := by
  have := congrArg (fun l : List cache_item => l[q]?) h.2
  simpa [symcache.item] using this

theorem same_but_stage_some {c c2 : symcache} (h : same_but_stage c c2) {q : cache_item_ptr}
    {it : cache_item} (hq : c.item q = some it) :
    ∃ it2, c2.item q = some it2 ∧ it2.specific = it.specific ∧ it2.id = it.id ∧
      it2.is_filter = it.is_filter ∧ it2.deps = it.deps := by
  have h1 := same_but_stage_item h q
  rw [hq] at h1
  cases h2 : c2.item q with
  | none => simp [h2] at h1
  | some it2 =>
    rw [h2] at h1
    simp only [Option.map_some', Option.some.injEq] at h1
    refine ⟨it2, rfl, ?_, ?_, ?_, ?_⟩
    · simpa [cache_item.unstaged] using congrArg cache_item.specific h1
    · simpa [cache_item.unstaged] using congrArg cache_item.id h1
    · simpa [cache_item.unstaged] using congrArg cache_item.is_filter h1
    · simpa [cache_item.unstaged] using congrArg cache_item.deps h1

theorem same_but_stage_none {c c2 : symcache} (h : same_but_stage c c2) {q : cache_item_ptr}
    (hq : c.item q = none) : c2.item q = none := by
  have h1 := same_but_stage_item h q
  rw [hq] at h1
  cases h2 : c2.item q with
  | none => rfl
  | some it2 => simp [h2] at h1

theorem same_but_stage_lookup {c c2 : symcache} (h : same_but_stage c c2) (name : String)
    (r : Bool) : c2.get_item_by_name name r = c.get_item_by_name name r := by
  have hsym : c2.items_by_symbol = c.items_by_symbol := by
    simpa using congrArg symcache.items_by_symbol h.1
  have hids : c2.items_by_id = c.items_by_id := by
    simpa using congrArg symcache.items_by_id h.1
  have hslot : ∀ id, c2.item_by_id_slot id = c.item_by_id_slot id := by
    intro id; simp [symcache.item_by_id_slot, hids]
  have hfind : c2.find name = c.find name := by simp [symcache.find, hsym]
  unfold symcache.get_item_by_name
  rw [hfind]
  cases c.find name with
  | none => rfl
  | some p =>
    cases r with
    | false => rfl
    | true =>
      cases hp : c.item p with
      | none => simp [same_but_stage_none h hp, hp]
      | some it =>
        obtain ⟨it2, hit2, hs, -, -, -⟩ := same_but_stage_some h hp
        simp [hit2, hp, cache_item.is_virtual, cache_item.get_parent, hs,
          virtual_item_get_parent, hslot]

theorem same_but_stage_accepted {c c2 : symcache} (h : same_but_stage c c2) (sid : Int)
    (dep : cache_dependency) : accepted c2 sid dep = accepted c sid dep := by
  unfold accepted
  rw [get_item_by_name_mut_eq, get_item_by_name_mut_eq, same_but_stage_lookup h]
  cases c.get_item_by_name dep.sym true with
  | none => rfl
  | some t =>
    cases ht : c.item t with
    | none => simp [same_but_stage_none h ht, ht]
    | some T =>
      obtain ⟨T2, hT2, -, hid, hf, -⟩ := same_but_stage_some h ht
      simp [hT2, ht, hid, hf]

theorem same_but_stage_safe {c c2 : symcache} (h : same_but_stage c c2)
    {dep : cache_dependency} (hs : safe_edge c dep) : safe_edge c2 dep := by
  intro hv hn
  rw [same_but_stage_lookup h] at hn
  obtain ⟨t, d, ht, hd⟩ := hs hv hn
  obtain ⟨d2, hd2, -⟩ := same_but_stage_some h hd
  refine ⟨t, d2, ?_, hd2⟩
  rw [get_item_by_name_mut_eq, same_but_stage_lookup h, ← get_item_by_name_mut_eq, ht]

/-- C18. Exact acceptance condition of `process_deps`: for every item `X` whose edges are all
unresolved before the call, the call returns and an edge of `X` survives (an edge with its
symbol is in `X.deps` afterwards) if and only if its symbol is registered and resolves through
virtual parents to an item `T` that is a filter with an id other than `X.id`; in that case the
edge is kept with target `T` and id `T.id` and its reverse edge is in `T.rdeps`. The condition
mentions neither the stage flags of `X` nor a priority, and the kept edges are the same in
every registry that differs only in stage flags and priorities. -/
theorem C18_exact_acceptance (c : symcache) (self : cache_item_ptr) (X : cache_item)
    (hX : c.item self = some X) (hun : ∀ e ∈ X.deps, e.item = none)
    (hsafe : ∀ e ∈ X.deps, safe_edge c e) :
    ∃ c' X', process_deps c self = .ok c' ∧ c'.item self = some X' ∧
      (∀ e ∈ X.deps,
        ((∃ t T, c.get_item_by_name_mut e.sym true = some t ∧ c.item t = some T ∧
            T.is_filter = true ∧ T.id ≠ X.id) ↔ ∃ e' ∈ X'.deps, e'.sym = e.sym) ∧
        ∀ t T, c.get_item_by_name_mut e.sym true = some t → c.item t = some T →
          T.is_filter = true → T.id ≠ X.id →
          { e with item := some t, id := T.id } ∈ X'.deps ∧
            reverse_edge self X.id e ∈ c'.rdeps_at t) ∧
      ∀ c2, same_but_stage c c2 →
        ∃ c2' X2', process_deps c2 self = .ok c2' ∧ c2'.item self = some X2' ∧
          X2'.deps = X'.deps := by
  obtain ⟨c', hc'⟩ := process_deps_total hX hsafe
  obtain ⟨⟨X', hX', -, -, hXd⟩, hall⟩ := process_deps_items hX hc'
  have hkeep : ∀ (e : cache_dependency) (t : cache_item_ptr) (T : cache_item), e ∈ X.deps →
      c.get_item_by_name_mut e.sym true = some t → c.item t = some T →
      T.is_filter = true → T.id ≠ X.id → { e with item := some t, id := T.id } ∈ X'.deps := by
    intro e t T he hl hT hf hi
    have hacc := accepted_eq_some hl hT hf hi
    rw [hXd]
    simp only [List.mem_filter, List.mem_map]
    exact ⟨⟨e, he, by simp [resolved_edge, hacc]⟩, rfl⟩
  refine ⟨c', X', hc', hX', fun e he => ⟨⟨?_, ?_⟩, ?_⟩, ?_⟩
  · rintro ⟨t, T, hl, hT, hf, hi⟩
    exact ⟨_, hkeep e t T he hl hT hf hi, rfl⟩
  · rintro ⟨e', he', hsym⟩
    rw [hXd] at he'
    obtain ⟨e0, he0, h | h⟩ := mem_kept_edges he'
    · obtain ⟨t, tid, hacc, rfl⟩ := h
      obtain ⟨hl, d, hd, hdf, hne, -⟩ := accepted_some_inv hacc
      simp only at hsym
      rw [hsym] at hl
      exact ⟨t, d, hl, hd, hdf, hne⟩
    · obtain ⟨-, rfl, hs⟩ := h
      simp [hun e' he0] at hs
  · intro t T hl hT hf hi
    refine ⟨hkeep e t T he hl hT hf hi, ?_⟩
    obtain ⟨T', hT', -, -, hTr⟩ := hall t T hT
    simp only [symcache.rdeps_at, hT', hTr]
    exact List.mem_append_right _ (mem_added_rdeps he (accepted_eq_some hl hT hf hi))
  · intro c2 h2
    obtain ⟨X2, hX2, -, hid2, -, hdeps2⟩ := same_but_stage_some h2 hX
    have hsafe2 : ∀ e ∈ X2.deps, safe_edge c2 e := by
      intro e he
      rw [hdeps2] at he
      exact same_but_stage_safe h2 (hsafe e he)
    obtain ⟨c2', hc2'⟩ := process_deps_total hX2 hsafe2
    obtain ⟨⟨X2', hX2', -, -, hX2d⟩, -⟩ := process_deps_items hX2 hc2'
    refine ⟨c2', X2', hc2', hX2', ?_⟩
    have hres : resolved_edge c2 X2.id = resolved_edge c X.id := by
      funext e
      simp only [resolved_edge, same_but_stage_accepted h2, hid2]
    rw [hX2d, hXd, hdeps2, hres]

/-- C18, witness: filter `A` with one edge on filter `B`. -/
theorem C18_exact_acceptance_witness :
    ∃ c' X', process_deps filter_on_filter 0 = .ok c' ∧ c'.item 0 = some X' ∧
      (∀ e ∈ [(⟨none, "B", 0, -1⟩ : cache_dependency)],
        ((∃ t T, filter_on_filter.get_item_by_name_mut e.sym true = some t ∧
            filter_on_filter.item t = some T ∧ T.is_filter = true ∧ T.id ≠ 0) ↔
          ∃ e' ∈ X'.deps, e'.sym = e.sym) ∧
        ∀ t T, filter_on_filter.get_item_by_name_mut e.sym true = some t →
          filter_on_filter.item t = some T → T.is_filter = true → T.id ≠ 0 →
          { e with item := some t, id := T.id } ∈ X'.deps ∧
            reverse_edge 0 0 e ∈ c'.rdeps_at t) ∧
      ∀ c2, same_but_stage filter_on_filter c2 →
        ∃ c2' X2', process_deps c2 0 = .ok c2' ∧ c2'.item 0 = some X2' ∧
          X2'.deps = X'.deps :=
  C18_exact_acceptance filter_on_filter 0
    (real_item 0 "A" no_flags 5 true [⟨none, "B", 0, -1⟩]) rfl
    (by simp [real_item])
    (fun e he => safe_edge_of_real _ (by
      simp only [real_item, List.mem_singleton] at he
      subst he
      decide))

/-- The propagation block for an edge with a virtual source id, a registered symbol and a
present parent-resolved target `T`. -/
theorem propagate_ids_some {c : symcache} {self t : cache_item_ptr} {X T : cache_item}
    {dep : cache_dependency} (hX : c.item self = some X) (hv : dep.vid ≥ 0)
    (hreg : c.get_item_by_name dep.sym false ≠ none) (hT : c.item t = some T) :
    ∃ c1, propagate_ids c self dep (some t) = .ok c1 ∧
      c1.item self = some { X with
        allowed_ids := if T.allowed_ids.length > 0 then T.allowed_ids else X.allowed_ids
        forbidden_ids :=
          if T.forbidden_ids.length > 0 then T.forbidden_ids else X.forbidden_ids } ∧
      ∀ q, q ≠ self → c1.item q = c.item q := by
  cases hn : c.get_item_by_name dep.sym false with
  | none => exact absurd hn hreg
  | some v =>
    have hb : (some t).bind c.item = some T := by simpa using hT
    simp only [propagate_ids, if_pos hv, hn, hb, get_ids, set_ids]
    by_cases ha : T.allowed_ids.length > 0 <;> by_cases hf : T.forbidden_ids.length > 0
    · simp only [if_pos ha, if_pos hf]
      refine ⟨_, rfl, ?_, fun q hq => ?_⟩
      · rw [item_modify, if_pos rfl, item_modify, if_pos rfl, hX]; rfl
      · rw [item_modify, if_neg (Ne.symm hq), item_modify, if_neg (Ne.symm hq)]
    · simp only [if_pos ha, if_neg hf]
      refine ⟨_, rfl, ?_, fun q hq => ?_⟩
      · rw [item_modify, if_pos rfl, hX]; rfl
      · rw [item_modify, if_neg (Ne.symm hq)]
    · simp only [if_neg ha, if_pos hf]
      refine ⟨_, rfl, ?_, fun q hq => ?_⟩
      · rw [item_modify, if_pos rfl, hX]; rfl
      · rw [item_modify, if_neg (Ne.symm hq)]
    · simp only [if_neg ha, if_neg hf]
      exact ⟨_, rfl, hX, fun _ _ => rfl⟩

/-- The propagation block does nothing for an edge without a virtual source id. -/
theorem propagate_ids_real (c : symcache) (self : cache_item_ptr) {dep : cache_dependency}
    (dit : Option cache_item_ptr) (hv : dep.vid < 0) :
    propagate_ids c self dep dit = .ok c := by
  simp only [propagate_ids, if_neg (not_le.mpr hv)]

/-- The identifier lists of the processed item after the propagation block for one edge. -/
theorem propagate_ids_step {c c1 : symcache} {self : cache_item_ptr} {me : cache_item}
    {dep : cache_dependency} (hme : c.item self = some me)
    (h : propagate_ids c self dep (c.get_item_by_name_mut dep.sym true) = .ok c1) :
    ∃ me1, c1.item self = some me1 ∧
      me1.allowed_ids = propagated_ids c self cache_item.allowed_ids me.allowed_ids dep ∧
      me1.forbidden_ids =
        propagated_ids c self cache_item.forbidden_ids me.forbidden_ids dep := by
  by_cases hv : dep.vid ≥ 0
  · cases hn : c.get_item_by_name dep.sym false with
    | none =>
      simp only [propagate_ids, if_pos hv, hn, Except.ok.injEq] at h
      subst h
      exact ⟨me, hme, by simp [propagated_ids, hv, hn], by simp [propagated_ids, hv, hn]⟩
    | some v =>
      cases hl : c.get_item_by_name_mut dep.sym true with
      | none =>
        rw [hl] at h
        simp [propagate_ids, hv, hn] at h
      | some t =>
        cases hT : c.item t with
        | none =>
          rw [hl] at h
          simp [propagate_ids, hv, hn, hT] at h
        | some T =>
          rw [hl] at h
          obtain ⟨c1', hc1', hs, -⟩ := propagate_ids_some hme hv (by simp [hn]) hT
          rw [h] at hc1'
          cases hc1'
          refine ⟨_, hs, ?_, ?_⟩
          · by_cases hts : t = self
            · subst hts
              rw [hme] at hT
              cases hT
              simp [propagated_ids, hv, hn, hl]
            · simp [propagated_ids, hv, hn, hl, hts, hT]
          · by_cases hts : t = self
            · subst hts
              rw [hme] at hT
              cases hT
              simp [propagated_ids, hv, hn, hl]
            · simp [propagated_ids, hv, hn, hl, hts, hT]
  · simp only [propagate_ids, if_neg hv, Except.ok.injEq] at h
    subst h
    exact ⟨me, hme, by simp [propagated_ids, hv], by simp [propagated_ids, hv]⟩

/-- The edge block leaves the identifier lists of every item as they are. -/
theorem link_dep_ids (c : symcache) (self : cache_item_ptr) (me : cache_item)
    (dep : cache_dependency) (dit : Option cache_item_ptr) (q : cache_item_ptr) :
    ((link_dep c self me dep dit).1.item q).map
        (fun it => (it.allowed_ids, it.forbidden_ids)) =
      (c.item q).map (fun it => (it.allowed_ids, it.forbidden_ids)) := by
  cases dit with
  | none => simp only [link_dep]
  | some t =>
    cases hd : c.item t with
    | none => simp only [link_dep, hd]
    | some d =>
      by_cases hf : d.is_filter = true
      · by_cases hi : d.id = me.id
        · simp [link_dep, hd, hf, hi]
        · simp only [link_dep, hd, hf, hi, Bool.not_true, Bool.false_eq_true, if_false]
          rw [item_modify]
          by_cases hq : t = q
          · rw [if_pos hq]; cases c.item q <;> simp
          · rw [if_neg hq]
      · simp [link_dep, hd, hf]

theorem propagated_ids_congr {self : cache_item_ptr}
    {a : cache_item_ptr → List cache_dependency} {c c' : symcache} (h : linked self a c c')
    (sel : cache_item → List Nat)
    (hsel : ∀ it it' : cache_item, (it.allowed_ids, it.forbidden_ids) =
      (it'.allowed_ids, it'.forbidden_ids) → sel it = sel it')
    (stored : List Nat) (dep : cache_dependency) :
    propagated_ids c' self sel stored dep = propagated_ids c self sel stored dep := by
  have s := h.skeleton
  unfold propagated_ids
  rw [get_item_by_name_mut_eq, get_item_by_name_mut_eq, get_item_by_name_congr s,
    get_item_by_name_congr s]
  by_cases hv : dep.vid ≥ 0
  · simp only [if_pos hv]
    cases c.get_item_by_name dep.sym false with
    | none => rfl
    | some v =>
      cases c.get_item_by_name dep.sym true with
      | none => rfl
      | some t =>
        by_cases hts : t = self
        · simp only [if_pos hts]
        · simp only [if_neg hts]
          have hi := h.ids t hts
          cases h1 : c'.item t <;> cases h2 : c.item t <;> simp [h1, h2] at hi ⊢
          rename_i it' it
          have := hsel it' it (by rw [hi.1, hi.2])
          rw [this]
  · simp only [if_neg hv]

theorem sel_allowed (it it' : cache_item)
    (h : (it.allowed_ids, it.forbidden_ids) = (it'.allowed_ids, it'.forbidden_ids)) :
    it.allowed_ids = it'.allowed_ids := (Prod.mk.inj h).1

theorem sel_forbidden (it it' : cache_item)
    (h : (it.allowed_ids, it.forbidden_ids) = (it'.allowed_ids, it'.forbidden_ids)) :
    it.forbidden_ids = it'.forbidden_ids := (Prod.mk.inj h).2

/-- The identifier lists of the processed item after the loop of `process_deps`. -/
theorem process_deps_loop_ids (self : cache_item_ptr) :
    ∀ (deps : List cache_dependency) (c c' : symcache) (out : List cache_dependency)
      (me : cache_item), c.item self = some me →
      process_deps_loop self c deps = .ok (c', out) →
      ∃ me', c'.item self = some me' ∧
        me'.allowed_ids =
          deps.foldl (propagated_ids c self cache_item.allowed_ids) me.allowed_ids ∧
        me'.forbidden_ids =
          deps.foldl (propagated_ids c self cache_item.forbidden_ids) me.forbidden_ids := by
  intro deps
  induction deps with
  | nil =>
    intro c c' out me hme h
    simp only [process_deps_loop, Except.ok.injEq, Prod.mk.injEq] at h
    obtain ⟨rfl, rfl⟩ := h
    exact ⟨me, hme, rfl, rfl⟩
  | cons dep rest ih =>
    intro c c' out me hme h
    simp only [process_deps_loop, hme] at h
    cases hp : propagate_ids c self dep (c.get_item_by_name_mut dep.sym true) with
    | error e => simp [hp] at h
    | ok c1 =>
      simp only [hp] at h
      obtain ⟨me1, hme1, ha1, hf1⟩ := propagate_ids_step hme hp
      have l1 := propagate_ids_linked hp
      have hlk : c.get_item_by_name_mut dep.sym true = c1.get_item_by_name_mut dep.sym true := by
        rw [get_item_by_name_mut_eq, get_item_by_name_mut_eq, get_item_by_name_congr l1.skeleton]
      rw [hlk] at h
      obtain ⟨l2, -⟩ := link_dep_spec c1 self me dep
      have hids := link_dep_ids c1 self me dep (c1.get_item_by_name_mut dep.sym true) self
      generalize link_dep c1 self me dep (c1.get_item_by_name_mut dep.sym true) = r
        at h l2 hids
      cases hr : process_deps_loop self r.1 rest with
      | error e => simp [hr] at h
      | ok res =>
        obtain ⟨c2, rest2⟩ := res
        simp only [hr, Except.ok.injEq, Prod.mk.injEq] at h
        obtain ⟨rfl, rfl⟩ := h
        have l12 := l1.trans l2
        rw [hme1] at hids
        cases hme2 : r.1.item self with
        | none => simp [hme2] at hids
        | some me2 =>
          simp only [hme2, Option.map_some', Option.some.injEq, Prod.mk.injEq] at hids
          obtain ⟨me', hme', ha', hf'⟩ := ih r.1 c2 rest2 me2 hme2 hr
          refine ⟨me', hme', ?_, ?_⟩
          · rw [ha', hids.1, ha1, List.foldl_cons]
            congr 1
            funext stored d
            exact propagated_ids_congr l12 _ sel_allowed stored d
          · rw [hf', hids.2, hf1, List.foldl_cons]
            congr 1
            funext stored d
            exact propagated_ids_congr l12 _ sel_forbidden stored d

/-- The identifier lists of the processed item after `process_deps`. -/
theorem process_deps_ids {c c' : symcache} {self : cache_item_ptr} {me : cache_item}
    (hme : c.item self = some me) (h : process_deps c self = .ok c') :
    ∃ me', c'.item self = some me' ∧
      me'.allowed_ids =
        me.deps.foldl (propagated_ids c self cache_item.allowed_ids) me.allowed_ids ∧
      me'.forbidden_ids =
        me.deps.foldl (propagated_ids c self cache_item.forbidden_ids) me.forbidden_ids := by
  simp only [process_deps, hme] at h
  cases hl : process_deps_loop self c me.deps with
  | error e => simp [hl] at h
  | ok r =>
    obtain ⟨c1, out⟩ := r
    simp only [hl, Except.ok.injEq] at h
    obtain ⟨me1, hme1, ha, hf⟩ := process_deps_loop_ids self me.deps c c1 out me hme hl
    subst h
    exact ⟨{ me1 with deps := out.filter fun d => d.item.isSome },
      by rw [item_modify, if_pos rfl, hme1]; rfl, ha, hf⟩

/-- A run of edges none of which propagates a non-empty list leaves the stored list. -/
theorem foldl_propagated_keep (c : symcache) (self : cache_item_ptr)
    (sel : cache_item → List Nat) (stored : List Nat) :
    ∀ post : List cache_dependency,
      (∀ e ∈ post, ∀ t' T', e.vid ≥ 0 → c.get_item_by_name_mut e.sym true = some t' →
        c.item t' = some T' → t' ≠ self → sel T' = []) →
      post.foldl (propagated_ids c self sel) stored = stored := by
  intro post
  induction post with
  | nil => intro _; rfl
  | cons e rest ih =>
    intro h
    have hstep : propagated_ids c self sel stored e = stored := by
      unfold propagated_ids
      by_cases hv : e.vid ≥ 0
      · simp only [if_pos hv]
        cases c.get_item_by_name e.sym false with
        | none => rfl
        | some v =>
          cases hl : c.get_item_by_name_mut e.sym true with
          | none => rfl
          | some t' =>
            by_cases hts : t' = self
            · simp only [if_pos hts]
            · simp only [if_neg hts]
              cases hT : c.item t' with
              | none => rfl
              | some T' =>
                have := h e (List.mem_cons_self _ _) t' T' hv hl hT hts
                simp [this]
      · simp only [if_neg hv]
    rw [List.foldl_cons, hstep]
    exact ih (fun x hx => h x (List.mem_cons_of_mem _ hx))

/-- C16. Identifier propagation has replace semantics. For every item `X` and edge that
carries a virtual source id and whose symbol is registered and resolves to a present item
`T`, the propagation block returns and leaves `X.allowed_ids` equal to `T.allowed_ids` when
that list is not empty and unchanged otherwise, and likewise for `forbidden_ids`; for an edge
without a virtual source id the block changes nothing. After `process_deps(X)` each list of
`X` is the result of these replacements taken edge by edge in order, so the last edge with a
non-empty list (of a target other than `X`) determines it, and when no edge carries a virtual
source id both lists are as before. -/
theorem C16_identifier_replace (c : symcache) (self : cache_item_ptr) (X : cache_item)
    (hX : c.item self = some X) (hsafe : ∀ e ∈ X.deps, safe_edge c e) :
    (∀ dep t T, dep.vid ≥ 0 → c.get_item_by_name dep.sym false ≠ none →
      c.get_item_by_name_mut dep.sym true = some t → c.item t = some T →
      ∃ c1, propagate_ids c self dep (c.get_item_by_name_mut dep.sym true) = .ok c1 ∧
        c1.item self = some { X with
          allowed_ids := if T.allowed_ids.length > 0 then T.allowed_ids else X.allowed_ids
          forbidden_ids :=
            if T.forbidden_ids.length > 0 then T.forbidden_ids else X.forbidden_ids }) ∧
    (∀ dep dit, dep.vid < 0 → propagate_ids c self dep dit = .ok c) ∧
    ∃ c' X', process_deps c self = .ok c' ∧ c'.item self = some X' ∧
      X'.allowed_ids =
        X.deps.foldl (propagated_ids c self cache_item.allowed_ids) X.allowed_ids ∧
      X'.forbidden_ids =
        X.deps.foldl (propagated_ids c self cache_item.forbidden_ids) X.forbidden_ids ∧
      (∀ pre dep post t T, X.deps = pre ++ dep :: post → dep.vid ≥ 0 →
        c.get_item_by_name dep.sym false ≠ none →
        c.get_item_by_name_mut dep.sym true = some t → c.item t = some T → t ≠ self →
        T.allowed_ids.length > 0 →
        (∀ e ∈ post, ∀ t' T', e.vid ≥ 0 → c.get_item_by_name_mut e.sym true = some t' →
          c.item t' = some T' → t' ≠ self → T'.allowed_ids = []) →
        X'.allowed_ids = T.allowed_ids) ∧
      (∀ pre dep post t T, X.deps = pre ++ dep :: post → dep.vid ≥ 0 →
        c.get_item_by_name dep.sym false ≠ none →
        c.get_item_by_name_mut dep.sym true = some t → c.item t = some T → t ≠ self →
        T.forbidden_ids.length > 0 →
        (∀ e ∈ post, ∀ t' T', e.vid ≥ 0 → c.get_item_by_name_mut e.sym true = some t' →
          c.item t' = some T' → t' ≠ self → T'.forbidden_ids = []) →
        X'.forbidden_ids = T.forbidden_ids) ∧
      ((∀ e ∈ X.deps, e.vid < 0) →
        X'.allowed_ids = X.allowed_ids ∧ X'.forbidden_ids = X.forbidden_ids) := by
  have hlast : ∀ (sel : cache_item → List Nat) (stored : List Nat)
      (pre : List cache_dependency) (dep : cache_dependency) (post : List cache_dependency)
      (t : cache_item_ptr) (T : cache_item), dep.vid ≥ 0 →
      c.get_item_by_name dep.sym false ≠ none →
      c.get_item_by_name_mut dep.sym true = some t → c.item t = some T → t ≠ self →
      (sel T).length > 0 →
      (∀ e ∈ post, ∀ t' T', e.vid ≥ 0 → c.get_item_by_name_mut e.sym true = some t' →
        c.item t' = some T' → t' ≠ self → sel T' = []) →
      (pre ++ dep :: post).foldl (propagated_ids c self sel) stored = sel T := by
    intro sel stored pre dep post t T hv hreg hl hT hts hne hpost
    rw [List.foldl_append, List.foldl_cons]
    have hstep : ∀ s, propagated_ids c self sel s dep = sel T := by
      intro s
      cases hn : c.get_item_by_name dep.sym false with
      | none => exact absurd hn hreg
      | some v => simp [propagated_ids, hv, hn, hl, hts, hT, hne]
    rw [hstep]
    exact foldl_propagated_keep c self sel (sel T) post hpost
  refine ⟨?_, fun dep dit hv => propagate_ids_real c self dit hv, ?_⟩
  · intro dep t T hv hreg hl hT
    rw [hl]
    obtain ⟨c1, h1, h2, -⟩ := propagate_ids_some hX hv hreg hT
    exact ⟨c1, h1, h2⟩
  · obtain ⟨c', hc'⟩ := process_deps_total hX hsafe
    obtain ⟨X', hX', ha, hf⟩ := process_deps_ids hX hc'
    refine ⟨c', X', hc', hX', ha, hf, ?_, ?_, ?_⟩
    · intro pre dep post t T hd hv hreg hl hT hts hne hpost
      rw [ha, hd]
      exact hlast cache_item.allowed_ids _ pre dep post t T hv hreg hl hT hts hne hpost
    · intro pre dep post t T hd hv hreg hl hT hts hne hpost
      rw [hf, hd]
      exact hlast cache_item.forbidden_ids _ pre dep post t T hv hreg hl hT hts hne hpost
    · intro hall
      have hk : ∀ sel stored, X.deps.foldl (propagated_ids c self sel) stored = stored :=
        fun sel stored => foldl_propagated_keep c self sel stored X.deps
          (fun e he _ _ hv => absurd hv (not_le.mpr (hall e he)))
      rw [ha, hf, hk, hk]
      exact ⟨rfl, rfl⟩

theorem propagating_edges_safe :
    ∀ e ∈ propagating_alias.deps, safe_edge propagating_edges e := by
  intro e he
  simp only [propagating_alias, List.mem_cons, List.mem_singleton, List.mem_nil_iff,
    or_false] at he
  rcases he with rfl | rfl | rfl
  · exact fun _ _ => ⟨0, _, rfl, rfl⟩
  · exact fun _ _ => ⟨1, _, rfl, rfl⟩
  · exact safe_edge_of_real _ (by decide)

/-- C16, witness: the alias `V` of `propagating_edges` starts with allowed ids 5 and no
forbidden id; its edge on `T` brings allowed ids 1, 2 and forbidden ids 9, its edge on `U`
then replaces the allowed ids by 7 and, `U` having no forbidden id, leaves the forbidden ids;
its last edge carries no virtual source id. -/
theorem C16_identifier_replace_witness :
    ∃ c' X', process_deps propagating_edges 2 = .ok c' ∧ c'.item 2 = some X' ∧
      X'.allowed_ids = [7] ∧ X'.forbidden_ids = [9] := by
  obtain ⟨-, -, c', X', h1, h2, h3, h4, -⟩ :=
    C16_identifier_replace propagating_edges 2 propagating_alias rfl propagating_edges_safe
  exact ⟨c', X', h1, h2, h3.trans rfl, h4.trans rfl⟩

theorem safe_edge_skeleton {c c' : symcache} (h : c'.skeleton = c.skeleton)
    {dep : cache_dependency} (hs : safe_edge c dep) : safe_edge c' dep := by
  intro hv hn
  rw [get_item_by_name_congr h] at hn
  obtain ⟨t, d, ht, hd⟩ := hs hv hn
  have hc := item_core_congr h t
  rw [hd] at hc
  cases hd' : c'.item t with
  | none => rw [hd'] at hc; cases hc
  | some d' =>
    refine ⟨t, d', ?_, hd'⟩
    rw [get_item_by_name_mut_eq, get_item_by_name_congr h, ← get_item_by_name_mut_eq, ht]

/-- What one call of `process_deps` leaves in the whole registry. -/
theorem process_deps_frame {c c1 : symcache} {x : cache_item_ptr} {X : cache_item}
    (hX : c.item x = some X) (h : process_deps c x = .ok c1) :
    c1.skeleton = c.skeleton ∧
      (∀ q, c1.rdeps_at q = c.rdeps_at q ++ added_rdeps c x X.id q X.deps) ∧
      (∀ q, q ≠ x → c1.deps_at q = c.deps_at q) ∧
      (∀ q, (c1.item q).map cache_item.id = (c.item q).map cache_item.id) ∧
      c1.deps_at x =
        some ((X.deps.map (resolved_edge c X.id)).filter fun d => d.item.isSome) := by
  obtain ⟨c0, l, rfl⟩ := process_deps_spec hX h
  have hun : ∀ q, (c0.item q).map cache_item.deps = (c.item q).map cache_item.deps ∧
      (c0.item q).map cache_item.id = (c.item q).map cache_item.id := by
    intro q
    have hu := l.unl q
    cases h1 : c0.item q <;> cases h2 : c.item q <;> simp [h1, h2] at hu ⊢
    exact ⟨by simpa [cache_item.unlinked] using congrArg cache_item.deps hu,
      by simpa [cache_item.unlinked] using congrArg cache_item.id hu⟩
  refine ⟨?_, ?_, ?_, ?_, ?_⟩
  · refine Eq.trans ?_ l.skeleton
    apply skeleton_modify
    intro _
    rfl
  · intro q
    rw [← l.rd q]
    simp only [symcache.rdeps_at, item_modify]
    by_cases hq : x = q
    · rw [if_pos hq]; cases c0.item q <;> rfl
    · rw [if_neg hq]
  · intro q hq
    simp only [symcache.deps_at]
    rw [item_modify, if_neg (Ne.symm hq)]
    exact (hun q).1
  · intro q
    rw [item_modify]
    by_cases hq : x = q
    · rw [if_pos hq, ← (hun q).2]; cases c0.item q <;> rfl
    · rw [if_neg hq]; exact (hun q).2
  · obtain ⟨X0, hX0, -, -⟩ := l.item_some hX
    simp only [symcache.deps_at]
    rw [item_modify, if_pos rfl, hX0]
    rfl

theorem collected_rdeps_congr {c c1 : symcache} (hs : c1.skeleton = c.skeleton)
    (t : cache_item_ptr) :
    ∀ work : List cache_item_ptr,
      (∀ y ∈ work, c1.deps_at y = c.deps_at y ∧
        (c1.item y).map cache_item.id = (c.item y).map cache_item.id) →
      collected_rdeps c1 t work = collected_rdeps c t work := by
  intro work
  induction work with
  | nil => intro _; rfl
  | cons y rest ih =>
    intro h
    obtain ⟨hd, hi⟩ := h y (List.mem_cons_self _ _)
    simp only [collected_rdeps, ih (fun z hz => h z (List.mem_cons_of_mem _ hz))]
    congr 1
    simp only [symcache.deps_at] at hd
    cases h1 : c1.item y <;> cases h2 : c.item y <;> simp [h1, h2] at hd hi ⊢
    rw [hd, hi, added_rdeps_congr hs]

theorem process_deps_all_append (l1 l2 : List (Option cache_item_ptr)) :
    ∀ c : symcache, process_deps_all c (l1 ++ l2) =
      match process_deps_all c l1 with
      | .error e => .error e
      | .ok c1 => process_deps_all c1 l2 := by
  induction l1 with
  | nil => intro c; rfl
  | cons x rest ih =>
    intro c
    cases x with
    | none => rfl
    | some p =>
      simp only [List.cons_append, process_deps_all]
      cases process_deps c p with
      | error e => rfl
      | ok c1 => exact ih c1

theorem deps_at_some {c : symcache} {q : cache_item_ptr} {l : List cache_dependency}
    (h : c.deps_at q = some l) : ∃ it, c.item q = some it ∧ it.deps = l := by
  simp only [symcache.deps_at] at h
  cases hq : c.item q with
  | none => simp [hq] at h
  | some it => exact ⟨it, rfl, by simpa [hq] using h⟩

theorem deps_at_of_item {c : symcache} {q : cache_item_ptr} {it : cache_item}
    (h : c.item q = some it) : c.deps_at q = some it.deps := by
  simp [symcache.deps_at, h]

/-- The resolution pass over a list of distinct addresses: it returns, and the reverse edges,
the edges of the processed items and the edges of the other items are as follows. -/
theorem process_deps_all_spec :
    ∀ (work : List cache_item_ptr) (c : symcache), work.Nodup →
      (∀ x ∈ work, ∃ X, c.item x = some X ∧ ∀ e ∈ X.deps, safe_edge c e) →
      ∃ c', process_deps_all c (work.map some) = .ok c' ∧ c'.skeleton = c.skeleton ∧
        (∀ t, c'.rdeps_at t = c.rdeps_at t ++ collected_rdeps c t work) ∧
        (∀ q, q ∉ work → c'.deps_at q = c.deps_at q) ∧
        (∀ q, (c'.item q).map cache_item.id = (c.item q).map cache_item.id) ∧
        (∀ x ∈ work, ∀ X, c.item x = some X → c'.deps_at x =
          some ((X.deps.map (resolved_edge c X.id)).filter fun d => d.item.isSome)) := by
  intro work
  induction work with
  | nil =>
    intro c _ _
    exact ⟨c, rfl, rfl, fun t => by simp [collected_rdeps], fun _ _ => rfl, fun _ => rfl,
      fun x hx => absurd hx (List.not_mem_nil x)⟩
  | cons x rest ih =>
    intro c hnd hok
    obtain ⟨hxr, hndr⟩ := List.nodup_cons.mp hnd
    obtain ⟨X, hX, hXs⟩ := hok x (List.mem_cons_self _ _)
    obtain ⟨c1, h1⟩ := process_deps_total hX hXs
    obtain ⟨s1, r1, d1, i1, k1⟩ := process_deps_frame hX h1
    have hne : ∀ y ∈ rest, y ≠ x := fun y hy e => hxr (e ▸ hy)
    have hrest : ∀ y ∈ rest, ∃ Y, c1.item y = some Y ∧ ∀ e ∈ Y.deps, safe_edge c1 e := by
      intro y hy
      obtain ⟨Y, hY, hYs⟩ := hok y (List.mem_cons_of_mem _ hy)
      have hd := d1 y (hne y hy)
      rw [deps_at_of_item hY] at hd
      obtain ⟨Y1, hY1, hYd⟩ := deps_at_some hd
      exact ⟨Y1, hY1, fun e he => safe_edge_skeleton s1 (hYs e (hYd ▸ he))⟩
    obtain ⟨c', h', s', r', d', i', k'⟩ := ih c1 hndr hrest
    refine ⟨c', ?_, s'.trans s1, ?_, ?_, ?_, ?_⟩
    · simp only [List.map_cons, process_deps_all, h1, h']
    · intro t
      rw [r' t, r1 t, List.append_assoc]
      congr 1
      simp only [collected_rdeps, hX]
      congr 1
      exact collected_rdeps_congr s1 t rest (fun y hy => ⟨d1 y (hne y hy), i1 y⟩)
    · intro q hq
      have hq1 : q ≠ x := fun e => hq (e ▸ List.mem_cons_self _ _)
      have hq2 : q ∉ rest := fun e => hq (List.mem_cons_of_mem _ e)
      rw [d' q hq2, d1 q hq1]
    · intro q
      rw [i' q, i1 q]
    · intro y hy Y hY
      rcases List.mem_cons.mp hy with rfl | hyr
      · rw [hX] at hY
        cases hY
        rw [d' y hxr, k1]
      · have hd := d1 y (hne y hyr)
        rw [deps_at_of_item hY] at hd
        obtain ⟨Y1, hY1, hYd⟩ := deps_at_some hd
        have hi := i1 y
        rw [hY1, hY] at hi
        simp only [Option.map_some', Option.some.injEq] at hi
        have hres : resolved_edge c1 Y.id = resolved_edge c Y.id :=
          funext fun e => resolved_edge_congr s1 Y.id e
        rw [k' y hyr Y1 hY1, hYd, hi, hres]

/-- For edges that are all unresolved, the reverse images of the kept edges with target `t`
are the reverse edges that the call appended at `t`. -/
theorem kept_reverse_images (c : symcache) (x : cache_item_ptr) (sid : Int)
    (t : cache_item_ptr) :
    ∀ deps : List cache_dependency, (∀ e ∈ deps, e.item = none) →
      ((((deps.map (resolved_edge c sid)).filter fun d => d.item.isSome).filter
          fun e => e.item = some t).map fun e => (⟨some x, e.sym, sid, -1⟩ : cache_dependency)) =
        added_rdeps c x sid t deps := by
  intro deps
  induction deps with
  | nil => intro _; rfl
  | cons e rest ih =>
    intro h
    have ihr := ih (fun z hz => h z (List.mem_cons_of_mem _ hz))
    have he := h e (List.mem_cons_self _ _)
    rw [added_rdeps_cons, ← ihr]
    have hitem := resolved_edge_item c sid e
    have hsym := (resolved_edge_fields c sid e).1
    cases ha : accepted c sid e with
    | none =>
      rw [ha] at hitem
      simp only [he] at hitem
      have hadd : added_rdeps c x sid t [e] = [] := by simp [added_rdeps, ha]
      simp only [List.map_cons, List.filter_cons, hitem, Option.isSome_none,
        Bool.false_eq_true, if_false, hadd, List.nil_append]
    | some r =>
      obtain ⟨t', tid⟩ := r
      rw [ha] at hitem
      simp only at hitem
      by_cases ht : t' = t
      · subst ht
        have hadd : added_rdeps c x sid t' [e] = [reverse_edge x sid e] := by
          simp [added_rdeps, ha]
        simp only [List.map_cons, List.filter_cons, hitem, Option.isSome_some, if_true,
          decide_True, hadd, hsym, reverse_edge, List.singleton_append]
      · have hadd : added_rdeps c x sid t [e] = [] := by simp [added_rdeps, ha, ht]
        have hdec : decide (some t' = some t) = false := by simp [ht]
        simp only [List.map_cons, List.filter_cons, hitem, Option.isSome_some, if_true,
          hdec, Bool.false_eq_true, if_false, hadd, List.nil_append]

/-- After the pass, the reverse images of the edges of the processed items are the reverse
edges that the pass appended. -/
theorem reverse_images_collected (c c' : symcache) (t : cache_item_ptr) :
    ∀ work : List cache_item_ptr,
      (∀ x ∈ work, ∃ X, c.item x = some X ∧ (∀ e ∈ X.deps, e.item = none) ∧
        c'.deps_at x =
          some ((X.deps.map (resolved_edge c X.id)).filter fun d => d.item.isSome) ∧
        (c'.item x).map cache_item.id = some X.id) →
      reverse_images c' t work = collected_rdeps c t work := by
  intro work
  induction work with
  | nil => intro _; rfl
  | cons x rest ih =>
    intro h
    obtain ⟨X, hX, hun, hk, hi⟩ := h x (List.mem_cons_self _ _)
    obtain ⟨X1, hX1, hXd⟩ := deps_at_some hk
    rw [hX1] at hi
    simp only [Option.map_some', Option.some.injEq] at hi
    simp only [reverse_images, collected_rdeps, hX, hX1, hXd, hi,
      ih (fun z hz => h z (List.mem_cons_of_mem _ hz))]
    rw [kept_reverse_images c x X.id t X.deps hun]

/-- C20: take a registry whose work lists `items_by_id` and `virtual_symbols` hold no null
entry and no address twice, whose edges are all unresolved and read a present target, and
whose reverse-edge lists are all empty. The two resolution loops of `init` return, and in the
resulting registry the reverse edges stored at any address `t` are exactly the reverse images
of the edges with target `t` that survive in the processed items: one reverse edge per
surviving edge, naming the address and the id of the item that holds the edge, in the order
of processing. The items outside the work lists keep edges without target, so that no other
edge points at `t`. -/
theorem C20_reverse_edges_match (c : symcache) (work1 work2 : List cache_item_ptr)
    (h1 : c.items_by_id = work1.map some) (h2 : c.virtual_symbols = work2.map some)
    (hnodup : (work1 ++ work2).Nodup)
    (hfresh : ∀ it ∈ c.heap, (∀ e ∈ it.deps, e.item = none) ∧ it.rdeps = [])
    (hsafe : ∀ x ∈ work1 ++ work2, ∃ X, c.item x = some X ∧ ∀ e ∈ X.deps, safe_edge c e) :
    ∃ c1 c', process_deps_all c c.items_by_id = .ok c1 ∧
      process_deps_all c1 c1.virtual_symbols = .ok c' ∧
      (∀ t, c'.rdeps_at t = reverse_images c' t (work1 ++ work2)) ∧
      (∀ q, q ∉ work1 ++ work2 → ∀ it, c'.item q = some it → ∀ e ∈ it.deps, e.item = none) := by
  have hmem : ∀ q it, c.item q = some it → it ∈ c.heap := by
    intro q it hq
    simp only [symcache.item] at hq
    exact List.getElem?_mem hq
  obtain ⟨c', h', -, r', d', i', k'⟩ := process_deps_all_spec (work1 ++ work2) c hnodup hsafe
  obtain ⟨c1, hc1, s1, -⟩ := process_deps_all_spec work1 c (List.Nodup.of_append_left hnodup)
    (fun x hx => hsafe x (List.mem_append_left _ hx))
  rw [List.map_append, process_deps_all_append, hc1] at h'
  simp only at h'
  refine ⟨c1, c', by rw [h1, hc1], ?_, ?_, ?_⟩
  · have hv : c1.virtual_symbols = c.virtual_symbols := by
      simpa [symcache.skeleton] using congrArg symcache.virtual_symbols s1
    rw [hv, h2]
    exact h'
  · intro t
    have hempty : c.rdeps_at t = [] := by
      simp only [symcache.rdeps_at]
      cases ht : c.item t with
      | none => rfl
      | some T => exact (hfresh T (hmem t T ht)).2
    rw [r' t, hempty, List.nil_append]
    symm
    apply reverse_images_collected
    intro x hx
    obtain ⟨X, hX, -⟩ := hsafe x hx
    refine ⟨X, hX, (hfresh X (hmem x X hX)).1, k' x hx X hX, ?_⟩
    rw [i' x, hX]
    rfl
  · intro q hq it hit e he
    have hd := d' q hq
    rw [deps_at_of_item hit] at hd
    obtain ⟨it0, hit0, hde⟩ := deps_at_some hd.symm
    exact (hfresh it0 (hmem q it0 hit0)).1 e (hde ▸ he)

/-- C20, witness: in `unresolved_graph` the filters `A`, `B`, `C` are processed, then the
alias `V`; the premises hold there. -/
theorem C20_reverse_edges_match_witness :
    ∃ c1 c', process_deps_all unresolved_graph unresolved_graph.items_by_id = .ok c1 ∧
      process_deps_all c1 c1.virtual_symbols = .ok c' ∧
      (∀ t, c'.rdeps_at t = reverse_images c' t ([0, 1, 2] ++ [3])) ∧
      (∀ q, q ∉ [0, 1, 2] ++ [3] → ∀ it, c'.item q = some it →
        ∀ e ∈ it.deps, e.item = none) :=
  C20_reverse_edges_match unresolved_graph [0, 1, 2] [3] rfl rfl (by decide)
    (by
      intro it hit
      simp only [unresolved_graph, registry, List.mem_cons, List.mem_singleton,
        List.mem_nil_iff, or_false] at hit
      rcases hit with rfl | rfl | rfl | rfl <;>
        exact ⟨by simp [real_item, alias_item], rfl⟩)
    (by
      intro x hx
      simp only [List.cons_append, List.nil_append, List.mem_cons, List.mem_singleton,
        List.mem_nil_iff, or_false] at hx
      rcases hx with rfl | rfl | rfl | rfl
      · refine ⟨real_item 0 "A" no_flags 0 true [⟨none, "B", 0, -1⟩, ⟨none, "U", 0, -1⟩],
          rfl, fun e he => safe_edge_of_real _ ?_⟩
        simp only [real_item, List.mem_cons, List.mem_singleton, List.mem_nil_iff,
          or_false] at he
        rcases he with rfl | rfl <;> decide
      · refine ⟨real_item 1 "B" no_flags 0 true [⟨none, "C", 1, -1⟩],
          rfl, fun e he => safe_edge_of_real _ ?_⟩
        simp only [real_item, List.mem_cons, List.mem_singleton, List.mem_nil_iff,
          or_false] at he
        rcases he with rfl
        decide
      · refine ⟨real_item 2 "C" no_flags 0 true [⟨none, "B", 2, -1⟩],
          rfl, fun e he => safe_edge_of_real _ ?_⟩
        simp only [real_item, List.mem_cons, List.mem_singleton, List.mem_nil_iff,
          or_false] at he
        rcases he with rfl
        decide
      · refine ⟨{ alias_item 3 "V" no_flags (some 0) 0 with deps := [⟨none, "C", -1, 0⟩] },
          rfl, fun e he => ?_⟩
        simp only [alias_item, List.mem_cons, List.mem_singleton, List.mem_nil_iff,
          or_false] at he
        rcases he with rfl
        exact fun _ _ => ⟨2, _, rfl, rfl⟩)


end rspamd
